import Mathlib

/-! VibeAnalyze: the comment-annotation pipeline.

A shallow embedding of the backend's analysis pipeline
(`analysis/services/data-analyzer.service.ts`, `common/utils/json.util.ts`,
`analysis/analysis.processor.ts`), of the DuckAI adapter
(`duckai/duckai.service.ts`) and of the platform address utilities
(`common/utils/platform.util.ts`,
`common/validators/is-valid-platform.validator.ts`), together with the
properties established about them.

Conventions of the embedding:

* a JavaScript string is a Lean `String`; its `.length` is the number of
  UTF-16 code units (`jsLength`);
* a function that may throw returns `Except JsError _`;
* library calls whose code is outside the repository (`JSON.stringify`,
  the `partial-json` parser, the model providers, the `==` coercions,
  `toLowerCase`) are parameters of the definitions that use them.
-/

namespace VibeAnalyze

/-! ## JavaScript values -/

/-- A thrown JavaScript error: the constructor name and the `message`. -/
structure JsError where
  name : String
  message : String
deriving DecidableEq, Repr

/-- The error made by `new Error(message)`. -/
def JsError.error (message : String) : JsError := JsError.mk "Error" message

/-- The error raised by reading a property of `null`. -/
def JsError.nullProperty (property : String) : JsError :=
  JsError.mk "TypeError" ("Cannot read properties of null (reading '" ++ property ++ "')")

/-- A JavaScript number: `NaN` or a finite value (negative zero is zero). -/
inductive JsNumber where
  | nan
  | finite (q : ℚ)
deriving DecidableEq, Repr

/-- The JavaScript values that a JSON parser or a property read can give. -/
inductive JsValue where
  | undefined
  | null
  | bool (b : Bool)
  | num (n : JsNumber)
  | str (s : String)
  | arr (items : List JsValue)
  | obj (fields : List (String × JsValue))
deriving Repr

/-- The `length` of a JavaScript string: its number of UTF-16 code units. -/
def jsLength (s : String) : Nat :=
  (s.data.map (fun c => if c.toNat < 65536 then 1 else 2)).sum

/-- The method `Array.prototype.join` on an array of strings. -/
def jsJoin (sep : String) : List String → String
  | [] => ""
  | [a] => a
  | a :: b :: rest => a ++ sep ++ jsJoin sep (b :: rest)

/-! ## Comment chunker -/

/-- A stored comment, as read by the analysis service. Fields other than
`id` are kept as JavaScript values: the storage schema is not part of the
sources. -/
structure Comment where
  id : String
  platformId : JsValue
  content : JsValue
  isReply : JsValue
  parentPlatformId : JsValue
  authorUsername : JsValue
  authorFullName : JsValue
  authorFollowersCount : JsValue
  authorVerified : JsValue
  likesCount : JsValue
  repliesCount : JsValue
  sharesCount : JsValue
  viewsCount : JsValue
  reactions : JsValue
  publishedAt : JsValue

/-- The template literal that closes a chunk: the items joined by commas,
between brackets. -/
def renderChunk (currentChunk : List String) : String :=
  "[" ++ jsJoin "," currentChunk ++ "]"

/-- The loop variables of `chunkCommentsForAnalysis`. -/
structure ChunkState where
  chunks : List String
  currentChunk : List String
  currentLength : Nat
deriving DecidableEq, Repr

/-- One iteration of the loop of `chunkCommentsForAnalysis`. The serializer
`mapCommentToAiInput` (a `JSON.stringify` call) is a parameter and may throw. -/
def chunkStep (mapCommentToAiInput : Comment → Except JsError String) (maxChunkLength : Nat)
    (st : ChunkState) (comment : Comment) : Except JsError ChunkState :=
  match mapCommentToAiInput comment with
  | Except.error e => Except.error e
  | Except.ok analysisInput =>
    let analysisInputLength := jsLength analysisInput + 1
    if st.currentLength + analysisInputLength > maxChunkLength then
      Except.ok (ChunkState.mk (st.chunks ++ [renderChunk st.currentChunk])
        [analysisInput] analysisInputLength)
    else
      Except.ok (ChunkState.mk st.chunks (st.currentChunk ++ [analysisInput])
        (st.currentLength + analysisInputLength))

/-- The loop of `chunkCommentsForAnalysis` over the comments, from a given state. -/
def chunkLoop (mapCommentToAiInput : Comment → Except JsError String) (maxChunkLength : Nat) :
    ChunkState → List Comment → Except JsError ChunkState
  | st, [] => Except.ok st
  | st, comment :: rest =>
    match chunkStep mapCommentToAiInput maxChunkLength st comment with
    | Except.error e => Except.error e
    | Except.ok st' => chunkLoop mapCommentToAiInput maxChunkLength st' rest

/-- The method `DataAnalyzerService.chunkCommentsForAnalysis`. -/
def chunkCommentsForAnalysis (mapCommentToAiInput : Comment → Except JsError String)
    (comments : List Comment) (maxChunkLength : Nat) : Except JsError (List String) :=
  match chunkLoop mapCommentToAiInput maxChunkLength (ChunkState.mk [] [] 2) comments with
  | Except.error e => Except.error e
  | Except.ok st =>
    if st.currentChunk.length > 0 then
      Except.ok (st.chunks ++ [renderChunk st.currentChunk])
    else
      Except.ok st.chunks

/-- The serialization of every comment, in order; it fails when one fails. -/
def serializeAll (mapCommentToAiInput : Comment → Except JsError String) :
    List Comment → Except JsError (List String)
  | [] => Except.ok []
  | comment :: rest =>
    match mapCommentToAiInput comment with
    | Except.error e => Except.error e
    | Except.ok s =>
      match serializeAll mapCommentToAiInput rest with
      | Except.error e => Except.error e
      | Except.ok ss => Except.ok (s :: ss)

/-- The item lists that the loop of `chunkCommentsForAnalysis` closes, for
serialized inputs `inputs`: `closed` are the item lists already pushed,
`current` the open one. -/
def groupLoop (maxChunkLength : Nat) :
    List (List String) → List String → Nat → List String → List (List String) × List String
  | closed, current, _, [] => (closed, current)
  | closed, current, currentLength, s :: rest =>
    if currentLength + (jsLength s + 1) > maxChunkLength then
      groupLoop maxChunkLength (closed ++ [current]) [s] (jsLength s + 1) rest
    else
      groupLoop maxChunkLength closed (current ++ [s]) (currentLength + (jsLength s + 1)) rest

/-- The item lists of the chunks that `chunkCommentsForAnalysis` returns for
the serialized inputs `inputs`. -/
def chunkGroups (inputs : List String) (maxChunkLength : Nat) : List (List String) :=
  let r := groupLoop maxChunkLength [] [] 2 inputs
  if r.2.length > 0 then r.1 ++ [r.2] else r.1

/-- The length counted by the loop of `chunkCommentsForAnalysis` for a list
of items: the length of each item plus one for a comma. -/
def itemsLength (items : List String) : Nat :=
  (items.map (fun s => jsLength s + 1)).sum

/-- A comment that carries the given identifier and nothing else. -/
def Comment.ofId (id : String) : Comment :=
  Comment.mk id JsValue.null JsValue.null JsValue.null JsValue.null JsValue.null JsValue.null
    JsValue.null JsValue.null JsValue.null JsValue.null JsValue.null JsValue.null JsValue.null
    JsValue.null

/-- A comment that carries the given identifier and text content. -/
def Comment.withContent (id content : String) : Comment :=
  Comment.mk id JsValue.null (JsValue.str content) JsValue.null JsValue.null JsValue.null
    JsValue.null JsValue.null JsValue.null JsValue.null JsValue.null JsValue.null JsValue.null
    JsValue.null JsValue.null

/-- A text of `n` letters. -/
def padding (n : Nat) : String := String.mk (List.replicate n 'x')

/-- A serializer used to instantiate the chunker theorems: it writes the
identifier and the text content of a comment as a JSON object, and throws on
a content that is not a string. -/
def sampleSerializer (comment : Comment) : Except JsError String :=
  match comment.content with
  | JsValue.str s =>
    Except.ok ("\x7b\"id\":\"" ++ comment.id ++ "\",\"content\":\"" ++ s ++ "\"\x7d")
  | _ => Except.error (JsError.nullProperty "trim")

/-! ## JSON extractor -/

/-- The first character of a scanned fragment: the class `[{\[]`. -/
def isOpenBracket (c : Char) : Bool := c == '\x7b' || c == '['

/-- The last character of a scanned fragment: the class `[}\]]`. -/
def isCloseBracket (c : Char) : Bool := c == '\x7d' || c == ']'

/-- Case folding of the `i` flag, on the letters that matter to the class:
only an ASCII letter folds to an ASCII letter. -/
def canonicalize (c : Char) : Char :=
  if 'a' ≤ c ∧ c ≤ 'z' then Char.ofNat (c.toNat - 32) else c

/-- The character class `[,:{}\[\]0-9.\-+Eaeflnr-u \n\r\t]` under the `i` flag. -/
def inScanClass (c : Char) : Bool :=
  c == ',' || c == ':' || c == '\x7b' || c == '\x7d' || c == '[' || c == ']'
    || ('0' ≤ c && c ≤ '9') || c == '.' || c == '-' || c == '+'
    || canonicalize c == 'E' || canonicalize c == 'A' || canonicalize c == 'F'
    || canonicalize c == 'L' || canonicalize c == 'N'
    || ('R' ≤ canonicalize c && canonicalize c ≤ 'U')
    || c == ' ' || c == '\n' || c == '\r' || c == '\t'

/-- The backtracking match of `(class|".*?")+[}\]]` after at least one
iteration of the group, returning the matched text. With `inQuote = false`
the matcher stands between two iterations: it first tries one more iteration
(greedy), then the closing bracket. With `inQuote = true` it stands inside
`".*?"`: at a quote it first tries to close the string (lazy), then goes on,
the dot matching every character under the `s` flag. -/
def scanRest : Bool → List Char → Option (List Char)
  | _, [] => none
  | false, c :: t =>
    match (if inScanClass c then scanRest false t
           else if c == '"' then scanRest true t else none) with
    | some m => some (c :: m)
    | none => if isCloseBracket c then some [c] else none
  | true, c :: t =>
    if c == '"' then
      match scanRest false t with
      | some m => some (c :: m)
      | none => (scanRest true t).map (fun m => c :: m)
    else (scanRest true t).map (fun m => c :: m)

/-- The match of the whole expression
`[{\[]{1}([,:{}\[\]0-9.\-+Eaeflnr-u \n\r\t]|".*?")+[}\]]{1}` at the start of
the input: the opening bracket, the first iteration of the group, the rest. -/
def scanAt : List Char → Option (List Char)
  | [] => none
  | [_] => none
  | o :: c :: t =>
    if isOpenBracket o then
      (if inScanClass c then scanRest false t
       else if c == '"' then scanRest true t else none).map (fun m => o :: c :: m)
    else none

/-- The loop of a global (`g`) match: `skip` is the number of characters
still covered by the last match; at every other position the expression is
tried, and the search resumes after a match. -/
def scanAll : Nat → List Char → List (List Char)
  | _, [] => []
  | skip + 1, _ :: t => scanAll skip t
  | 0, c :: t =>
    match scanAt (c :: t) with
    | some m => m :: scanAll (m.length - 1) t
    | none => scanAll 0 t

/-- The call `text.match(/.../gis)`: the matched fragments, or `null`
(`none`) when there is none. -/
def jsMatch (text : String) : Option (List String) :=
  match scanAll 0 text.data with
  | [] => none
  | m :: ms => some ((m :: ms).map String.mk)

/-- The call `matches.map((m) => parse(m))`: the first fragment on which the
parser throws ends the call with that error. -/
def parseEach (parse : String → Except JsError JsValue) :
    List String → Except JsError (List JsValue)
  | [] => Except.ok []
  | m :: ms =>
    match parse m with
    | Except.error e => Except.error e
    | Except.ok v =>
      match parseEach parse ms with
      | Except.error e => Except.error e
      | Except.ok vs => Except.ok (v :: vs)

/-- The method `Array.prototype.flat` (depth 1) on an array of values. -/
def jsFlat : List JsValue → List JsValue
  | [] => []
  | JsValue.arr items :: rest => items ++ jsFlat rest
  | v :: rest => v :: jsFlat rest

/-- The function `extractJsonFromText`. The parser `parse` of the
`partial-json` package is a parameter. -/
def extractJsonFromText (parse : String → Except JsError JsValue) (text : String) :
    Except JsError (List JsValue) :=
  match jsMatch text with
  | none => Except.error (JsError.nullProperty "map")
  | some matched =>
    match parseEach parse matched with
    | Except.error e => Except.error e
    | Except.ok values => Except.ok (jsFlat values)

/-- The test `Array.isArray(value)`. -/
def JsValue.isArray : JsValue → Bool
  | JsValue.arr _ => true
  | _ => false

/-- The text `[[{"id":"a"}]]`: an array nested inside another array. -/
def nestedText : String := "[[\x7b\"id\":\"a\"\x7d]]"

/-- A parser used to instantiate the theorems: it reads `nestedText` as the
array that holds the array of one object, and throws on every other text. -/
def nestedParse (text : String) : Except JsError JsValue :=
  if text = nestedText then
    Except.ok (JsValue.arr [JsValue.arr [JsValue.obj [("id", JsValue.str "a")]]])
  else Except.error (JsError.mk "MalformedJSON" "unexpected text")

/-! ## Result persister -/

/-- JavaScript truthiness (`ToBoolean`). -/
def JsValue.truthy : JsValue → Bool
  | JsValue.undefined => false
  | JsValue.null => false
  | JsValue.bool b => b
  | JsValue.num JsNumber.nan => false
  | JsValue.num (JsNumber.finite q) => decide (q ≠ 0)
  | JsValue.str s => decide (s ≠ "")
  | JsValue.arr _ => true
  | JsValue.obj _ => true

/-- The property read `value[key]` for the property names used by the
service: an own property of an object, `undefined` on every other value. The
field list of an object holds each key once. -/
def JsValue.get (value : JsValue) (key : String) : JsValue :=
  match value with
  | JsValue.obj fields =>
    match fields.find? (fun kv => kv.1 == key) with
    | some kv => kv.2
    | none => JsValue.undefined
  | _ => JsValue.undefined

/-- The operator `value ?? fallback`. -/
def JsValue.orElse (value fallback : JsValue) : JsValue :=
  match value with
  | JsValue.undefined => fallback
  | JsValue.null => fallback
  | v => v

/-- The comparison `id == value` of a comment identifier, a string, with a
value: string equality on a string, never true on `null` and `undefined`,
and on the other values the language coerces the operands, which is left to
the parameter `coerce`. -/
def looseEq (coerce : String → JsValue → Bool) (id : String) : JsValue → Bool
  | JsValue.str s => id == s
  | JsValue.undefined => false
  | JsValue.null => false
  | v => coerce id v

/-- The `data` of one `updateMany` call. -/
structure CommentAnalysis where
  language : JsValue
  sentimentType : JsValue
  sentimentScore : JsValue
  confidenceLevel : JsValue
  emotionScores : JsValue
  topics : JsValue
  keywords : JsValue
  rating : JsValue
  satisfactionScore : JsValue
  liked : JsValue
  tone : JsValue
  overallSentimentScore : JsValue
  positiveSentences : JsValue
  additionalInsights : JsValue
  personalityTraits : JsValue
  processedAt : Nat

/-- One call `prisma.comment.updateMany` with `where: { id }`. -/
structure CommentUpdate where
  whereId : String
  data : CommentAnalysis

/-- The `data` object built from one extracted result at time `now`. -/
def analysisData (commentResponse : JsValue) (now : Nat) : CommentAnalysis :=
  CommentAnalysis.mk
    ((commentResponse.get "language").orElse JsValue.null)
    ((commentResponse.get "sentiment_type").orElse JsValue.null)
    ((commentResponse.get "sentiment_score").orElse JsValue.null)
    ((commentResponse.get "confidence_level").orElse JsValue.null)
    ((commentResponse.get "emotion_scores").orElse JsValue.null)
    ((commentResponse.get "topics").orElse (JsValue.arr []))
    ((commentResponse.get "keywords").orElse (JsValue.arr []))
    ((commentResponse.get "rating").orElse JsValue.null)
    ((commentResponse.get "satisfaction_score").orElse JsValue.null)
    ((commentResponse.get "liked").orElse JsValue.null)
    ((commentResponse.get "tone").orElse JsValue.null)
    ((commentResponse.get "overall_sentiment_score").orElse JsValue.null)
    ((commentResponse.get "positive_sentences").orElse JsValue.null)
    ((commentResponse.get "additional_insights").orElse JsValue.null)
    ((commentResponse.get "personality_traits").orElse JsValue.null)
    now

/-- The comment selected for one extracted result: the two tests
`commentResponse && commentResponse['id']` and then
`comments.find(c => c.id == commentResponse['id'])`. -/
def matchedComment (coerce : String → JsValue → Bool) (comments : List Comment)
    (commentResponse : JsValue) : Option Comment :=
  if commentResponse.truthy && (commentResponse.get "id").truthy then
    comments.find? (fun c => looseEq coerce c.id (commentResponse.get "id"))
  else none

/-- The update staged for the result at position `index`, if any; `clock`
gives the time read by `new Date()` while that result is handled. -/
def stagedUpdate (coerce : String → JsValue → Bool) (clock : Nat → Nat)
    (comments : List Comment) (index : Nat) (commentResponse : JsValue) :
    Option CommentUpdate :=
  match matchedComment coerce comments commentResponse with
  | some comment => some (CommentUpdate.mk comment.id (analysisData commentResponse (clock index)))
  | none => none

/-- The loop of `updateCommentsAnalysis`: `updatePromises` are the staged
updates, `awaited` the batches already passed to `Promise.all`. -/
def updateLoop (coerce : String → JsValue → Bool) (clock : Nat → Nat) (comments : List Comment) :
    Nat → List CommentUpdate → List (List CommentUpdate) → List JsValue →
      List CommentUpdate × List (List CommentUpdate)
  | _, updatePromises, awaited, [] => (updatePromises, awaited)
  | index, updatePromises, awaited, commentResponse :: rest =>
    let staged :=
      match stagedUpdate coerce clock comments index commentResponse with
      | some u => updatePromises ++ [u]
      | none => updatePromises
    if (index + 1) % 300 = 0 then
      updateLoop coerce clock comments (index + 1) [] (awaited ++ [staged]) rest
    else
      updateLoop coerce clock comments (index + 1) staged awaited rest

/-- The method `DataAnalyzerService.updateCommentsAnalysis`: the batches of
updates it awaits, in order. -/
def updateCommentsAnalysis (coerce : String → JsValue → Bool) (clock : Nat → Nat)
    (comments : List Comment) (commentsAnalysis : List JsValue) : List (List CommentUpdate) :=
  let r := updateLoop coerce clock comments 0 [] [] commentsAnalysis
  if r.1.length > 0 then r.2 ++ [r.1] else r.2

/-- The updates issued by one run of `updateCommentsAnalysis`, in order. -/
def issuedUpdates (coerce : String → JsValue → Bool) (clock : Nat → Nat)
    (comments : List Comment) (commentsAnalysis : List JsValue) : List CommentUpdate :=
  (updateCommentsAnalysis coerce clock comments commentsAnalysis).flatten

/-- The staged updates of the results of a list, the first of which has
position `index`. -/
def stagedFrom (coerce : String → JsValue → Bool) (clock : Nat → Nat) (comments : List Comment) :
    Nat → List JsValue → List CommentUpdate
  | _, [] => []
  | index, commentResponse :: rest =>
    match stagedUpdate coerce clock comments index commentResponse with
    | some u => u :: stagedFrom coerce clock comments (index + 1) rest
    | none => stagedFrom coerce clock comments (index + 1) rest

/-- A coercion under which a string is loosely equal to no value other than
a string: used to instantiate the theorems on results whose ids are strings. -/
def noCoercion : String → JsValue → Bool := fun _ _ => false

/-! ## Analysis orchestrator -/

/-- A model provider during one run: the answer to the call made for the
chunk at position `index` with the given payload, or the error it throws. -/
abbrev Provider := Nat → String → Except JsError String

/-- What the analysis service reads from its surroundings: the setting
`ANALYZE_AI_PROVIDER`, the prompt, the library functions and the providers. -/
structure AnalysisEnv where
  aiProvider : Option String
  analyzeCommentPrompt : String
  mapCommentToAiInput : Comment → Except JsError String
  parse : String → Except JsError JsValue
  coerce : String → JsValue → Bool
  clock : Nat → Nat
  ollama : Provider
  gemini : Provider
  duckai : Provider

/-- What one run does: its outcome, the chunks handed to the provider
callback in order, and the update batches awaited. -/
structure RunResult where
  outcome : Except JsError Unit
  sent : List String
  batches : List (List CommentUpdate)

/-- The loop of `processChunksWithProvider`: `responses` are the answers so
far, `sent` the chunks already handed to `processChunk`. A failure is logged
and thrown again. -/
def processChunksLoop {T : Type} (processChunk : String → Nat → Except JsError (List T)) :
    Nat → List (List T) → List String → List String →
      Except JsError (List (List T)) × List String
  | _, responses, sent, [] => (Except.ok responses, sent)
  | index, responses, sent, chunk :: rest =>
    match processChunk chunk index with
    | Except.error e => (Except.error e, sent ++ [chunk])
    | Except.ok response =>
      processChunksLoop processChunk (index + 1) (responses ++ [response]) (sent ++ [chunk]) rest

/-- The method `DataAnalyzerService.processChunksWithProvider`, with the
chunks it handed to `processChunk`. -/
def processChunksWithProvider {T : Type} (processChunk : String → Nat → Except JsError (List T))
    (chunks : List String) : Except JsError (List T) × List String :=
  match processChunksLoop processChunk 0 [] [] chunks with
  | (Except.error e, sent) => (Except.error e, sent)
  | (Except.ok responses, sent) => (Except.ok responses.flatten, sent)

/-- The callback of `handleWithLocalOllama`: the chunk is the user message. -/
def ollamaChunk (env : AnalysisEnv) (chunk : String) (index : Nat) :
    Except JsError (List JsValue) :=
  match env.ollama index chunk with
  | Except.error e => Except.error e
  | Except.ok content => extractJsonFromText env.parse content

/-- The callback of `handleWithDuckAi`. -/
def duckAiChunk (env : AnalysisEnv) (chunk : String) (index : Nat) :
    Except JsError (List JsValue) :=
  match env.duckai index (env.analyzeCommentPrompt ++ "\nComments:\n" ++ chunk) with
  | Except.error e => Except.error e
  | Except.ok message => extractJsonFromText env.parse message

/-- The callback of `handleWithGemeni`. -/
def geminiChunk (env : AnalysisEnv) (chunk : String) (index : Nat) :
    Except JsError (List JsValue) :=
  match env.gemini index (env.analyzeCommentPrompt ++ "\nComments:\n" ++ chunk) with
  | Except.error e => Except.error e
  | Except.ok text => extractJsonFromText env.parse text

/-- The common body of `handleWithLocalOllama`, `handleWithDuckAi` and
`handleWithGemeni`, which differ by the chunk budget and the callback: chunk,
process every chunk, persist; any error is logged and replaced by
`new Error('analysis error')`. The storage writes are taken to succeed. -/
def runHandler (env : AnalysisEnv) (maxChunkLength : Nat)
    (processChunk : String → Nat → Except JsError (List JsValue)) (comments : List Comment) :
    RunResult :=
  match chunkCommentsForAnalysis env.mapCommentToAiInput comments maxChunkLength with
  | Except.error _ => RunResult.mk (Except.error (JsError.error "analysis error")) [] []
  | Except.ok chunks =>
    match processChunksWithProvider processChunk chunks with
    | (Except.error _, sent) =>
      RunResult.mk (Except.error (JsError.error "analysis error")) sent []
    | (Except.ok responses, sent) =>
      RunResult.mk (Except.ok ()) sent
        (updateCommentsAnalysis env.coerce env.clock comments responses)

/-- The method `handleWithLocalOllama`. -/
def handleWithLocalOllama (env : AnalysisEnv) (comments : List Comment) : RunResult :=
  runHandler env 1000 (ollamaChunk env) comments

/-- The method `handleWithDuckAi`. -/
def handleWithDuckAi (env : AnalysisEnv) (comments : List Comment) : RunResult :=
  runHandler env 2000 (duckAiChunk env) comments

/-- The method `handleWithGemeni`. -/
def handleWithGemeni (env : AnalysisEnv) (comments : List Comment) : RunResult :=
  runHandler env 6000 (geminiChunk env) comments

/-- The `catch` of `analyzeData`: an error is thrown again with the prefix
`Data analysis failed: ` before its message. -/
def analysisFailed (r : RunResult) : RunResult :=
  match r.outcome with
  | Except.ok _ => r
  | Except.error e =>
    RunResult.mk (Except.error (JsError.error ("Data analysis failed: " ++ e.message)))
      r.sent r.batches

/-- The method `DataAnalyzerService.analyzeData`, on the unprocessed comments
of the post. -/
def analyzeData (env : AnalysisEnv) (comments : List Comment) : RunResult :=
  if env.aiProvider = some "OLLAMA" then
    analysisFailed (handleWithLocalOllama env comments)
  else if env.aiProvider = some "GEMINI" then
    analysisFailed (handleWithGemeni env comments)
  else if env.aiProvider = some "DUCKAI" then
    analysisFailed (handleWithDuckAi env comments)
  else
    analysisFailed (RunResult.mk
      (Except.error (JsError.error
        ("Unsupported AI provider: " ++ env.aiProvider.getD "undefined"))) [] [])

/-- The chunk budget and the callback of the configured provider. -/
def configuredHandler (env : AnalysisEnv) :
    Option (Nat × (String → Nat → Except JsError (List JsValue))) :=
  if env.aiProvider = some "OLLAMA" then some (1000, ollamaChunk env)
  else if env.aiProvider = some "GEMINI" then some (6000, geminiChunk env)
  else if env.aiProvider = some "DUCKAI" then some (2000, duckAiChunk env)
  else none

/-- The states of an analysis. -/
inductive AnalysisStatus where
  | PENDING
  | COLLECTING_DATA
  | ANALYZING_DATA
  | COMPLETED
  | FAILED
  | CANCELLED
  | PAUSED
deriving DecidableEq, Repr

/-- The end of `AnalysisProcessor.start`: the status and the status
description recorded after `analyzeData` returned or threw. -/
def statusAfterAnalysis (outcome : Except JsError Unit) : AnalysisStatus × Option String :=
  match outcome with
  | Except.ok _ => (AnalysisStatus.COMPLETED, none)
  | Except.error e => (AnalysisStatus.FAILED, some e.message)

/-- A parser used to instantiate the theorems: it reads the one text
`[{"id":"c1"}]` and throws on every other text. -/
def sampleParse (text : String) : Except JsError JsValue :=
  if text = "[\x7b\"id\":\"c1\"\x7d]" then
    Except.ok (JsValue.arr [JsValue.obj [("id", JsValue.str "c1")]])
  else Except.error (JsError.mk "MalformedJSON" "unexpected text")

/-- An environment used to instantiate the theorems: the Ollama provider
answers the first call with `[{"id":"c1"}]` and fails every later call with
the message `timeout`. -/
def sampleEnv : AnalysisEnv :=
  AnalysisEnv.mk (some "OLLAMA") "Analyze the comments." sampleSerializer sampleParse noCoercion
    (fun _ => 0)
    (fun index _ =>
      if index = 0 then Except.ok "[\x7b\"id\":\"c1\"\x7d]"
      else Except.error (JsError.error "timeout"))
    (fun _ _ => Except.error (JsError.error "unreachable"))
    (fun _ _ => Except.error (JsError.error "unreachable"))

/-- An environment whose DuckAI provider fails every call with the message
`timeout`. -/
def failingEnv : AnalysisEnv :=
  AnalysisEnv.mk (some "DUCKAI") "Analyze the comments." sampleSerializer sampleParse noCoercion
    (fun _ => 0)
    (fun _ _ => Except.error (JsError.error "unreachable"))
    (fun _ _ => Except.error (JsError.error "unreachable"))
    (fun _ _ => Except.error (JsError.error "timeout"))

/-- The serialized form given by `sampleSerializer` to a comment with the
given identifier and a content of 475 letters: 499 characters. -/
def paddedInput (id : String) : String :=
  "\x7b\"id\":\"" ++ id ++ "\",\"content\":\"" ++ padding 475 ++ "\"\x7d"

/-- Three comments whose serialized forms have 499 characters each. -/
def paddedComments : List Comment :=
  [Comment.withContent "c1" (padding 475), Comment.withContent "c2" (padding 475),
    Comment.withContent "c3" (padding 475)]

/-- The text `[{"id":"a"},{"id":"b"}]`. -/
def twoIdsText : String := "[\x7b\"id\":\"a\"\x7d,\x7b\"id\":\"b\"\x7d]"

/-- The array of two objects written by `twoIdsText`. -/
def twoIdsValues : List JsValue :=
  [JsValue.obj [("id", JsValue.str "a")], JsValue.obj [("id", JsValue.str "b")]]

/-- A parser used to instantiate the theorems: it reads `twoIdsText` and
throws on every other text. -/
def twoIdsParse (text : String) : Except JsError JsValue :=
  if text = twoIdsText then Except.ok (JsValue.arr twoIdsValues)
  else Except.error (JsError.mk "MalformedJSON" "unexpected text")

/-- An environment in which `ANALYZE_AI_PROVIDER` is not set. -/
def unsetEnv : AnalysisEnv :=
  AnalysisEnv.mk none "Analyze the comments." sampleSerializer sampleParse noCoercion
    (fun _ => 0)
    (fun _ _ => Except.error (JsError.error "unreachable"))
    (fun _ _ => Except.error (JsError.error "unreachable"))
    (fun _ _ => Except.error (JsError.error "unreachable"))

/-- An environment in which `ANALYZE_AI_PROVIDER` is `CHATGPT`. -/
def chatgptEnv : AnalysisEnv :=
  AnalysisEnv.mk (some "CHATGPT") "Analyze the comments." sampleSerializer sampleParse
    noCoercion (fun _ => 0)
    (fun _ _ => Except.error (JsError.error "unreachable"))
    (fun _ _ => Except.error (JsError.error "unreachable"))
    (fun _ _ => Except.error (JsError.error "unreachable"))

/-- Whether a value is `null` or `undefined`: the test of the operator `??`. -/
def JsValue.nullish : JsValue → Bool
  | JsValue.undefined => true
  | JsValue.null => true
  | _ => false

/-- The annotation fields of an update: the field of the `data` object, the
key read in the extracted result, and the value used when the result gives
none. -/
def annotationFields : List ((CommentAnalysis → JsValue) × String × JsValue) :=
  [(CommentAnalysis.language, "language", JsValue.null),
    (CommentAnalysis.sentimentType, "sentiment_type", JsValue.null),
    (CommentAnalysis.sentimentScore, "sentiment_score", JsValue.null),
    (CommentAnalysis.confidenceLevel, "confidence_level", JsValue.null),
    (CommentAnalysis.emotionScores, "emotion_scores", JsValue.null),
    (CommentAnalysis.topics, "topics", JsValue.arr []),
    (CommentAnalysis.keywords, "keywords", JsValue.arr []),
    (CommentAnalysis.rating, "rating", JsValue.null),
    (CommentAnalysis.satisfactionScore, "satisfaction_score", JsValue.null),
    (CommentAnalysis.liked, "liked", JsValue.null),
    (CommentAnalysis.tone, "tone", JsValue.null),
    (CommentAnalysis.overallSentimentScore, "overall_sentiment_score", JsValue.null),
    (CommentAnalysis.positiveSentences, "positive_sentences", JsValue.null),
    (CommentAnalysis.additionalInsights, "additional_insights", JsValue.null),
    (CommentAnalysis.personalityTraits, "personality_traits", JsValue.null)]

/-! ## Text primitives -/

/-- The characters matched by `\s` and removed by `String.prototype.trim`:
the `WhiteSpace` and `LineTerminator` code points. -/
def isWhiteSpace (c : Char) : Bool :=
  c.toNat == 9 || c.toNat == 10 || c.toNat == 11 || c.toNat == 12 || c.toNat == 13
    || c.toNat == 32 || c.toNat == 160 || c.toNat == 5760
    || (8192 ≤ c.toNat && c.toNat ≤ 8202)
    || c.toNat == 8232 || c.toNat == 8233 || c.toNat == 8239 || c.toNat == 8287
    || c.toNat == 12288 || c.toNat == 65279

/-- The method `String.prototype.trimStart`, on the characters of a string. -/
def trimStart (s : List Char) : List Char := s.dropWhile isWhiteSpace

/-- The method `String.prototype.trimEnd`, on the characters of a string. -/
def trimEnd (s : List Char) : List Char := (s.reverse.dropWhile isWhiteSpace).reverse

/-- The method `String.prototype.trim`, on the characters of a string. -/
def jsTrim (s : List Char) : List Char := trimEnd (trimStart s)

/-- The call `s.split("\n")`, on the characters of a string. -/
def splitLines : List Char → List (List Char)
  | [] => [[]]
  | c :: t =>
    if c == '\n' then [] :: splitLines t
    else
      match splitLines t with
      | [] => [[c]]
      | line :: lines => (c :: line) :: lines

/-- The rest of `s` after the literal `lit`, when `s` starts with it
(`startsWith` and `slice`). -/
def stripLiteral : List Char → List Char → Option (List Char)
  | [], s => some s
  | _ :: _, [] => none
  | a :: lit, c :: s => if a == c then stripLiteral lit s else none

/-! ## DuckAI adapter -/

/-- An error caught by `chat`: its message and `error.response?.status`,
present when the provider answered with a status outside 2xx. -/
structure HttpError where
  message : String
  responseStatus : Option Nat
deriving DecidableEq, Repr

/-- The field `VQD` of the service: the three session tokens. -/
structure Vqd where
  feSignals : Option String
  feVersion : Option String
  vqdHash : Option String
deriving DecidableEq, Repr

/-- A response of the provider: the status, the header `x-vqd-hash-1` and,
for a completion request, the chunks of the stream as texts. -/
structure HttpResponse where
  status : Nat
  vqdHashHeader : Option String
  stream : List String
deriving DecidableEq, Repr

/-- What the DuckAI service reads from its surroundings: the answer to the
`n`-th status request, the answer to the `n`-th completion request sent with
given tokens, the browser evaluation `generateVQDHash`, the signals token
made at the `n`-th generation (it holds the time), `JSON.parse`, and the
string conversion applied by `+=` to a value that is not a string. -/
structure DuckEnv where
  getStatus : Nat → Except HttpError HttpResponse
  postChat : Nat → Vqd → Except HttpError HttpResponse
  generateVQDHash : Option String → Except JsError String
  generateFESignals : Nat → String
  jsonParse : String → Except JsError JsValue
  toStr : JsValue → String

/-- The mutable state of the service, with counters of what it did: status
requests sent, completion requests sent, token generations, and refreshes
made after an authorization failure. -/
structure DuckState where
  vqd : Vqd
  statusRequests : Nat
  chatRequests : Nat
  generations : Nat
  authRefreshes : Nat
deriving DecidableEq, Repr

/-- The method `generateFEVersion`. -/
def generateFEVersion : String := "serp_20250711_151537_ET-576c5771a56bc23aac8e"

/-- The test `!token` on a session token: `null` or the empty string. -/
def tokenMissing : Option String → Bool
  | none => true
  | some s => decide (s = "")

/-- The three assignments made after a response of status 200, in
`updateVQD` and in `chat`: the signals, the version, then the hash, whose
generation may throw after the first two assignments. -/
def regenerateTokens (env : DuckEnv) (st : DuckState) (header : Option String) :
    Except JsError Unit × DuckState :=
  let st1 := DuckState.mk
    (Vqd.mk (some (env.generateFESignals st.generations)) (some generateFEVersion) st.vqd.vqdHash)
    st.statusRequests st.chatRequests (st.generations + 1) st.authRefreshes
  match env.generateVQDHash header with
  | Except.error e => (Except.error e, st1)
  | Except.ok hash =>
    (Except.ok (),
      DuckState.mk (Vqd.mk st1.vqd.feSignals st1.vqd.feVersion (some hash))
        st1.statusRequests st1.chatRequests st1.generations st1.authRefreshes)

/-- The method `DuckaiService.updateVQD`: every failure is logged and
replaced by `new Error('Failed to update VQD')`. -/
def updateVQD (env : DuckEnv) (st : DuckState) : Except JsError Unit × DuckState :=
  let st0 := DuckState.mk st.vqd (st.statusRequests + 1) st.chatRequests st.generations
    st.authRefreshes
  match env.getStatus st.statusRequests with
  | Except.error _ => (Except.error (JsError.error "Failed to update VQD"), st0)
  | Except.ok response =>
    if response.status = 200 then
      match regenerateTokens env st0 response.vqdHashHeader with
      | (Except.error _, st1) => (Except.error (JsError.error "Failed to update VQD"), st1)
      | (Except.ok _, st1) => (Except.ok (), st1)
    else (Except.error (JsError.error "Failed to update VQD"), st0)

/-- The three variables filled while the stream is read. -/
structure StreamState where
  responseId : JsValue
  responseMessage : String
  responseCreated : JsValue

/-- The comparison `value === text` with a string. -/
def JsValue.isString (value : JsValue) (text : String) : Bool :=
  match value with
  | JsValue.str s => s == text
  | _ => false

/-- The assignment `if (x === null) x = value`. -/
def assignIfNull (current value : JsValue) : JsValue :=
  match current with
  | JsValue.null => value
  | v => v

/-- The body of the `try` for a parsed event: reading a property of `null`
throws, which the `catch` around it swallows; an event whose `action` is
`success` fills the id and the creation time once and appends its `message`
when it is truthy. -/
def applyEvent (env : DuckEnv) (st : StreamState) (dataJson : JsValue) : StreamState :=
  match dataJson with
  | JsValue.null => st
  | _ =>
    if (dataJson.get "action").isString "success" then
      StreamState.mk (assignIfNull st.responseId (dataJson.get "id"))
        (if (dataJson.get "message").truthy then
          st.responseMessage
            ++ (match dataJson.get "message" with
                | JsValue.str s => s
                | v => env.toStr v)
         else st.responseMessage)
        (assignIfNull st.responseCreated (dataJson.get "created"))
    else st

/-- One iteration of the loop over the lines of a chunk: `none` is the
`break` taken on the terminator `[DONE]`. -/
def processLine (env : DuckEnv) (st : StreamState) (line : List Char) : Option StreamState :=
  match stripLiteral "data: ".data line with
  | none => some st
  | some rest =>
    if jsTrim rest = "[DONE]".data then none
    else
      match env.jsonParse (String.mk (jsTrim rest)) with
      | Except.error _ => some st
      | Except.ok dataJson => some (applyEvent env st dataJson)

/-- The loop over the lines of one chunk. -/
def processLines (env : DuckEnv) : StreamState → List (List Char) → StreamState
  | st, [] => st
  | st, line :: rest =>
    match processLine env st line with
    | none => st
    | some st' => processLines env st' rest

/-- The lines of one chunk: the chunk is trimmed, an empty chunk is skipped,
the text is split at newlines and the blank lines are dropped. -/
def chunkLines (chunk : String) : List (List Char) :=
  if jsTrim chunk.data = [] then []
  else (splitLines (jsTrim chunk.data)).filter (fun line => jsTrim line != [])

/-- The loop `for await (const chunk of stream)`. -/
def readStreamFrom (env : DuckEnv) : StreamState → List String → StreamState
  | st, [] => st
  | st, chunk :: rest => readStreamFrom env (processLines env st (chunkLines chunk)) rest

/-- The reading of a whole stream, from the initial variables. -/
def readStream (env : DuckEnv) (stream : List String) : StreamState :=
  readStreamFrom env (StreamState.mk JsValue.null "" JsValue.null) stream

/-- The object returned by `chat`. -/
structure ChatResult where
  id : JsValue
  model : String
  role : String
  message : String
  action : String
  created : JsValue

/-- The body of the `try` of `chat`: the completion request, the rotation of
the tokens after a status 200, the reading of the stream. An error of the
hash generation carries no response. -/
def chatAttempt (env : DuckEnv) (st : DuckState) : Except HttpError ChatResult × DuckState :=
  let st0 := DuckState.mk st.vqd st.statusRequests (st.chatRequests + 1) st.generations
    st.authRefreshes
  match env.postChat st.chatRequests st.vqd with
  | Except.error e => (Except.error e, st0)
  | Except.ok response =>
    let rotated :=
      if response.status = 200 then regenerateTokens env st0 response.vqdHashHeader
      else (Except.ok (), st0)
    match rotated with
    | (Except.error e, st1) => (Except.error (HttpError.mk e.message none), st1)
    | (Except.ok _, st1) =>
      let read := readStream env response.stream
      (Except.ok (ChatResult.mk read.responseId "gpt-4o-mini" "assistant" read.responseMessage
        "success" read.responseCreated), st1)

/-- The method `DuckaiService.chat`. The recursive call made after an
authorization failure consumes one unit of `fuel`; the result is `none` when
the fuel is used up before the call returns. -/
def chat (env : DuckEnv) : Nat → DuckState → Option (Except JsError ChatResult) × DuckState
  | 0, st => (none, st)
  | fuel + 1, st =>
    let ensured :=
      if tokenMissing st.vqd.vqdHash || tokenMissing st.vqd.feSignals
          || tokenMissing st.vqd.feVersion then updateVQD env st
      else (Except.ok (), st)
    match ensured with
    | (Except.error e, st0) => (some (Except.error e), st0)
    | (Except.ok _, st0) =>
      match chatAttempt env st0 with
      | (Except.ok result, st1) => (some (Except.ok result), st1)
      | (Except.error err, st1) =>
        if err.responseStatus = some 403 ∨ err.responseStatus = some 401 then
          let st2 := DuckState.mk st1.vqd st1.statusRequests st1.chatRequests st1.generations
            (st1.authRefreshes + 1)
          match updateVQD env st2 with
          | (Except.error e, st3) => (some (Except.error e), st3)
          | (Except.ok _, st3) => chat env fuel st3
        else (some (Except.error (JsError.error ("DuckAI chat failed: " ++ err.message))), st1)

/-- Whether a line of a chunk is the terminator event `data: [DONE]`. -/
def isTerminatorLine (line : List Char) : Bool :=
  match stripLiteral "data: ".data line with
  | none => false
  | some rest => decide (jsTrim rest = "[DONE]".data)

/-- The text that one line of a chunk adds to the message: the `message` of
a `data: ` event whose JSON parses to a value other than `null`, whose
`action` is `success` and whose `message` is truthy; the empty text for
every other line. -/
def eventContribution (env : DuckEnv) (line : List Char) : String :=
  match stripLiteral "data: ".data line with
  | none => ""
  | some rest =>
    match env.jsonParse (String.mk (jsTrim rest)) with
    | Except.error _ => ""
    | Except.ok JsValue.null => ""
    | Except.ok dataJson =>
      if (dataJson.get "action").isString "success" && (dataJson.get "message").truthy then
        match dataJson.get "message" with
        | JsValue.str s => s
        | v => env.toStr v
      else ""

/-- The lines of all the chunks of a stream, in order. -/
def streamLines (stream : List String) : List (List Char) :=
  (stream.map chunkLines).flatten

/-- The concatenation of a list of texts. -/
def concatTexts : List String → String
  | [] => ""
  | s :: rest => s ++ concatTexts rest

/-- A `JSON.parse` used to instantiate the theorems: it reads three event
texts and throws on every other text. -/
def sampleJsonParse (text : String) : Except JsError JsValue :=
  if text = "\x7b\"action\":\"success\",\"message\":\"Hello\"\x7d" then
    Except.ok (JsValue.obj [("action", JsValue.str "success"), ("message", JsValue.str "Hello")])
  else if text = "\x7b\"action\":\"success\",\"message\":\" again\"\x7d" then
    Except.ok (JsValue.obj [("action", JsValue.str "success"), ("message", JsValue.str " again")])
  else if text = "\x7b\"action\":\"error\",\"message\":\"busy\"\x7d" then
    Except.ok (JsValue.obj [("action", JsValue.str "error"), ("message", JsValue.str "busy")])
  else Except.error (JsError.mk "SyntaxError" "Unexpected token")

/-- The initial state of the service: no token, nothing done yet. -/
def initialDuckState : DuckState := DuckState.mk (Vqd.mk none none none) 0 0 0 0

/-- A state in which the three tokens are set. -/
def readyDuckState : DuckState :=
  DuckState.mk (Vqd.mk (some "signals") (some generateFEVersion) (some "hash")) 0 0 0 0

/-- A stream of two chunks: an event and the terminator, then one more event. -/
def streamAfterDone : List String :=
  ["data: \x7b\"action\":\"success\",\"message\":\"Hello\"\x7d\n\ndata: [DONE]\n",
    "data: \x7b\"action\":\"success\",\"message\":\" again\"\x7d\n"]

/-- A stream without terminator: an event whose action is `error`, then an
event whose action is `success`. -/
def streamWithErrorEvent : List String :=
  ["data: \x7b\"action\":\"error\",\"message\":\"busy\"\x7d\n",
    "data: \x7b\"action\":\"success\",\"message\":\"Hello\"\x7d\n"]

/-- An environment whose provider answers every status request with 200 and
every completion request with 200 and the given stream. -/
def streamingEnv (stream : List String) : DuckEnv :=
  DuckEnv.mk (fun _ => Except.ok (HttpResponse.mk 200 (some "challenge") []))
    (fun _ _ => Except.ok (HttpResponse.mk 200 (some "challenge") stream))
    (fun _ => Except.ok "hash") (fun _ => "signals") sampleJsonParse (fun _ => "")

/-- An environment whose provider answers the first `failures` completion
requests with 401 and accepts the later ones. -/
def unauthorizedEnv (failures : Nat) : DuckEnv :=
  DuckEnv.mk (fun _ => Except.ok (HttpResponse.mk 200 (some "challenge") []))
    (fun n _ =>
      if n < failures then
        Except.error (HttpError.mk "Request failed with status code 401" (some 401))
      else Except.ok (HttpResponse.mk 200 (some "challenge") streamAfterDone))
    (fun _ => Except.ok "hash") (fun _ => "signals") sampleJsonParse (fun _ => "")

/-- An environment whose provider answers every completion request with 401. -/
def alwaysUnauthorizedEnv : DuckEnv :=
  DuckEnv.mk (fun _ => Except.ok (HttpResponse.mk 200 (some "challenge") []))
    (fun _ _ => Except.error (HttpError.mk "Request failed with status code 401" (some 401)))
    (fun _ => Except.ok "hash") (fun _ => "signals") sampleJsonParse (fun _ => "")

/-- An environment in which the status request is answered with 200 and the
hash generation in the browser page throws. -/
def hashFailureEnv : DuckEnv :=
  DuckEnv.mk (fun _ => Except.ok (HttpResponse.mk 200 (some "challenge") []))
    (fun _ _ => Except.ok (HttpResponse.mk 200 (some "challenge") []))
    (fun _ => Except.error (JsError.error "Evaluation failed"))
    (fun _ => "signals") sampleJsonParse (fun _ => "")

/-- An environment in which the status request fails (the provider is not
reached). -/
def statusFailureEnv : DuckEnv :=
  DuckEnv.mk (fun _ => Except.error (HttpError.mk "connect ECONNREFUSED" none))
    (fun _ _ => Except.ok (HttpResponse.mk 200 (some "challenge") []))
    (fun _ => Except.ok "hash") (fun _ => "signals") sampleJsonParse (fun _ => "")

/-- An environment in which the status request is answered with 204, a
status that the request accepts and that is not 200. -/
def statusNotOkEnv : DuckEnv :=
  DuckEnv.mk (fun _ => Except.ok (HttpResponse.mk 204 (some "challenge") []))
    (fun _ _ => Except.ok (HttpResponse.mk 200 (some "challenge") []))
    (fun _ => Except.ok "hash") (fun _ => "signals") sampleJsonParse (fun _ => "")

/-- The text of a stream: its chunks put end to end. -/
def streamText (stream : List String) : List Char := (stream.map String.data).flatten

/-- Whether a chunk ends at the end of a line: it is empty or its last
character is a newline. -/
def endsAtLine (chunk : String) : Bool :=
  match chunk.data.getLast? with
  | none => true
  | some c => c == '\n'

/-- A stream of one chunk that holds one whole event. -/
def streamWholeEvent : List String :=
  ["data: \x7b\"action\":\"success\",\"message\":\"Hello\"\x7d\n"]

/-- The text of `streamWholeEvent` cut into two chunks inside the event. -/
def streamCutInEvent : List String :=
  ["data: \x7b\"action\":\"success\",", "\"message\":\"Hello\"\x7d\n"]

/-- A text of three event lines and an empty line, cut between lines in two
ways. -/
def streamCutAtLinesOnce : List String :=
  ["data: \x7b\"action\":\"success\",\"message\":\"Hello\"\x7d\n\n",
    "data: \x7b\"action\":\"error\",\"message\":\"busy\"\x7d\ndata: \x7b\"action\":\"success\",\"message\":\" again\"\x7d\n"]

/-- The text of `streamCutAtLinesOnce`, cut after every line. -/
def streamCutAtEveryLine : List String :=
  ["data: \x7b\"action\":\"success\",\"message\":\"Hello\"\x7d\n", "\n",
    "data: \x7b\"action\":\"error\",\"message\":\"busy\"\x7d\n",
    "data: \x7b\"action\":\"success\",\"message\":\" again\"\x7d\n"]

/-! ## Platform URL parsing -/

/-- The class `[^\/\?]`. -/
def isNameChar (c : Char) : Bool := c != '/' && c != '?'

/-- The class `\d`. -/
def isDigitChar (c : Char) : Bool := decide ('0' ≤ c) && decide (c ≤ '9')

/-- The backtracking match of `[^\/\?]*\/(\d+)` after the first character of
the name: it returns the rest of the name and the digits. One more character
is taken for the name first (greedy); otherwise the name stops here and the
slash and the longest run of digits, at least one, must follow. -/
def matchNameRest : List Char → Option (List Char × List Char)
  | [] => none
  | c :: t =>
    match (if isNameChar c then matchNameRest t else none) with
    | some r => some (c :: r.1, r.2)
    | none =>
      if c == '/' then
        (if t.takeWhile isDigitChar = [] then none else some ([], t.takeWhile isDigitChar))
      else none

/-- The match of `([^\/\?]+)\/(\d+)`: the two captured groups. -/
def matchName : List Char → Option (List Char × List Char)
  | [] => none
  | c :: t =>
    if isNameChar c then (matchNameRest t).map (fun r => (c :: r.1, r.2)) else none

/-- The match of `(?:t\.me|telegram\.me|telegram\.dog)\/([^\/\?]+)\/(\d+)`:
the alternatives of the host are tried in order. -/
def matchHost (s : List Char) : Option (List Char × List Char) :=
  match (stripLiteral "t.me/".data s).bind matchName with
  | some r => some r
  | none =>
    match (stripLiteral "telegram.me/".data s).bind matchName with
    | some r => some r
    | none => (stripLiteral "telegram.dog/".data s).bind matchName

/-- The match of the whole expression of `parseTelegramUrl` at the start of
the input: the optional scheme is tried as `https://`, as `http://`, then
left out. -/
def telegramAt (s : List Char) : Option (List Char × List Char) :=
  match (stripLiteral "https://".data s).bind matchHost with
  | some r => some r
  | none =>
    match (stripLiteral "http://".data s).bind matchHost with
    | some r => some r
    | none => matchHost s

/-- The call `url.match(regex)` without the `g` flag: the match at the
leftmost position where the expression matches. -/
def telegramSearch : List Char → Option (List Char × List Char)
  | [] => none
  | c :: t =>
    match telegramAt (c :: t) with
    | some r => some r
    | none => telegramSearch t

/-- The integer written by a text of decimal digits. -/
def decimalValue (digits : List Char) : Nat :=
  digits.foldl (fun acc c => acc * 10 + (c.toNat - 48)) 0

/-- The call `parseInt(text)` on a text of decimal digits: the integer
written, which a number holds exactly below `2 ^ 53`; `round` is the rounding
to a number of a larger integer. -/
def jsParseInt (round : Nat → Nat) (digits : List Char) : Nat :=
  if decimalValue digits < 2 ^ 53 then decimalValue digits else round (decimalValue digits)

/-- The object returned by `parseTelegramUrl`. -/
structure TelegramUrl where
  username : String
  messageId : Nat
deriving DecidableEq, Repr

/-- The function `parseTelegramUrl`; `none` is `null`. -/
def parseTelegramUrl (round : Nat → Nat) (url : String) : Option TelegramUrl :=
  match telegramSearch url.data with
  | none => none
  | some r => some (TelegramUrl.mk (String.mk r.1) (jsParseInt round r.2))

/-- The match of `([^\/\?]+)\/?`: the captured code is the longest run of
name characters, at least one; the optional slash never fails. -/
def matchCode (s : List Char) : Option (List Char) :=
  if s.takeWhile isNameChar = [] then none else some (s.takeWhile isNameChar)

/-- The match of `instagram\.com\/(?:p)\/([^\/\?]+)\/?`. -/
def matchInstagramPath (s : List Char) : Option (List Char) :=
  (stripLiteral "instagram.com/p/".data s).bind matchCode

/-- The match of `(?:www\.)?instagram\.com\/(?:p)\/([^\/\?]+)\/?`: the
optional `www.` is tried first, then left out. -/
def matchInstagramHost (s : List Char) : Option (List Char) :=
  match (stripLiteral "www.".data s).bind matchInstagramPath with
  | some r => some r
  | none => matchInstagramPath s

/-- The match of the whole expression of `parseInstagramUrl` at the start of
the input: the optional scheme is tried as `https://`, as `http://`, then
left out. -/
def instagramAt (s : List Char) : Option (List Char) :=
  match (stripLiteral "https://".data s).bind matchInstagramHost with
  | some r => some r
  | none =>
    match (stripLiteral "http://".data s).bind matchInstagramHost with
    | some r => some r
    | none => matchInstagramHost s

/-- The call `url.match(regex)` of `parseInstagramUrl`: the match at the
leftmost position where the expression matches. -/
def instagramSearch : List Char → Option (List Char)
  | [] => none
  | c :: t =>
    match instagramAt (c :: t) with
    | some r => some r
    | none => instagramSearch t

/-- The function `parseInstagramUrl`: the `code` of the object returned;
`none` is `null`. -/
def parseInstagramUrl (url : String) : Option String :=
  (instagramSearch url.data).map String.mk

/-- The platforms of a post. -/
inductive PlatformType where
  | INSTAGRAM
  | TELEGRAM
deriving DecidableEq, Repr

/-- The function `getPlatform`; `none` is `null`. -/
def getPlatform (round : Nat → Nat) (url : String) : Option PlatformType :=
  if (parseInstagramUrl url).isSome then some PlatformType.INSTAGRAM
  else if (parseTelegramUrl round url).isSome then some PlatformType.TELEGRAM
  else none

/-- The call `text.includes(needle)`, on the characters of the two strings. -/
def jsIncludes (needle : List Char) : List Char → Bool
  | [] => needle.isEmpty
  | c :: t => (stripLiteral needle (c :: t)).isSome || jsIncludes needle t

/-- The initial value of the field `message` of `IsValidPlatformConstraint`. -/
def unsupportedPlatformMessage : String :=
  "Unsupported platform. Only Instagram posts and Telegram channel messages are supported."

/-- The method `IsValidPlatformConstraint.validate`: the value returned and
the field `message` after the call, from the field `message` before it. The
method `String.prototype.toLowerCase` is a parameter. -/
def validate (toLowerCase : String → String) (round : Nat → Nat) (message : String)
    (value : JsValue) : Bool × String :=
  match value with
  | JsValue.str s =>
    let url := toLowerCase (String.mk (jsTrim s.data))
    match getPlatform round url with
    | some PlatformType.INSTAGRAM => (false, "Instagram is currently unavailable")
    | some PlatformType.TELEGRAM => (true, message)
    | none =>
      if jsIncludes "instagram.com".data url.data then
        (false, "Invalid Instagram URL format. Please provide a valid post URL (e.g., https://instagram.com/p/ABC123/)")
      else if jsIncludes "t.me".data url.data || jsIncludes "telegram".data url.data then
        (false, "Invalid Telegram URL format. Please provide a valid channel message URL (e.g., https://t.me/channel/123)")
      else (false, message)
  | _ => (false, message)

/-- The method `IsValidPlatformConstraint.defaultMessage`, from the field
`message`. -/
def defaultMessage (message : String) : String := message

/-- The field `message` after a sequence of `validate` calls on one
instance, from its value before them. -/
def messageAfter (toLowerCase : String → String) (round : Nat → Nat) :
    String → List JsValue → String
  | message, [] => message
  | message, value :: rest =>
    messageAfter toLowerCase round (validate toLowerCase round message value).2 rest

/-- The platform stored by `AnalysisService.create` for the `url` of the
request: `getPlatform` of the string as received. -/
def createdPostPlatform (round : Nat → Nat) (url : String) : Option PlatformType :=
  getPlatform round url

/-- The lower case of a text whose letters are ASCII letters: used to
instantiate `toLowerCase` in the theorems. -/
def asciiLowerCase (s : String) : String :=
  String.mk (s.data.map (fun c => if 'A' ≤ c ∧ c ≤ 'Z' then Char.ofNat (c.toNat + 32) else c))

/-! ## Text normalizer -/

/-- The class `\n`. -/
def isNewline (c : Char) : Bool := c == '\n'

/-- The class `[ ]`. -/
def isBlank (c : Char) : Bool := c == ' '

/-- The class `\t`. -/
def isTab (c : Char) : Bool := c == '\t'

/-- The class `[^\S\r\n]`: a white space character other than `\r` and `\n`. -/
def isHorizontalSpace (c : Char) : Bool := isWhiteSpace c && c != '\r' && c != '\n'

/-- The call `s.replace(/.../g, replacement)` for an expression that matches
at least one character: `matchAt` gives the text matched at the start of the
input, if any; `skip` is the number of characters still covered by the last
match. At every other position the expression is tried: a match is replaced
and the search resumes after it, otherwise the character is kept. -/
def jsReplaceAll (matchAt : List Char → Option (List Char)) (replacement : List Char) :
    Nat → List Char → List Char
  | _, [] => []
  | skip + 1, _ :: t => jsReplaceAll matchAt replacement skip t
  | 0, c :: t =>
    match matchAt (c :: t) with
    | some m => replacement ++ jsReplaceAll matchAt replacement (m.length - 1) t
    | none => c :: jsReplaceAll matchAt replacement 0 t

/-- The match of `class{n,}` (and of `class+` for `n = 1`) at the start of
the input: the longest run of characters of the class, when it has at least
`n` characters. -/
def matchRun (p : Char → Bool) (n : Nat) (s : List Char) : Option (List Char) :=
  if n ≤ (s.takeWhile p).length then some (s.takeWhile p) else none

/-- The match of `"` at the start of the input. -/
def matchQuote : List Char → Option (List Char)
  | [] => none
  | c :: _ => if c == '"' then some [c] else none

/-- The longest prefix of a run that ends with a newline. -/
def upToLastNewline : List Char → Option (List Char)
  | [] => none
  | c :: t =>
    match upToLastNewline t with
    | some m => some (c :: m)
    | none => if c == '\n' then some [c] else none

/-- The match of `\s+\n` at the start of the input: `\s+` takes the whole
run of white space and gives characters back until a newline follows; at
least one character stays before that newline. -/
def matchSpaceNewline : List Char → Option (List Char)
  | [] => none
  | c :: t =>
    if isWhiteSpace c then
      (upToLastNewline (t.takeWhile isWhiteSpace)).map (fun m => c :: m)
    else none

/-- The match of `\n\s+` at the start of the input: a newline and the whole
run of white space after it, of at least one character. -/
def matchNewlineSpace : List Char → Option (List Char)
  | [] => none
  | c :: t =>
    if c == '\n' && !(t.takeWhile isWhiteSpace).isEmpty then
      some (c :: t.takeWhile isWhiteSpace)
    else none

/-- The method `fixText`, on the characters of the text. In the template
literal the replacement of the second call is the double quote itself. -/
def fixTextChars (text : List Char) : List Char :=
  jsReplaceAll matchNewlineSpace ['\n'] 0
    (jsReplaceAll matchSpaceNewline ['\n'] 0
      (jsReplaceAll (matchRun isHorizontalSpace 2) [' '] 0
        (jsReplaceAll (matchRun isTab 1) [' '] 0
          (jsReplaceAll (matchRun isBlank 3) [' ', ' '] 0
            (jsReplaceAll (matchRun isNewline 2) ['\n'] 0
              (jsReplaceAll (matchRun isNewline 4) ['\n', '\n', '\n'] 0
                (jsReplaceAll matchQuote ['"'] 0 (jsTrim text))))))))

/-- The method `DataAnalyzerService.fixText`. -/
def fixText (text : String) : String := String.mk (fixTextChars text.data)

/-- The rules of the specification of the text normalizer, applied in order,
on the characters of the text: trim; every run of 4 or more newlines becomes
exactly 2 newlines; every run of 2 or more newlines becomes 1; every run of 3
or more spaces becomes 2; every run of tabs becomes one space; every run of 2
or more horizontal white space characters becomes one space; the white space
before a newline is removed; the white space after a newline is removed. -/
def normalizeBySpecChars (text : List Char) : List Char :=
  jsReplaceAll matchNewlineSpace ['\n'] 0
    (jsReplaceAll matchSpaceNewline ['\n'] 0
      (jsReplaceAll (matchRun isHorizontalSpace 2) [' '] 0
        (jsReplaceAll (matchRun isTab 1) [' '] 0
          (jsReplaceAll (matchRun isBlank 3) [' ', ' '] 0
            (jsReplaceAll (matchRun isNewline 2) ['\n'] 0
              (jsReplaceAll (matchRun isNewline 4) ['\n', '\n'] 0 (jsTrim text)))))))

/-- The text normalizer as the specification words it. -/
def normalizeBySpec (text : String) : String := String.mk (normalizeBySpecChars text.data)

/-- A matcher gives a non-empty text with which the input starts. -/
def PrefixMatcher (matchAt : List Char → Option (List Char)) : Prop :=
  ∀ s m, matchAt s = some m → m ≠ [] ∧ ∃ rest, s = m ++ rest

/-- A matcher matches white space only. -/
def SpaceMatcher (matchAt : List Char → Option (List Char)) : Prop :=
  ∀ s m, matchAt s = some m → ∀ c ∈ m, isWhiteSpace c = true

/-- A text that neither starts nor ends with white space. -/
def Trimmed (s : List Char) : Prop :=
  (∀ c ∈ s.head?, isWhiteSpace c = false) ∧ (∀ c ∈ s.getLast?, isWhiteSpace c = false)

/-- No two horizontal white space characters stand side by side. -/
def NoSpacePair (a b : Char) : Prop := ¬ (isHorizontalSpace a = true ∧ isHorizontalSpace b = true)

/-- No white space stands right before a newline. -/
def NoSpaceBeforeNewline (a b : Char) : Prop := ¬ (isWhiteSpace a = true ∧ b = '\n')

/-- No white space stands right after a newline. -/
def NoSpaceAfterNewline (a b : Char) : Prop := ¬ (a = '\n' ∧ isWhiteSpace b = true)

/-- The shape of a text that `fixText` leaves as it is: trimmed, without
tab, without two horizontal white space characters side by side, and with
no white space next to a newline. -/
def Normalized (s : List Char) : Prop :=
  Trimmed s ∧ (∀ c ∈ s, c ≠ '\t') ∧ List.Chain' NoSpacePair s
    ∧ List.Chain' NoSpaceBeforeNewline s ∧ List.Chain' NoSpaceAfterNewline s

/-! ## Comment serializer -/

/-- The call `this.fixText(value)` on a field of a stored comment: the first
step `text.trim()` throws a `TypeError` on a value that is not a string. -/
def fixTextValue : JsValue → Except JsError String
  | JsValue.str s => Except.ok (fixText s)
  | JsValue.null => Except.error (JsError.nullProperty "trim")
  | JsValue.undefined =>
    Except.error (JsError.mk "TypeError" "Cannot read properties of undefined (reading 'trim')")
  | _ => Except.error (JsError.mk "TypeError" "text.trim is not a function")

/-- The method `DataAnalyzerService.mapCommentToAiInput`: the fields of the
object literal are evaluated in order, `content` and then `authorFullName`
through `fixText`, and the object is handed to `JSON.stringify`, which is a
parameter. -/
def mapCommentToAiInput (stringify : Comment → Except JsError String) (comment : Comment) :
    Except JsError String :=
  match fixTextValue comment.content with
  | Except.error e => Except.error e
  | Except.ok content =>
    match fixTextValue comment.authorFullName with
    | Except.error e => Except.error e
    | Except.ok authorFullName =>
      stringify (Comment.mk comment.id comment.platformId (JsValue.str content) comment.isReply
        comment.parentPlatformId comment.authorUsername (JsValue.str authorFullName)
        comment.authorFollowersCount comment.authorVerified comment.likesCount
        comment.repliesCount comment.sharesCount comment.viewsCount comment.reactions
        comment.publishedAt)

/-- A `JSON.stringify` used to instantiate the theorems: it writes the
identifier, the content and the author name of the object. -/
def sampleStringify (object : Comment) : Except JsError String :=
  match object.content, object.authorFullName with
  | JsValue.str content, JsValue.str name =>
    Except.ok ("\x7b\"id\":\"" ++ object.id ++ "\",\"content\":\"" ++ content
      ++ "\",\"authorFullName\":\"" ++ name ++ "\"\x7d")
  | _, _ => Except.ok ("\x7b\"id\":\"" ++ object.id ++ "\"\x7d")

/-- A stored comment with a text content and an author name. -/
def Comment.withAuthor (id content name : String) : Comment :=
  Comment.mk id JsValue.null (JsValue.str content) JsValue.null JsValue.null JsValue.null
    (JsValue.str name) JsValue.null JsValue.null JsValue.null JsValue.null JsValue.null
    JsValue.null JsValue.null JsValue.null

/-! ## Theorems: the comment chunker -/

theorem chunkLoop_groups (mapCommentToAiInput : Comment → Except JsError String)
    (maxChunkLength : Nat) (comments : List Comment) :
    ∀ (inputs : List String) (closed : List (List String)) (current : List String)
      (currentLength : Nat),
      serializeAll mapCommentToAiInput comments = Except.ok inputs →
      ∃ n, chunkLoop mapCommentToAiInput maxChunkLength
          (ChunkState.mk (closed.map renderChunk) current currentLength) comments
        = Except.ok (ChunkState.mk
            ((groupLoop maxChunkLength closed current currentLength inputs).1.map renderChunk)
            (groupLoop maxChunkLength closed current currentLength inputs).2 n) := by
  induction comments with
  | nil =>
    intro inputs closed current currentLength h
    simp only [serializeAll, Except.ok.injEq] at h
    subst h
    exact ⟨currentLength, rfl⟩
  | cons c rest ih =>
    intro inputs closed current currentLength h
    simp only [serializeAll] at h
    cases hc : mapCommentToAiInput c with
    | error e => simp [hc] at h
    | ok s =>
      cases hr : serializeAll mapCommentToAiInput rest with
      | error e => simp [hc, hr] at h
      | ok ss =>
        simp only [hc, hr, Except.ok.injEq] at h
        subst h
        by_cases hlen : currentLength + (jsLength s + 1) > maxChunkLength
        · obtain ⟨n, hn⟩ := ih ss (closed ++ [current]) [s] (jsLength s + 1) hr
          refine ⟨n, ?_⟩
          simp only [chunkLoop, chunkStep, hc, hlen, if_true, groupLoop]
          simpa using hn
        · obtain ⟨n, hn⟩ := ih ss closed (current ++ [s]) (currentLength + (jsLength s + 1)) hr
          refine ⟨n, ?_⟩
          simp only [chunkLoop, chunkStep, hc, hlen, if_false, groupLoop]
          simpa using hn

theorem groupLoop_join (maxChunkLength : Nat) (inputs : List String) :
    ∀ (closed : List (List String)) (current : List String) (currentLength : Nat),
      (groupLoop maxChunkLength closed current currentLength inputs).1.flatten
          ++ (groupLoop maxChunkLength closed current currentLength inputs).2
        = closed.flatten ++ current ++ inputs := by
  induction inputs with
  | nil => intro closed current currentLength; simp [groupLoop]
  | cons s rest ih =>
    intro closed current currentLength
    by_cases hlen : currentLength + (jsLength s + 1) > maxChunkLength
    · simp only [groupLoop, hlen, if_true]
      rw [ih]
      simp
    · simp only [groupLoop, hlen, if_false]
      rw [ih]
      simp

theorem chunkGroups_join (inputs : List String) (maxChunkLength : Nat) :
    (chunkGroups inputs maxChunkLength).flatten = inputs := by
  have h := groupLoop_join maxChunkLength inputs [] [] 2
  simp only [List.flatten_nil, List.nil_append] at h
  unfold chunkGroups
  by_cases hne : (groupLoop maxChunkLength [] [] 2 inputs).2.length > 0
  · simp only [hne, if_true, List.flatten_append, List.flatten_cons, List.flatten_nil, List.append_nil]
    exact h
  · simp only [hne, if_false]
    have h2 : (groupLoop maxChunkLength [] [] 2 inputs).2 = [] := by
      cases hx : (groupLoop maxChunkLength [] [] 2 inputs).2 with
      | nil => rfl
      | cons a l => rw [hx] at hne; simp at hne
    rw [h2, List.append_nil] at h
    exact h

theorem chunkCommentsForAnalysis_eq_groups
    (mapCommentToAiInput : Comment → Except JsError String) (comments : List Comment)
    (maxChunkLength : Nat) (inputs : List String)
    (hser : serializeAll mapCommentToAiInput comments = Except.ok inputs) :
    chunkCommentsForAnalysis mapCommentToAiInput comments maxChunkLength
      = Except.ok ((chunkGroups inputs maxChunkLength).map renderChunk) := by
  obtain ⟨n, hn⟩ := chunkLoop_groups mapCommentToAiInput maxChunkLength comments inputs [] [] 2 hser
  simp only [List.map_nil] at hn
  unfold chunkCommentsForAnalysis chunkGroups
  rw [hn]
  by_cases hne : (groupLoop maxChunkLength [] [] 2 inputs).2.length > 0
  · simp [hne]
  · simp [hne]

/-- C1. When every comment serializes, the chunks returned by
`chunkCommentsForAnalysis` are the renderings of the item lists
`chunkGroups`, and concatenating these item lists in chunk order gives the
serialized form of each input comment exactly once, in input order. -/
theorem chunk_items_concat_eq_inputs
    (mapCommentToAiInput : Comment → Except JsError String) (comments : List Comment)
    (maxChunkLength : Nat) (inputs : List String)
    (hser : serializeAll mapCommentToAiInput comments = Except.ok inputs) :
    chunkCommentsForAnalysis mapCommentToAiInput comments maxChunkLength
        = Except.ok ((chunkGroups inputs maxChunkLength).map renderChunk)
      ∧ (chunkGroups inputs maxChunkLength).flatten = inputs :=
  ⟨chunkCommentsForAnalysis_eq_groups mapCommentToAiInput comments maxChunkLength inputs hser,
    chunkGroups_join inputs maxChunkLength⟩

theorem chunk_items_concat_eq_inputs_witness :
    serializeAll sampleSerializer
        [Comment.withContent "c1" "hi", Comment.withContent "c2" "yo",
          Comment.withContent "c3" "ok"]
        = Except.ok
          ["\x7b\"id\":\"c1\",\"content\":\"hi\"\x7d", "\x7b\"id\":\"c2\",\"content\":\"yo\"\x7d",
            "\x7b\"id\":\"c3\",\"content\":\"ok\"\x7d"]
      ∧ (chunkCommentsForAnalysis sampleSerializer
          [Comment.withContent "c1" "hi", Comment.withContent "c2" "yo",
            Comment.withContent "c3" "ok"] 60
          = Except.ok ((chunkGroups
              ["\x7b\"id\":\"c1\",\"content\":\"hi\"\x7d", "\x7b\"id\":\"c2\",\"content\":\"yo\"\x7d",
                "\x7b\"id\":\"c3\",\"content\":\"ok\"\x7d"] 60).map renderChunk)
        ∧ (chunkGroups
              ["\x7b\"id\":\"c1\",\"content\":\"hi\"\x7d", "\x7b\"id\":\"c2\",\"content\":\"yo\"\x7d",
                "\x7b\"id\":\"c3\",\"content\":\"ok\"\x7d"] 60).flatten
            = ["\x7b\"id\":\"c1\",\"content\":\"hi\"\x7d", "\x7b\"id\":\"c2\",\"content\":\"yo\"\x7d",
                "\x7b\"id\":\"c3\",\"content\":\"ok\"\x7d"]) :=
  ⟨rfl, chunk_items_concat_eq_inputs sampleSerializer _ 60 _ rfl⟩

theorem jsLength_append (a b : String) : jsLength (a ++ b) = jsLength a + jsLength b := by
  simp [jsLength, String.data_append]

theorem jsLength_padding (n : Nat) : jsLength (padding n) = n := by
  simp [jsLength, padding]

theorem jsLength_sample (id content : String) :
    jsLength ("\x7b\"id\":\"" ++ id ++ "\",\"content\":\"" ++ content ++ "\"\x7d")
      = jsLength id + jsLength content + 22 := by
  have h1 : jsLength "\x7b\"id\":\"" = 7 := by decide
  have h2 : jsLength "\",\"content\":\"" = 13 := by decide
  have h3 : jsLength "\"\x7d" = 2 := by decide
  simp only [jsLength_append, h1, h2, h3]
  omega

theorem jsLength_renderChunk_pair (a b : String) :
    jsLength (renderChunk [a, b]) = jsLength a + jsLength b + 3 := by
  have h1 : jsLength "[" = 1 := by decide
  have h2 : jsLength "," = 1 := by decide
  have h3 : jsLength "]" = 1 := by decide
  simp only [renderChunk, jsJoin, jsLength_append, h1, h2, h3]
  omega

theorem chunk_three_comments
    (mapCommentToAiInput : Comment → Except JsError String) (a b c : Comment)
    (sa sb sc : String) (maxChunkLength : Nat)
    (ha : mapCommentToAiInput a = Except.ok sa) (hb : mapCommentToAiInput b = Except.ok sb)
    (hc : mapCommentToAiInput c = Except.ok sc)
    (h1 : 2 + (jsLength sa + 1) ≤ maxChunkLength)
    (h2 : maxChunkLength < 2 + (jsLength sa + 1) + (jsLength sb + 1))
    (h3 : (jsLength sb + 1) + (jsLength sc + 1) ≤ maxChunkLength) :
    chunkCommentsForAnalysis mapCommentToAiInput [a, b, c] maxChunkLength
      = Except.ok [renderChunk [sa], renderChunk [sb, sc]] := by
  have e1 : ¬ (2 + (jsLength sa + 1) > maxChunkLength) := by omega
  have e2 : 2 + (jsLength sa + 1) + (jsLength sb + 1) > maxChunkLength := by omega
  have e3 : ¬ (jsLength sb + 1 + (jsLength sc + 1) > maxChunkLength) := by omega
  simp [chunkCommentsForAnalysis, chunkLoop, chunkStep, ha, hb, hc, e1, e2, e3]

theorem jsLength_paddedInput (id : String) : jsLength (paddedInput id) = jsLength id + 497 := by
  unfold paddedInput
  rw [jsLength_sample, jsLength_padding]

theorem paddedComments_chunks :
    chunkCommentsForAnalysis sampleSerializer paddedComments 1000
      = Except.ok [renderChunk [paddedInput "c1"],
          renderChunk [paddedInput "c2", paddedInput "c3"]] := by
  have hid1 : jsLength "c1" = 2 := by decide
  have hid2 : jsLength "c2" = 2 := by decide
  have hid3 : jsLength "c3" = 2 := by decide
  exact chunk_three_comments sampleSerializer _ _ _ _ _ _ 1000 rfl rfl rfl
    (by rw [jsLength_paddedInput, hid1]; omega)
    (by rw [jsLength_paddedInput, jsLength_paddedInput, hid1, hid2]; omega)
    (by rw [jsLength_paddedInput, jsLength_paddedInput, hid2, hid3])

/-- C2 (failing input). Three comments such that the second closes the first
chunk and the third still passes the length test: the second chunk returned by
`chunkCommentsForAnalysis` holds two items, none of them over the budget, and
its length is the budget plus one. -/
theorem chunk_two_items_over_budget
    (mapCommentToAiInput : Comment → Except JsError String) (a b c : Comment)
    (sa sb sc : String) (maxChunkLength : Nat)
    (ha : mapCommentToAiInput a = Except.ok sa) (hb : mapCommentToAiInput b = Except.ok sb)
    (hc : mapCommentToAiInput c = Except.ok sc)
    (h1 : 2 + (jsLength sa + 1) ≤ maxChunkLength)
    (h2 : maxChunkLength < 2 + (jsLength sa + 1) + (jsLength sb + 1))
    (h3 : (jsLength sb + 1) + (jsLength sc + 1) = maxChunkLength) :
    chunkCommentsForAnalysis mapCommentToAiInput [a, b, c] maxChunkLength
        = Except.ok [renderChunk [sa], renderChunk [sb, sc]]
      ∧ jsLength (renderChunk [sb, sc]) = maxChunkLength + 1
      ∧ jsLength sb ≤ maxChunkLength ∧ jsLength sc ≤ maxChunkLength := by
  refine ⟨?_, ?_, by omega, by omega⟩
  · exact chunk_three_comments mapCommentToAiInput a b c sa sb sc maxChunkLength ha hb hc h1 h2
      (by omega)
  · rw [jsLength_renderChunk_pair]
    omega

theorem chunk_two_items_over_budget_witness :
    chunkCommentsForAnalysis sampleSerializer paddedComments 1000
        = Except.ok [renderChunk [paddedInput "c1"],
            renderChunk [paddedInput "c2", paddedInput "c3"]]
      ∧ jsLength (renderChunk [paddedInput "c2", paddedInput "c3"]) = 1000 + 1
      ∧ jsLength (paddedInput "c2") ≤ 1000 ∧ jsLength (paddedInput "c3") ≤ 1000 := by
  have hid1 : jsLength "c1" = 2 := by decide
  have hid2 : jsLength "c2" = 2 := by decide
  have hid3 : jsLength "c3" = 2 := by decide
  exact chunk_two_items_over_budget sampleSerializer
    (Comment.withContent "c1" (padding 475)) (Comment.withContent "c2" (padding 475))
    (Comment.withContent "c3" (padding 475)) (paddedInput "c1") (paddedInput "c2")
    (paddedInput "c3") 1000 rfl rfl rfl
    (by rw [jsLength_paddedInput, hid1]; omega)
    (by rw [jsLength_paddedInput, jsLength_paddedInput, hid1, hid2]; omega)
    (by rw [jsLength_paddedInput, jsLength_paddedInput, hid2, hid3])

theorem groupLoop_closed_prefix (maxChunkLength : Nat) (inputs : List String) :
    ∀ (closed : List (List String)) (current : List String) (currentLength : Nat),
      ∃ more, (groupLoop maxChunkLength closed current currentLength inputs).1
        = closed ++ more := by
  induction inputs with
  | nil => intro closed current currentLength; exact ⟨[], by simp [groupLoop]⟩
  | cons s rest ih =>
    intro closed current currentLength
    by_cases hlen : currentLength + (jsLength s + 1) > maxChunkLength
    · obtain ⟨more, hmore⟩ := ih (closed ++ [current]) [s] (jsLength s + 1)
      refine ⟨current :: more, ?_⟩
      simp only [groupLoop, hlen, if_true, hmore]
      simp
    · obtain ⟨more, hmore⟩ := ih closed (current ++ [s]) (currentLength + (jsLength s + 1))
      refine ⟨more, ?_⟩
      simp only [groupLoop, hlen, if_false, hmore]

/-- C3 (failing input). When the serialized form of the first comment has
more characters than the budget minus three, the first chunk returned by
`chunkCommentsForAnalysis` for the non-empty list is the literal `[]`, a
chunk of zero items. -/
theorem chunk_first_chunk_empty
    (mapCommentToAiInput : Comment → Except JsError String) (comment : Comment)
    (rest : List Comment) (s : String) (ss : List String) (maxChunkLength : Nat)
    (hser : serializeAll mapCommentToAiInput (comment :: rest) = Except.ok (s :: ss))
    (hlong : maxChunkLength < 2 + (jsLength s + 1)) :
    ∃ others, chunkCommentsForAnalysis mapCommentToAiInput (comment :: rest) maxChunkLength
      = Except.ok ("[]" :: others) := by
  rw [chunkCommentsForAnalysis_eq_groups mapCommentToAiInput (comment :: rest) maxChunkLength
    (s :: ss) hser]
  have hlen : 2 + (jsLength s + 1) > maxChunkLength := hlong
  obtain ⟨more, hmore⟩ := groupLoop_closed_prefix maxChunkLength ss ([] ++ [[]]) [s]
    (jsLength s + 1)
  have hrender : renderChunk [] = "[]" := by decide
  unfold chunkGroups
  simp only [groupLoop, hlen, if_true, hmore]
  by_cases hne : (groupLoop maxChunkLength ([] ++ [[]]) [s] (jsLength s + 1) ss).2.length > 0
  · simp only [hne, if_true]
    exact ⟨(more ++ [(groupLoop maxChunkLength ([] ++ [[]]) [s] (jsLength s + 1) ss).2]).map
      renderChunk, by simp [hrender]⟩
  · simp only [hne, if_false]
    exact ⟨more.map renderChunk, by simp [hrender]⟩

theorem chunk_first_chunk_empty_witness :
    serializeAll sampleSerializer [Comment.withContent "c1" (padding 980)]
        = Except.ok ["\x7b\"id\":\"" ++ "c1" ++ "\",\"content\":\"" ++ padding 980 ++ "\"\x7d"]
      ∧ ∃ others, chunkCommentsForAnalysis sampleSerializer
          [Comment.withContent "c1" (padding 980)] 1000 = Except.ok ("[]" :: others) :=
  ⟨rfl, chunk_first_chunk_empty sampleSerializer (Comment.withContent "c1" (padding 980)) []
    ("\x7b\"id\":\"" ++ "c1" ++ "\",\"content\":\"" ++ padding 980 ++ "\"\x7d") [] 1000 rfl
    (by rw [jsLength_sample, jsLength_padding]; omega)⟩

theorem chunkCommentsForAnalysis_nil
    (mapCommentToAiInput : Comment → Except JsError String) (maxChunkLength : Nat) :
    chunkCommentsForAnalysis mapCommentToAiInput [] maxChunkLength = Except.ok [] := rfl

/-! ## Theorems: the result persister -/

theorem updateLoop_flatten (coerce : String → JsValue → Bool) (clock : Nat → Nat)
    (comments : List Comment) (results : List JsValue) :
    ∀ (index : Nat) (updatePromises : List CommentUpdate) (awaited : List (List CommentUpdate)),
      (updateLoop coerce clock comments index updatePromises awaited results).2.flatten
          ++ (updateLoop coerce clock comments index updatePromises awaited results).1
        = awaited.flatten ++ updatePromises ++ stagedFrom coerce clock comments index results := by
  induction results with
  | nil => intro index updatePromises awaited; simp [updateLoop, stagedFrom]
  | cons r rest ih =>
    intro index updatePromises awaited
    simp only [updateLoop, stagedFrom]
    cases hst : stagedUpdate coerce clock comments index r with
    | none =>
      by_cases hflush : (index + 1) % 300 = 0
      · simp only [hflush, if_true]; rw [ih]; simp
      · simp only [hflush, if_false]; rw [ih]
    | some u =>
      by_cases hflush : (index + 1) % 300 = 0
      · simp only [hflush, if_true]; rw [ih]; simp
      · simp only [hflush, if_false]; rw [ih]; simp

theorem issuedUpdates_eq_stagedFrom (coerce : String → JsValue → Bool) (clock : Nat → Nat)
    (comments : List Comment) (results : List JsValue) :
    issuedUpdates coerce clock comments results = stagedFrom coerce clock comments 0 results := by
  have h := updateLoop_flatten coerce clock comments results 0 [] []
  simp only [List.flatten_nil, List.nil_append] at h
  unfold issuedUpdates updateCommentsAnalysis
  by_cases hne : (updateLoop coerce clock comments 0 [] [] results).1.length > 0
  · simp only [hne, if_true, List.flatten_append, List.flatten_cons, List.flatten_nil,
      List.append_nil]
    exact h
  · simp only [hne, if_false]
    have h2 : (updateLoop coerce clock comments 0 [] [] results).1 = [] := by
      cases hx : (updateLoop coerce clock comments 0 [] [] results).1 with
      | nil => rfl
      | cons a l => rw [hx] at hne; simp at hne
    rw [h2, List.append_nil] at h
    exact h

theorem stagedFrom_targets (coerce : String → JsValue → Bool) (clock : Nat → Nat)
    (comments : List Comment) (results : List JsValue) :
    ∀ index : Nat,
      (stagedFrom coerce clock comments index results).map CommentUpdate.whereId
        = results.filterMap
            (fun r => (matchedComment coerce comments r).map Comment.id) := by
  induction results with
  | nil => intro index; simp [stagedFrom]
  | cons r rest ih =>
    intro index
    simp only [stagedFrom, stagedUpdate]
    cases hm : matchedComment coerce comments r with
    | none => simp [List.filterMap_cons, hm, ih]
    | some c => simp [List.filterMap_cons, hm, ih]

theorem issuedUpdates_targets (coerce : String → JsValue → Bool) (clock : Nat → Nat)
    (comments : List Comment) (results : List JsValue) :
    (issuedUpdates coerce clock comments results).map CommentUpdate.whereId
      = results.filterMap (fun r => (matchedComment coerce comments r).map Comment.id) := by
  rw [issuedUpdates_eq_stagedFrom, stagedFrom_targets]

theorem matchedComment_some (coerce : String → JsValue → Bool) (comments : List Comment)
    (r : JsValue) (c : Comment) (h : matchedComment coerce comments r = some c) :
    c ∈ comments ∧ (r.get "id").truthy = true ∧ looseEq coerce c.id (r.get "id") = true := by
  unfold matchedComment at h
  by_cases ht : (r.truthy && (r.get "id").truthy) = true
  · rw [if_pos ht] at h
    simp only [Bool.and_eq_true] at ht
    have hl : (fun c : Comment => looseEq coerce c.id (r.get "id")) c = true :=
      List.find?_some (p := fun c : Comment => looseEq coerce c.id (r.get "id")) h
    exact ⟨List.mem_of_find?_eq_some h, ht.2, hl⟩
  · rw [if_neg ht] at h
    exact absurd h (by simp)

theorem matchedComment_none (coerce : String → JsValue → Bool) (comments : List Comment)
    (r : JsValue)
    (h : r.get "id" = JsValue.null ∨ r.get "id" = JsValue.undefined
      ∨ ∀ c ∈ comments, looseEq coerce c.id (r.get "id") = false) :
    matchedComment coerce comments r = none := by
  unfold matchedComment
  rcases h with h | h | h
  · simp [h, JsValue.truthy]
  · simp [h, JsValue.truthy]
  · by_cases ht : (r.truthy && (r.get "id").truthy) = true
    · rw [if_pos ht]
      rw [List.find?_eq_none]
      intro c hc
      simp [h c hc]
    · rw [if_neg ht]

theorem stagedFrom_append (coerce : String → JsValue → Bool) (clock : Nat → Nat)
    (comments : List Comment) (xs ys : List JsValue) :
    ∀ index : Nat,
      stagedFrom coerce clock comments index (xs ++ ys)
        = stagedFrom coerce clock comments index xs
          ++ stagedFrom coerce clock comments (index + xs.length) ys := by
  induction xs with
  | nil => intro index; simp [stagedFrom]
  | cons x rest ih =>
    intro index
    have harith : index + (x :: rest).length = index + 1 + rest.length := by
      simp only [List.length_cons]; omega
    rw [harith, List.cons_append]
    simp only [stagedFrom]
    cases stagedUpdate coerce clock comments index x with
    | none => exact ih (index + 1)
    | some u => simp only [List.cons_append, ih (index + 1)]

theorem stagedFrom_congr (coerce : String → JsValue → Bool) (clock clock' : Nat → Nat)
    (comments : List Comment) (xs : List JsValue) :
    ∀ index : Nat, (∀ j, index ≤ j → j < index + xs.length → clock j = clock' j) →
      stagedFrom coerce clock comments index xs = stagedFrom coerce clock' comments index xs := by
  induction xs with
  | nil => intro index _; rfl
  | cons x rest ih =>
    intro index h
    have h0 : clock index = clock' index :=
      h index (Nat.le_refl index) (by simp only [List.length_cons]; omega)
    have hrest := ih (index + 1) (fun j h1 h2 =>
      h j (by omega) (by simp only [List.length_cons]; omega))
    simp only [stagedFrom, stagedUpdate, h0, hrest]

theorem stagedFrom_shift (coerce : String → JsValue → Bool) (clock : Nat → Nat)
    (comments : List Comment) (xs : List JsValue) :
    ∀ index : Nat,
      stagedFrom coerce clock comments (index + 1) xs
        = stagedFrom coerce (fun j => clock (j + 1)) comments index xs := by
  induction xs with
  | nil => intro index; rfl
  | cons x rest ih =>
    intro index
    simp only [stagedFrom, stagedUpdate, ih (index + 1)]

theorem stagedUpdate_none (coerce : String → JsValue → Bool) (clock : Nat → Nat)
    (comments : List Comment) (index : Nat) (r : JsValue)
    (h : matchedComment coerce comments r = none) :
    stagedUpdate coerce clock comments index r = none := by
  simp [stagedUpdate, h]

/-- C4. Every update issued by `updateCommentsAnalysis` targets a comment of
the input list whose id is loosely equal (`==`) to the truthy id of some
extracted result; and a result whose id is null or missing, or is equal to
the id of no input comment, adds no update wherever it stands in the result
list: the updates issued are those issued without it, the later results
being handled one position later. The function is total: no result makes it
throw. -/
theorem updates_only_for_matched_comments (coerce : String → JsValue → Bool)
    (clock : Nat → Nat) (comments : List Comment) (results : List JsValue) :
    (∀ u ∈ issuedUpdates coerce clock comments results,
        ∃ c ∈ comments, ∃ r ∈ results,
          u.whereId = c.id ∧ (r.get "id").truthy = true
            ∧ looseEq coerce c.id (r.get "id") = true)
      ∧ (∀ (r : JsValue) (before after : List JsValue),
          (r.get "id" = JsValue.null ∨ r.get "id" = JsValue.undefined
            ∨ ∀ c ∈ comments, looseEq coerce c.id (r.get "id") = false) →
          issuedUpdates coerce clock comments (before ++ r :: after)
            = issuedUpdates coerce
                (fun j => if j < before.length then clock j else clock (j + 1))
                comments (before ++ after)) := by
  constructor
  · intro u hu
    have hmem : u.whereId ∈ (issuedUpdates coerce clock comments results).map
        CommentUpdate.whereId := List.mem_map_of_mem _ hu
    rw [issuedUpdates_targets] at hmem
    obtain ⟨r, hr, hopt⟩ := List.mem_filterMap.mp hmem
    cases hm : matchedComment coerce comments r with
    | none => rw [hm] at hopt; simp at hopt
    | some c =>
      rw [hm] at hopt
      simp only [Option.map_some', Option.some.injEq] at hopt
      obtain ⟨hc, ht, hl⟩ := matchedComment_some coerce comments r c hm
      exact ⟨c, hc, r, hr, hopt.symm, ht, hl⟩
  · intro r before after h
    have hnone := stagedUpdate_none coerce clock comments (0 + before.length) r
      (matchedComment_none coerce comments r h)
    rw [issuedUpdates_eq_stagedFrom, issuedUpdates_eq_stagedFrom, stagedFrom_append,
      stagedFrom_append]
    have hfirst : stagedFrom coerce clock comments 0 before
        = stagedFrom coerce (fun j => if j < before.length then clock j else clock (j + 1))
            comments 0 before :=
      stagedFrom_congr coerce clock _ comments before 0 (fun j _ h2 => by
        have hj : j < before.length := by omega
        simp only [hj, if_true])
    have hsecond : stagedFrom coerce clock comments (0 + before.length) (r :: after)
        = stagedFrom coerce (fun j => if j < before.length then clock j else clock (j + 1))
            comments (0 + before.length) after := by
      have hstep : stagedFrom coerce clock comments (0 + before.length) (r :: after)
          = stagedFrom coerce clock comments (0 + before.length + 1) after := by
        simp only [stagedFrom, hnone]
      rw [hstep, stagedFrom_shift]
      exact stagedFrom_congr coerce _ _ comments after (0 + before.length) (fun j h1 _ => by
        have hj : ¬ j < before.length := by omega
        simp only [hj, if_false])
    rw [hfirst, hsecond]

/-- C5 (counterexample). Two extracted results that carry the id of the same
comment make `updateCommentsAnalysis` issue two updates for that comment. -/
theorem two_results_same_id_two_updates :
    (issuedUpdates noCoercion (fun _ => 0) [Comment.ofId "c1"]
        [JsValue.obj [("id", JsValue.str "c1"), ("tone", JsValue.str "warm")],
          JsValue.obj [("id", JsValue.str "c1"), ("tone", JsValue.str "cold")]]).map
      CommentUpdate.whereId = ["c1", "c1"] := by
  decide

/-- C5 (amended). One run of `updateCommentsAnalysis` issues exactly one
update for each extracted result that selects a comment, in result order and
targeting that comment: a comment receives as many updates as there are
results that select it. -/
theorem one_update_per_matching_result (coerce : String → JsValue → Bool)
    (clock : Nat → Nat) (comments : List Comment) (results : List JsValue) (id : String) :
    (issuedUpdates coerce clock comments results).map CommentUpdate.whereId
        = results.filterMap (fun r => (matchedComment coerce comments r).map Comment.id)
      ∧ ((issuedUpdates coerce clock comments results).map CommentUpdate.whereId).count id
        = results.countP
            (fun r => (matchedComment coerce comments r).map Comment.id == some id) := by
  refine ⟨issuedUpdates_targets coerce clock comments results, ?_⟩
  rw [issuedUpdates_targets]
  induction results with
  | nil => simp
  | cons r rest ih =>
    cases hm : (matchedComment coerce comments r).map Comment.id with
    | none => simp [List.filterMap_cons, List.countP_cons, hm, ih]
    | some k =>
      by_cases hk : k = id
      · simp [List.filterMap_cons, List.countP_cons, hm, ih, hk]
      · simp [List.filterMap_cons, List.countP_cons, hm, ih, hk, List.count_cons]

/-! ## Theorems: the analysis orchestrator -/

theorem processChunksLoop_failure {T : Type}
    (processChunk : String → Nat → Except JsError (List T)) (failing : String)
    (after : List String) (e : JsError) (before : List String) :
    ∀ (index : Nat) (responses : List (List T)) (sent : List String),
      (∀ (i : Nat) (c : String), before[i]? = some c →
        ∃ r, processChunk c (index + i) = Except.ok r) →
      processChunk failing (index + before.length) = Except.error e →
      processChunksLoop processChunk index responses sent (before ++ failing :: after)
        = (Except.error e, sent ++ before ++ [failing]) := by
  induction before with
  | nil =>
    intro index responses sent _ hfail
    simp only [List.length_nil, Nat.add_zero] at hfail
    simp [processChunksLoop, hfail]
  | cons c rest ih =>
    intro index responses sent hbefore hfail
    obtain ⟨r, hr⟩ := hbefore 0 c (by simp)
    simp only [Nat.add_zero] at hr
    have hrest : ∀ (i : Nat) (c' : String), rest[i]? = some c' →
        ∃ r, processChunk c' (index + 1 + i) = Except.ok r := by
      intro i c' hi
      have h := hbefore (i + 1) c' (by simpa using hi)
      have harith : index + (i + 1) = index + 1 + i := by omega
      rw [harith] at h
      exact h
    have hfail' : processChunk failing (index + 1 + rest.length) = Except.error e := by
      have harith : index + (c :: rest).length = index + 1 + rest.length := by
        simp only [List.length_cons]; omega
      rw [harith] at hfail
      exact hfail
    have hstep : processChunksLoop processChunk index responses sent
        (c :: (rest ++ failing :: after))
        = processChunksLoop processChunk (index + 1) (responses ++ [r]) (sent ++ [c])
            (rest ++ failing :: after) := by
      simp only [processChunksLoop, hr]
    rw [List.cons_append, hstep, ih (index + 1) (responses ++ [r]) (sent ++ [c]) hrest hfail']
    simp

theorem analyzeData_configured (env : AnalysisEnv) (comments : List Comment) (budget : Nat)
    (processChunk : String → Nat → Except JsError (List JsValue))
    (hcfg : configuredHandler env = some (budget, processChunk)) :
    analyzeData env comments = analysisFailed (runHandler env budget processChunk comments) := by
  unfold configuredHandler at hcfg
  unfold analyzeData
  by_cases h1 : env.aiProvider = some "OLLAMA"
  · rw [if_pos h1] at hcfg
    rw [if_pos h1]
    simp only [Option.some.injEq, Prod.mk.injEq] at hcfg
    rw [← hcfg.1, ← hcfg.2]
    rfl
  · by_cases h2 : env.aiProvider = some "GEMINI"
    · rw [if_neg h1, if_pos h2] at hcfg
      rw [if_neg h1, if_pos h2]
      simp only [Option.some.injEq, Prod.mk.injEq] at hcfg
      rw [← hcfg.1, ← hcfg.2]
      rfl
    · by_cases h3 : env.aiProvider = some "DUCKAI"
      · rw [if_neg h1, if_neg h2, if_pos h3] at hcfg
        rw [if_neg h1, if_neg h2, if_pos h3]
        simp only [Option.some.injEq, Prod.mk.injEq] at hcfg
        rw [← hcfg.1, ← hcfg.2]
        rfl
      · rw [if_neg h1, if_neg h2, if_neg h3] at hcfg
        exact absurd hcfg (by simp)

theorem analyzeData_chunk_failure (env : AnalysisEnv) (comments : List Comment) (budget : Nat)
    (processChunk : String → Nat → Except JsError (List JsValue))
    (before after : List String) (failing : String) (e : JsError)
    (hcfg : configuredHandler env = some (budget, processChunk))
    (hchunks : chunkCommentsForAnalysis env.mapCommentToAiInput comments budget
      = Except.ok (before ++ failing :: after))
    (hbefore : ∀ (i : Nat) (c : String), before[i]? = some c →
      ∃ r, processChunk c i = Except.ok r)
    (hfail : processChunk failing before.length = Except.error e) :
    analyzeData env comments
      = RunResult.mk (Except.error (JsError.error "Data analysis failed: analysis error"))
          (before ++ [failing]) [] := by
  have hloop := processChunksLoop_failure processChunk failing after e before 0 [] []
    (by intro i c hi; simpa using hbefore i c hi) (by simpa using hfail)
  rw [analyzeData_configured env comments budget processChunk hcfg]
  simp only [runHandler, hchunks, processChunksWithProvider, hloop, List.nil_append]
  rfl

/-- C6. When the callback of the configured provider (provider call, then
extraction) succeeds on the chunks `before` and fails on the next chunk, the
run fails, the chunks handed to the provider are exactly `before` and the
failing chunk (none of the chunks `after`), and no update batch is awaited:
the results extracted from the chunks `before` are not persisted. -/
theorem chunk_failure_stops_run (env : AnalysisEnv) (comments : List Comment) (budget : Nat)
    (processChunk : String → Nat → Except JsError (List JsValue))
    (before after : List String) (failing : String) (e : JsError)
    (hcfg : configuredHandler env = some (budget, processChunk))
    (hchunks : chunkCommentsForAnalysis env.mapCommentToAiInput comments budget
      = Except.ok (before ++ failing :: after))
    (hbefore : ∀ (i : Nat) (c : String), before[i]? = some c →
      ∃ r, processChunk c i = Except.ok r)
    (hfail : processChunk failing before.length = Except.error e) :
    (∃ err, (analyzeData env comments).outcome = Except.error err)
      ∧ (analyzeData env comments).sent = before ++ [failing]
      ∧ (analyzeData env comments).batches = [] := by
  rw [analyzeData_chunk_failure env comments budget processChunk before after failing e
    hcfg hchunks hbefore hfail]
  exact ⟨⟨_, rfl⟩, rfl, rfl⟩

/-- C7 (counterexample). The DuckAI provider fails on the only chunk with the
message `timeout`; the error thrown by `analyzeData` and the status
description recorded for the failed analysis are both
`Data analysis failed: analysis error`, in which `timeout` does not occur. -/
theorem provider_message_not_carried :
    duckAiChunk failingEnv "[\x7b\"id\":\"c1\",\"content\":\"hi\"\x7d]" 0
        = Except.error (JsError.error "timeout")
      ∧ chunkCommentsForAnalysis failingEnv.mapCommentToAiInput
          [Comment.withContent "c1" "hi"] 2000
        = Except.ok ["[\x7b\"id\":\"c1\",\"content\":\"hi\"\x7d]"]
      ∧ (analyzeData failingEnv [Comment.withContent "c1" "hi"]).outcome
        = Except.error (JsError.error "Data analysis failed: analysis error")
      ∧ statusAfterAnalysis (analyzeData failingEnv [Comment.withContent "c1" "hi"]).outcome
        = (AnalysisStatus.FAILED, some "Data analysis failed: analysis error")
      ∧ ¬ ("timeout".data <:+: "Data analysis failed: analysis error".data) :=
  ⟨rfl, rfl, rfl, rfl, by decide⟩

/-- C7 (amended). When the callback of the configured provider fails on a
chunk, with whatever error, the error thrown by `analyzeData` has the fixed
message `Data analysis failed: analysis error`, and this fixed message is the
status description recorded for the failed analysis. -/
theorem chunk_failure_fixed_message (env : AnalysisEnv) (comments : List Comment)
    (budget : Nat) (processChunk : String → Nat → Except JsError (List JsValue))
    (before after : List String) (failing : String) (e : JsError)
    (hcfg : configuredHandler env = some (budget, processChunk))
    (hchunks : chunkCommentsForAnalysis env.mapCommentToAiInput comments budget
      = Except.ok (before ++ failing :: after))
    (hbefore : ∀ (i : Nat) (c : String), before[i]? = some c →
      ∃ r, processChunk c i = Except.ok r)
    (hfail : processChunk failing before.length = Except.error e) :
    (analyzeData env comments).outcome
        = Except.error (JsError.error "Data analysis failed: analysis error")
      ∧ statusAfterAnalysis (analyzeData env comments).outcome
        = (AnalysisStatus.FAILED, some "Data analysis failed: analysis error") := by
  rw [analyzeData_chunk_failure env comments budget processChunk before after failing e
    hcfg hchunks hbefore hfail]
  exact ⟨rfl, rfl⟩

theorem chunk_failure_stops_run_witness :
    (∃ err, (analyzeData sampleEnv paddedComments).outcome = Except.error err)
      ∧ (analyzeData sampleEnv paddedComments).sent
        = [renderChunk [paddedInput "c1"]]
          ++ [renderChunk [paddedInput "c2", paddedInput "c3"]]
      ∧ (analyzeData sampleEnv paddedComments).batches = [] :=
  chunk_failure_stops_run sampleEnv paddedComments 1000 (ollamaChunk sampleEnv)
    [renderChunk [paddedInput "c1"]] [] (renderChunk [paddedInput "c2", paddedInput "c3"])
    (JsError.error "timeout") rfl paddedComments_chunks
    (by
      intro i c hi
      cases i with
      | zero => exact ⟨_, rfl⟩
      | succ n => simp at hi)
    rfl

theorem chunk_failure_fixed_message_witness :
    (analyzeData sampleEnv paddedComments).outcome
        = Except.error (JsError.error "Data analysis failed: analysis error")
      ∧ statusAfterAnalysis (analyzeData sampleEnv paddedComments).outcome
        = (AnalysisStatus.FAILED, some "Data analysis failed: analysis error") :=
  chunk_failure_fixed_message sampleEnv paddedComments 1000 (ollamaChunk sampleEnv)
    [renderChunk [paddedInput "c1"]] [] (renderChunk [paddedInput "c2", paddedInput "c3"])
    (JsError.error "timeout") rfl paddedComments_chunks
    (by
      intro i c hi
      cases i with
      | zero => exact ⟨_, rfl⟩
      | succ n => simp at hi)
    rfl

/-! ## Theorems: the JSON extractor -/

/-- C8 (failing input). On a text in which the scan finds no fragment,
`extractJsonFromText` does not return the empty list: `match` gives `null`
and the call of `map` on it throws a `TypeError`, whatever the parser. -/
theorem extract_no_fragment_throws (parse : String → Except JsError JsValue) (text : String)
    (hnone : jsMatch text = none) :
    extractJsonFromText parse text = Except.error (JsError.nullProperty "map") := by
  unfold extractJsonFromText
  rw [hnone]

theorem extract_no_fragment_throws_witness :
    jsMatch "no json here" = none
      ∧ extractJsonFromText twoIdsParse "no json here"
        = Except.error (JsError.mk "TypeError" "Cannot read properties of null (reading 'map')") :=
  ⟨by decide, extract_no_fragment_throws twoIdsParse "no json here" (by decide)⟩

/-- C9 (failing input). On the truncated text
`[{"id":"a","sentiment_score":0.5` no fragment ends with a closing bracket,
the scan finds nothing, and `extractJsonFromText` throws a `TypeError`,
whatever the parser. -/
theorem extract_truncated_throws (parse : String → Except JsError JsValue) :
    jsMatch "[\x7b\"id\":\"a\",\"sentiment_score\":0.5" = none
      ∧ extractJsonFromText parse "[\x7b\"id\":\"a\",\"sentiment_score\":0.5"
        = Except.error (JsError.mk "TypeError" "Cannot read properties of null (reading 'map')") := by
  have h : jsMatch "[\x7b\"id\":\"a\",\"sentiment_score\":0.5" = none := by decide
  refine ⟨h, ?_⟩
  unfold extractJsonFromText
  rw [h]
  rfl

theorem parseEach_error_first (parse : String → Except JsError JsValue) (m : String)
    (ms : List String) (e : JsError) (h : parse m = Except.error e) :
    parseEach parse (m :: ms) = Except.error e := by
  simp [parseEach, h]

theorem parseEach_error_of_mem (parse : String → Except JsError JsValue) (ms : List String) :
    ∀ (m : String) (e : JsError), m ∈ ms → parse m = Except.error e →
      ∃ e', parseEach parse ms = Except.error e' := by
  induction ms with
  | nil => intro m e hm _; simp at hm
  | cons x rest ih =>
    intro m e hm hfail
    cases hx : parse x with
    | error ex => exact ⟨ex, by simp [parseEach, hx]⟩
    | ok v =>
      have hm' : m ∈ rest := by
        rcases List.mem_cons.mp hm with h | h
        · rw [h, hx] at hfail; cases hfail
        · exact h
      obtain ⟨e', he'⟩ := ih m e hm' hfail
      exact ⟨e', by simp [parseEach, hx, he']⟩

theorem extract_rejected_fragment_throws (parse : String → Except JsError JsValue)
    (text : String) (ms : List String) (m : String) (e : JsError)
    (hms : jsMatch text = some ms) (hm : m ∈ ms) (hfail : parse m = Except.error e) :
    ∃ e', extractJsonFromText parse text = Except.error e' := by
  obtain ⟨e', he'⟩ := parseEach_error_of_mem parse ms m e hm hfail
  exact ⟨e', by simp [extractJsonFromText, hms, he']⟩

theorem jsFlat_cons (v : JsValue) (rest : List JsValue) :
    jsFlat (v :: rest) = jsFlat [v] ++ jsFlat rest := by
  cases v <;> simp [jsFlat]

/-- C10 (counterexample). No parser makes the claim true: on the text made
of the array, the letter `x` and the array again, which is the array after a
noise text and also the array before a noise text, the scan finds the array
twice, so the extractor cannot return exactly the two objects both there and
on the array alone. -/
theorem extract_two_ids_not_for_all_noise :
    jsMatch (twoIdsText ++ "x" ++ twoIdsText) = some [twoIdsText, twoIdsText]
      ∧ ¬ ∃ parse : String → Except JsError JsValue, ∀ pre suf : String,
          extractJsonFromText parse (pre ++ twoIdsText ++ suf) = Except.ok twoIdsValues := by
  have hm2 : jsMatch (twoIdsText ++ "x" ++ twoIdsText) = some [twoIdsText, twoIdsText] := by
    decide
  refine ⟨hm2, ?_⟩
  rintro ⟨parse, hall⟩
  have hm1 : jsMatch twoIdsText = some [twoIdsText] := by decide
  have h1 := hall "" ""
  have h2 := hall "" ("x" ++ twoIdsText)
  have e1 : "" ++ twoIdsText ++ "" = twoIdsText := by decide
  have e2 : "" ++ twoIdsText ++ ("x" ++ twoIdsText) = twoIdsText ++ "x" ++ twoIdsText := by
    decide
  rw [e1] at h1
  rw [e2] at h2
  unfold extractJsonFromText at h1 h2
  rw [hm1] at h1
  rw [hm2] at h2
  cases hp : parse twoIdsText with
  | error e => simp [parseEach, hp] at h1
  | ok v =>
    simp only [parseEach, hp, Except.ok.injEq] at h1 h2
    rw [jsFlat_cons, h1] at h2
    have hlen := congrArg List.length h2
    simp [twoIdsValues] at hlen

theorem scanRest_false_cons (c : Char) (t : List Char) :
    scanRest false (c :: t)
      = match (if inScanClass c then scanRest false t
           else if c == '"' then scanRest true t else none) with
        | some m => some (c :: m)
        | none => if isCloseBracket c then some [c] else none := rfl

theorem scanRest_true_cons (c : Char) (t : List Char) :
    scanRest true (c :: t)
      = if c == '"' then
          match scanRest false t with
          | some m => some (c :: m)
          | none => (scanRest true t).map (fun m => c :: m)
        else (scanRest true t).map (fun m => c :: m) := rfl

theorem scanRest_nil (inQuote : Bool) : scanRest inQuote [] = none := by
  cases inQuote <;> rfl

theorem scanAt_cons_cons (o c : Char) (t : List Char) :
    scanAt (o :: c :: t)
      = if isOpenBracket o then
          (if inScanClass c then scanRest false t
           else if c == '"' then scanRest true t else none).map (fun m => o :: c :: m)
        else none := rfl

theorem scanAll_zero_cons (c : Char) (t : List Char) :
    scanAll 0 (c :: t)
      = match scanAt (c :: t) with
        | some m => m :: scanAll (m.length - 1) t
        | none => scanAll 0 t := rfl

theorem scanAll_succ_cons (skip : Nat) (c : Char) (t : List Char) :
    scanAll (skip + 1) (c :: t) = scanAll skip t := rfl

theorem scanRest_none_of_no_close (s : List Char)
    (hs : ∀ c ∈ s, isCloseBracket c = false) : ∀ inQuote : Bool, scanRest inQuote s = none := by
  induction s with
  | nil => intro inQuote; exact scanRest_nil inQuote
  | cons c t ih =>
    have ht : ∀ b : Bool, scanRest b t = none :=
      ih (fun x hx => hs x (List.mem_cons_of_mem c hx))
    have hc : isCloseBracket c = false := hs c (List.mem_cons_self c t)
    intro inQuote
    cases inQuote with
    | false =>
      rw [scanRest_false_cons, ht false, ht true, hc]
      simp
    | true =>
      rw [scanRest_true_cons, ht false, ht true]
      simp

theorem scanAt_none_of_no_close (s : List Char)
    (hs : ∀ c ∈ s, isCloseBracket c = false) : scanAt s = none := by
  match s, hs with
  | [], _ => rfl
  | [_], _ => rfl
  | o :: c :: t, hs =>
    have ht : ∀ b : Bool, scanRest b t = none :=
      scanRest_none_of_no_close t
        (fun x hx => hs x (List.mem_cons_of_mem o (List.mem_cons_of_mem c hx)))
    rw [scanAt_cons_cons, ht false, ht true]
    simp

theorem scanAll_nil_of_no_close (s : List Char)
    (hs : ∀ c ∈ s, isCloseBracket c = false) : ∀ skip : Nat, scanAll skip s = [] := by
  induction s with
  | nil => intro skip; cases skip <;> rfl
  | cons c t ih =>
    have ht : ∀ k : Nat, scanAll k t = [] :=
      ih (fun x hx => hs x (List.mem_cons_of_mem c hx))
    intro skip
    cases skip with
    | zero => rw [scanAll_zero_cons, scanAt_none_of_no_close (c :: t) hs]; exact ht 0
    | succ k => rw [scanAll_succ_cons]; exact ht k

theorem scanAt_none_of_not_open (c : Char) (t : List Char) (hc : isOpenBracket c = false) :
    scanAt (c :: t) = none := by
  cases t with
  | nil => rfl
  | cons d t => rw [scanAt_cons_cons, hc]; rfl

theorem scanAll_skip_no_open (pre rest : List Char)
    (hpre : ∀ c ∈ pre, isOpenBracket c = false) :
    scanAll 0 (pre ++ rest) = scanAll 0 rest := by
  induction pre with
  | nil => rfl
  | cons c t ih =>
    have hc : isOpenBracket c = false := hpre c (List.mem_cons_self c t)
    have hstep : scanAll 0 (c :: (t ++ rest)) = scanAll 0 (t ++ rest) := by
      rw [scanAll_zero_cons, scanAt_none_of_not_open c (t ++ rest) hc]
    rw [List.cons_append, hstep]
    exact ih (fun x hx => hpre x (List.mem_cons_of_mem c hx))

theorem scanAll_skip_covered (covered rest : List Char) :
    scanAll covered.length (covered ++ rest) = scanAll 0 rest := by
  induction covered with
  | nil => rfl
  | cons c t ih =>
    have hstep : scanAll (t.length + 1) (c :: (t ++ rest)) = scanAll t.length (t ++ rest) :=
      scanAll_succ_cons t.length c (t ++ rest)
    rw [List.cons_append, List.length_cons, hstep]
    exact ih

theorem scanRest_class_step (c : Char) (t m : List Char) (hc : inScanClass c = true)
    (ht : scanRest false t = some m) : scanRest false (c :: t) = some (c :: m) := by
  rw [scanRest_false_cons, hc, if_pos rfl, ht]

theorem scanRest_open_quote (t m : List Char) (ht : scanRest true t = some m) :
    scanRest false ('"' :: t) = some ('"' :: m) := by
  have hq : inScanClass '"' = false := by decide
  rw [scanRest_false_cons, hq, ht]
  rfl

theorem scanRest_in_quote (c : Char) (t m : List Char) (hc : (c == '"') = false)
    (ht : scanRest true t = some m) : scanRest true (c :: t) = some (c :: m) := by
  rw [scanRest_true_cons, hc, ht]
  rfl

theorem scanRest_close_quote (t m : List Char) (ht : scanRest false t = some m) :
    scanRest true ('"' :: t) = some ('"' :: m) := by
  rw [scanRest_true_cons, ht]
  rfl

theorem scanRest_last (c : Char) (suf : List Char) (hc : isCloseBracket c = true)
    (hsuf : ∀ x ∈ suf, isCloseBracket x = false) : scanRest false (c :: suf) = some [c] := by
  have ht : ∀ b : Bool, scanRest b suf = none := scanRest_none_of_no_close suf hsuf
  rw [scanRest_false_cons, ht false, ht true, hc]
  simp

theorem scanAt_twoIds (suf : List Char) (hsuf : ∀ x ∈ suf, isCloseBracket x = false) :
    scanAt (twoIdsText.data ++ suf) = some twoIdsText.data := by
  have hobj : ∀ (id : Char) (t m : List Char), (id == '"') = false →
      scanRest false t = some m →
      scanRest false ('"' :: 'i' :: 'd' :: '"' :: ':' :: '"' :: id :: '"' :: '\x7d' :: t)
        = some ('"' :: 'i' :: 'd' :: '"' :: ':' :: '"' :: id :: '"' :: '\x7d' :: m) := by
    intro id t m hid ht
    apply scanRest_open_quote
    apply scanRest_in_quote _ _ _ (by decide)
    apply scanRest_in_quote _ _ _ (by decide)
    apply scanRest_close_quote
    apply scanRest_class_step _ _ _ (by decide)
    apply scanRest_open_quote
    apply scanRest_in_quote _ _ _ hid
    apply scanRest_close_quote
    apply scanRest_class_step _ _ _ (by decide)
    exact ht
  have hlast : scanRest false (']' :: suf) = some [']'] :=
    scanRest_last ']' suf (by decide) hsuf
  have hsecond := hobj 'b' (']' :: suf) [']'] (by decide) hlast
  have hcomma := scanRest_class_step ',' _ _ (by decide)
    (scanRest_class_step '\x7b' _ _ (by decide) hsecond)
  have hfirst := hobj 'a' _ _ (by decide) hcomma
  have hdata : twoIdsText.data
      = '[' :: '\x7b' :: '"' :: 'i' :: 'd' :: '"' :: ':' :: '"' :: 'a' :: '"' :: '\x7d'
        :: ',' :: '\x7b' :: '"' :: 'i' :: 'd' :: '"' :: ':' :: '"' :: 'b' :: '"' :: '\x7d'
        :: [']'] := by
    decide
  have hopen : isOpenBracket '[' = true := by decide
  have hbrace : inScanClass '\x7b' = true := by decide
  rw [hdata]
  simp only [List.cons_append, List.nil_append]
  rw [scanAt_cons_cons, hopen, hbrace, if_pos rfl, if_pos rfl, hfirst]
  rfl

theorem jsMatch_twoIds_in_noise (pre suf : String)
    (hpre : ∀ c ∈ pre.data, isOpenBracket c = false)
    (hsuf : ∀ c ∈ suf.data, isCloseBracket c = false) :
    jsMatch (pre ++ twoIdsText ++ suf) = some [twoIdsText] := by
  have hdata : (pre ++ twoIdsText ++ suf).data
      = pre.data ++ (twoIdsText.data ++ suf.data) := by
    simp [String.data_append]
  have hcons : twoIdsText.data ++ suf.data
      = '[' :: (twoIdsText.data.tail ++ suf.data) := by
    have hsplit : ∀ (l m : List Char), l = '[' :: m → l ++ suf.data = '[' :: (m ++ suf.data) := by
      intro l m hl
      subst hl
      rfl
    exact hsplit twoIdsText.data twoIdsText.data.tail (by decide)
  have hat : scanAt ('[' :: (twoIdsText.data.tail ++ suf.data)) = some twoIdsText.data := by
    rw [← hcons]
    exact scanAt_twoIds suf.data hsuf
  have hlen : twoIdsText.data.length - 1 = twoIdsText.data.tail.length := by decide
  have hscan : scanAll 0 (pre.data ++ (twoIdsText.data ++ suf.data)) = [twoIdsText.data] := by
    rw [scanAll_skip_no_open pre.data _ hpre, hcons]
    have hstep : scanAll 0 ('[' :: (twoIdsText.data.tail ++ suf.data))
        = twoIdsText.data :: scanAll (twoIdsText.data.length - 1)
            (twoIdsText.data.tail ++ suf.data) := by
      rw [scanAll_zero_cons, hat]
    rw [hstep, hlen, scanAll_skip_covered, scanAll_nil_of_no_close suf.data hsuf 0]
  unfold jsMatch
  rw [hdata, hscan]
  rfl

/-- C10 (amended). For every text before the array that holds no opening
brace or bracket and every text after it that holds no closing brace or
bracket, the scan finds the array `[{"id":"a"},{"id":"b"}]` alone, and, the
parser reading that array as its two objects, `extractJsonFromText` returns
exactly the two objects, with ids `a` and `b` in that order. -/
theorem extract_two_ids_in_plain_noise (parse : String → Except JsError JsValue)
    (pre suf : String)
    (hparse : parse twoIdsText = Except.ok (JsValue.arr twoIdsValues))
    (hpre : ∀ c ∈ pre.data, isOpenBracket c = false)
    (hsuf : ∀ c ∈ suf.data, isCloseBracket c = false) :
    extractJsonFromText parse (pre ++ twoIdsText ++ suf) = Except.ok twoIdsValues := by
  unfold extractJsonFromText
  rw [jsMatch_twoIds_in_noise pre suf hpre hsuf]
  simp [parseEach, hparse, jsFlat]

theorem extract_two_ids_in_plain_noise_witness :
    extractJsonFromText twoIdsParse ("Here is the result: " ++ twoIdsText ++ " (2 items)")
      = Except.ok
          [JsValue.obj [("id", JsValue.str "a")], JsValue.obj [("id", JsValue.str "b")]] :=
  extract_two_ids_in_plain_noise twoIdsParse "Here is the result: " " (2 items)" rfl
    (by decide) (by decide)

/-! ## Theorems: provider selection and the staged update -/

/-- C13 (counterexample). With `ANALYZE_AI_PROVIDER` unset and no unprocessed
comment, `analyzeData` does not succeed: it throws
`Data analysis failed: Unsupported AI provider: undefined`. -/
theorem analyzeData_empty_unset_provider_fails :
    analyzeData unsetEnv []
      = RunResult.mk
          (Except.error
            (JsError.error "Data analysis failed: Unsupported AI provider: undefined")) [] [] :=
  rfl

/-- C13 (amended). For a post with no unprocessed comments, when the provider
setting is one of `OLLAMA`, `GEMINI` and `DUCKAI`, `analyzeData` succeeds
without handing any chunk to a provider and without awaiting any update. -/
theorem analyzeData_empty_supported_provider (env : AnalysisEnv)
    (hprovider : env.aiProvider = some "OLLAMA" ∨ env.aiProvider = some "GEMINI"
      ∨ env.aiProvider = some "DUCKAI") :
    analyzeData env [] = RunResult.mk (Except.ok ()) [] [] := by
  have hne1 : ¬ (some "GEMINI" = some "OLLAMA") := by decide
  have hne2 : ¬ (some "DUCKAI" = some "OLLAMA") := by decide
  have hne3 : ¬ (some "DUCKAI" = some "GEMINI") := by decide
  unfold analyzeData
  rcases hprovider with h | h | h
  · rw [if_pos h]; rfl
  · rw [h, if_neg hne1, if_pos rfl]; rfl
  · rw [h, if_neg hne2, if_neg hne3, if_pos rfl]; rfl

theorem analyzeData_empty_supported_provider_witness :
    analyzeData sampleEnv [] = RunResult.mk (Except.ok ()) [] [] :=
  analyzeData_empty_supported_provider sampleEnv (Or.inl rfl)

/-- C14. When the provider setting is none of `OLLAMA`, `GEMINI` and
`DUCKAI`, `analyzeData` fails with the message
`Data analysis failed: Unsupported AI provider: v`, where `v` is the setting
(`undefined` when it is unset), without handing any chunk to a provider and
without awaiting any update, whatever the comments. -/
theorem analyzeData_unsupported_provider (env : AnalysisEnv) (comments : List Comment)
    (h1 : env.aiProvider ≠ some "OLLAMA") (h2 : env.aiProvider ≠ some "GEMINI")
    (h3 : env.aiProvider ≠ some "DUCKAI") :
    analyzeData env comments
      = RunResult.mk
          (Except.error (JsError.error
            ("Data analysis failed: Unsupported AI provider: "
              ++ env.aiProvider.getD "undefined"))) [] [] := by
  have hlit : "Data analysis failed: " ++ "Unsupported AI provider: "
      = "Data analysis failed: Unsupported AI provider: " := by decide
  unfold analyzeData
  rw [if_neg h1, if_neg h2, if_neg h3]
  simp only [analysisFailed, JsError.error]
  rw [← String.append_assoc, hlit]

theorem analyzeData_unsupported_provider_witness :
    analyzeData chatgptEnv paddedComments
      = RunResult.mk
          (Except.error (JsError.error
            ("Data analysis failed: Unsupported AI provider: " ++ "CHATGPT"))) [] [] :=
  analyzeData_unsupported_provider chatgptEnv paddedComments (by decide) (by decide)
    (by decide)

theorem mem_stagedFrom (coerce : String → JsValue → Bool) (clock : Nat → Nat)
    (comments : List Comment) (results : List JsValue) :
    ∀ (index i : Nat) (r : JsValue) (u : CommentUpdate), results[i]? = some r →
      stagedUpdate coerce clock comments (index + i) r = some u →
      u ∈ stagedFrom coerce clock comments index results := by
  induction results with
  | nil => intro index i r u hi _; simp at hi
  | cons x rest ih =>
    intro index i r u hi hu
    cases i with
    | zero =>
      simp only [List.getElem?_cons_zero, Option.some.injEq] at hi
      subst hi
      simp only [Nat.add_zero] at hu
      simp only [stagedFrom, hu, List.mem_cons, true_or]
    | succ j =>
      simp only [List.getElem?_cons_succ] at hi
      have harith : index + (j + 1) = index + 1 + j := by omega
      rw [harith] at hu
      have hmem := ih (index + 1) j r u hi hu
      simp only [stagedFrom]
      cases stagedUpdate coerce clock comments index x with
      | none => exact hmem
      | some v => exact List.mem_cons_of_mem v hmem

theorem analysisData_field (r : JsValue) (now : Nat) :
    ∀ f ∈ annotationFields,
      f.1 (analysisData r now) = (r.get f.2.1).orElse f.2.2 := by
  intro f hf
  simp only [annotationFields, List.mem_cons, List.mem_singleton, List.not_mem_nil,
    or_false] at hf
  rcases hf with h | h | h | h | h | h | h | h | h | h | h | h | h | h | h <;>
    (subst h; rfl)

theorem orElse_of_nullish (v d : JsValue) (h : v.nullish = true) : v.orElse d = d := by
  cases v <;> simp_all [JsValue.nullish, JsValue.orElse]

theorem orElse_of_not_nullish (v d : JsValue) (h : v.nullish = false) : v.orElse d = v := by
  cases v <;> simp_all [JsValue.nullish, JsValue.orElse]

/-- C15. For the extracted result at position `i` that selects a comment,
`updateCommentsAnalysis` issues an update of that comment in which every
annotation field is the value the result gives for its key, or, when the
result gives none (the key is missing or its value is null), null, for
`topics` and `keywords` the empty list; the same update sets `processedAt`
to the time read while that result is handled. -/
theorem staged_update_fields (coerce : String → JsValue → Bool) (clock : Nat → Nat)
    (comments : List Comment) (results : List JsValue) (i : Nat) (r : JsValue) (c : Comment)
    (hi : results[i]? = some r) (hmatch : matchedComment coerce comments r = some c) :
    ∃ u ∈ issuedUpdates coerce clock comments results,
      u.whereId = c.id ∧ u.data.processedAt = clock i
        ∧ ∀ f ∈ annotationFields,
            ((r.get f.2.1).nullish = false → f.1 u.data = r.get f.2.1)
              ∧ ((r.get f.2.1).nullish = true → f.1 u.data = f.2.2) := by
  have hu : stagedUpdate coerce clock comments (0 + i) r
      = some (CommentUpdate.mk c.id (analysisData r (clock i))) := by
    simp [stagedUpdate, hmatch]
  refine ⟨CommentUpdate.mk c.id (analysisData r (clock i)), ?_, rfl, rfl, ?_⟩
  · rw [issuedUpdates_eq_stagedFrom]
    exact mem_stagedFrom coerce clock comments results 0 i r _ hi hu
  · intro f hf
    have hfield := analysisData_field r (clock i) f hf
    constructor
    · intro hgiven
      show f.1 (analysisData r (clock i)) = r.get f.2.1
      rw [hfield, orElse_of_not_nullish _ _ hgiven]
    · intro hmissing
      show f.1 (analysisData r (clock i)) = f.2.2
      rw [hfield, orElse_of_nullish _ _ hmissing]

theorem staged_update_fields_witness :
    ∃ u ∈ issuedUpdates noCoercion (fun n => 1000 + n) [Comment.ofId "c0", Comment.ofId "c1"]
        [JsValue.obj [("id", JsValue.str "zz")],
          JsValue.obj [("id", JsValue.str "c1"), ("tone", JsValue.str "warm"),
            ("rating", JsValue.null)]],
      u.whereId = (Comment.ofId "c1").id ∧ u.data.processedAt = 1000 + 1
        ∧ ∀ f ∈ annotationFields,
            (((JsValue.obj [("id", JsValue.str "c1"), ("tone", JsValue.str "warm"),
                  ("rating", JsValue.null)]).get f.2.1).nullish = false →
                f.1 u.data
                  = (JsValue.obj [("id", JsValue.str "c1"), ("tone", JsValue.str "warm"),
                      ("rating", JsValue.null)]).get f.2.1)
              ∧ (((JsValue.obj [("id", JsValue.str "c1"), ("tone", JsValue.str "warm"),
                  ("rating", JsValue.null)]).get f.2.1).nullish = true →
                f.1 u.data = f.2.2) :=
  staged_update_fields noCoercion (fun n => 1000 + n)
    [Comment.ofId "c0", Comment.ofId "c1"] _ 1 _ (Comment.ofId "c1") rfl rfl

/-! ## Theorems: the DuckAI adapter -/

theorem updateVQD_always_ok (st : DuckState) :
    updateVQD alwaysUnauthorizedEnv st
      = (Except.ok (),
          DuckState.mk (Vqd.mk (some "signals") (some generateFEVersion) (some "hash"))
            (st.statusRequests + 1) st.chatRequests (st.generations + 1) st.authRefreshes) :=
  rfl

theorem chat_always_unauthorized (n : Nat) :
    ∀ st : DuckState,
      (chat alwaysUnauthorizedEnv n st).1 = none
        ∧ (chat alwaysUnauthorizedEnv n st).2.chatRequests = st.chatRequests + n
        ∧ (chat alwaysUnauthorizedEnv n st).2.authRefreshes = st.authRefreshes + n := by
  induction n with
  | zero => intro st; exact ⟨rfl, rfl, rfl⟩
  | succ k ih =>
    intro st
    by_cases hmissing : (tokenMissing st.vqd.vqdHash || tokenMissing st.vqd.feSignals
        || tokenMissing st.vqd.feVersion) = true
    · have hstep : chat alwaysUnauthorizedEnv (k + 1) st
          = chat alwaysUnauthorizedEnv k
              (DuckState.mk (Vqd.mk (some "signals") (some generateFEVersion) (some "hash"))
                (st.statusRequests + 1 + 1) (st.chatRequests + 1) (st.generations + 1 + 1)
                (st.authRefreshes + 1)) := by
        simp only [chat, hmissing, if_true, updateVQD_always_ok, chatAttempt]
        rfl
      rw [hstep]
      obtain ⟨h1, h2, h3⟩ := ih (DuckState.mk
        (Vqd.mk (some "signals") (some generateFEVersion) (some "hash"))
        (st.statusRequests + 1 + 1) (st.chatRequests + 1) (st.generations + 1 + 1)
        (st.authRefreshes + 1))
      exact ⟨h1, by rw [h2]; simp only []; omega, by rw [h3]; simp only []; omega⟩
    · have hstep : chat alwaysUnauthorizedEnv (k + 1) st
          = chat alwaysUnauthorizedEnv k
              (DuckState.mk (Vqd.mk (some "signals") (some generateFEVersion) (some "hash"))
                (st.statusRequests + 1) (st.chatRequests + 1) (st.generations + 1)
                (st.authRefreshes + 1)) := by
        simp only [chat, hmissing, chatAttempt]
        rfl
      rw [hstep]
      obtain ⟨h1, h2, h3⟩ := ih (DuckState.mk
        (Vqd.mk (some "signals") (some generateFEVersion) (some "hash"))
        (st.statusRequests + 1) (st.chatRequests + 1) (st.generations + 1)
        (st.authRefreshes + 1))
      exact ⟨h1, by rw [h2]; simp only []; omega, by rw [h3]; simp only []; omega⟩

/-- C12 (failing input). A provider that answers the first two completion
requests with 401 and accepts the third: one call of `chat` sends three
completion requests and refreshes the session twice after an authorization
failure, then returns a result instead of failing. And against a provider
that answers every completion request with 401, `chat` has sent `n` requests
and made `n` such refreshes after `n` rounds without having returned. -/
theorem chat_retries_without_bound :
    ((chat (unauthorizedEnv 2) 3 readyDuckState).2.chatRequests = 3
        ∧ (chat (unauthorizedEnv 2) 3 readyDuckState).2.authRefreshes = 2
        ∧ ∃ result, (chat (unauthorizedEnv 2) 3 readyDuckState).1 = some (Except.ok result))
      ∧ ∀ n : Nat, (chat alwaysUnauthorizedEnv n readyDuckState).1 = none
          ∧ (chat alwaysUnauthorizedEnv n readyDuckState).2.chatRequests = n
          ∧ (chat alwaysUnauthorizedEnv n readyDuckState).2.authRefreshes = n := by
  refine ⟨⟨by decide, by decide, ⟨_, rfl⟩⟩, ?_⟩
  intro n
  obtain ⟨h1, h2, h3⟩ := chat_always_unauthorized n readyDuckState
  refine ⟨h1, ?_, ?_⟩
  · rw [h2]; show 0 + n = n; omega
  · rw [h3]; show 0 + n = n; omega

/-- C16 (counterexample). The status request is answered with 200 and the
hash generation throws: `updateVQD` fails, and afterwards `x-fe-signals` and
`x-fe-version` hold new values while `x-vqd-hash-1` is still unset. -/
theorem updateVQD_partial_on_hash_failure :
    updateVQD hashFailureEnv initialDuckState
      = (Except.error (JsError.error "Failed to update VQD"),
          DuckState.mk (Vqd.mk (some "signals") (some generateFEVersion) none) 1 0 1 0) :=
  rfl

/-- C16 (amended). The outcome of `updateVQD` and the session tokens after
it, cause by cause. When the status request fails, or is answered with a
status other than 200, `updateVQD` fails and the three tokens are left as
they were. When the status request is answered with 200 and the hash
generation fails, `updateVQD` fails, `x-fe-signals` and `x-fe-version` have
been regenerated and `x-vqd-hash-1` is left as it was. When the status
request is answered with 200 and the hash generation succeeds, `updateVQD`
returns and the three tokens have been regenerated. -/
theorem updateVQD_tokens (env : DuckEnv) (st : DuckState) :
    (∀ err, env.getStatus st.statusRequests = Except.error err →
        (updateVQD env st).1 = Except.error (JsError.error "Failed to update VQD")
          ∧ (updateVQD env st).2.vqd = st.vqd)
      ∧ (∀ response, env.getStatus st.statusRequests = Except.ok response →
          response.status ≠ 200 →
          (updateVQD env st).1 = Except.error (JsError.error "Failed to update VQD")
            ∧ (updateVQD env st).2.vqd = st.vqd)
      ∧ (∀ response err, env.getStatus st.statusRequests = Except.ok response →
          response.status = 200 →
          env.generateVQDHash response.vqdHashHeader = Except.error err →
          (updateVQD env st).1 = Except.error (JsError.error "Failed to update VQD")
            ∧ (updateVQD env st).2.vqd
              = Vqd.mk (some (env.generateFESignals st.generations)) (some generateFEVersion)
                  st.vqd.vqdHash)
      ∧ (∀ response hash, env.getStatus st.statusRequests = Except.ok response →
          response.status = 200 →
          env.generateVQDHash response.vqdHashHeader = Except.ok hash →
          (updateVQD env st).1 = Except.ok ()
            ∧ (updateVQD env st).2.vqd
              = Vqd.mk (some (env.generateFESignals st.generations)) (some generateFEVersion)
                  (some hash)) := by
  refine ⟨?_, ?_, ?_, ?_⟩
  · intro err hs
    unfold updateVQD
    rw [hs]
    exact ⟨rfl, rfl⟩
  · intro response hs h200
    unfold updateVQD
    rw [hs]
    simp [h200]
  · intro response err hs h200 hh
    unfold updateVQD
    rw [hs]
    simp [h200, regenerateTokens, hh]
  · intro response hash hs h200 hh
    unfold updateVQD
    rw [hs]
    simp [h200, regenerateTokens, hh]

theorem updateVQD_tokens_witness :
    ((updateVQD statusFailureEnv readyDuckState).1
          = Except.error (JsError.error "Failed to update VQD")
        ∧ (updateVQD statusFailureEnv readyDuckState).2.vqd = readyDuckState.vqd)
      ∧ ((updateVQD statusNotOkEnv readyDuckState).1
          = Except.error (JsError.error "Failed to update VQD")
        ∧ (updateVQD statusNotOkEnv readyDuckState).2.vqd = readyDuckState.vqd)
      ∧ ((updateVQD hashFailureEnv initialDuckState).1
          = Except.error (JsError.error "Failed to update VQD")
        ∧ (updateVQD hashFailureEnv initialDuckState).2.vqd
          = Vqd.mk (some (hashFailureEnv.generateFESignals initialDuckState.generations))
              (some generateFEVersion) initialDuckState.vqd.vqdHash)
      ∧ ((updateVQD (streamingEnv []) initialDuckState).1 = Except.ok ()
        ∧ (updateVQD (streamingEnv []) initialDuckState).2.vqd
          = Vqd.mk (some ((streamingEnv []).generateFESignals initialDuckState.generations))
              (some generateFEVersion) (some "hash")) :=
  ⟨(updateVQD_tokens statusFailureEnv readyDuckState).1
      (HttpError.mk "connect ECONNREFUSED" none) rfl,
    (updateVQD_tokens statusNotOkEnv readyDuckState).2.1
      (HttpResponse.mk 204 (some "challenge") []) rfl (by decide),
    (updateVQD_tokens hashFailureEnv initialDuckState).2.2.1
      (HttpResponse.mk 200 (some "challenge") []) (JsError.error "Evaluation failed") rfl rfl rfl,
    (updateVQD_tokens (streamingEnv []) initialDuckState).2.2.2
      (HttpResponse.mk 200 (some "challenge") []) "hash" rfl rfl rfl⟩

/-- C17 (failing input). The terminator `data: [DONE]` ends the first chunk
and one more event arrives in a second chunk: the `break` leaves only the
loop over the lines of the first chunk, the second chunk is still read, and
`chat` returns the message `Hello again` although the only event before the
terminator carries `Hello`. -/
theorem chat_reads_events_after_terminator :
    (readStream (streamingEnv streamAfterDone)
        ["data: \x7b\"action\":\"success\",\"message\":\"Hello\"\x7d\n\ndata: [DONE]\n"]).responseMessage
        = "Hello"
      ∧ (readStream (streamingEnv streamAfterDone) streamAfterDone).responseMessage
        = "Hello again"
      ∧ ∃ result, (chat (streamingEnv streamAfterDone) 1 readyDuckState).1
            = some (Except.ok result)
          ∧ result.message = "Hello again" :=
  ⟨by decide, by decide, ⟨_, rfl, by decide⟩⟩

/-- C18 (counterexample). A stream that closes without terminator and holds
an event whose JSON parses, whose `action` is `error` and whose `message` is
`busy`, then an event of action `success` and message `Hello`: `chat`
returns `Hello`, not `busyHello`. -/
theorem chat_skips_events_without_success :
    (streamLines streamWithErrorEvent).all (fun line => !isTerminatorLine line) = true
      ∧ sampleJsonParse "\x7b\"action\":\"error\",\"message\":\"busy\"\x7d"
        = Except.ok
            (JsValue.obj [("action", JsValue.str "error"), ("message", JsValue.str "busy")])
      ∧ ∃ result, (chat (streamingEnv streamWithErrorEvent) 1 readyDuckState).1
            = some (Except.ok result)
          ∧ result.message = "Hello" :=
  ⟨by decide, rfl, ⟨_, rfl, by decide⟩⟩

theorem processLine_message (env : DuckEnv) (st : StreamState) (line : List Char)
    (hline : isTerminatorLine line = false) :
    ∃ st', processLine env st line = some st'
      ∧ st'.responseMessage = st.responseMessage ++ eventContribution env line := by
  unfold isTerminatorLine at hline
  unfold processLine eventContribution
  cases hstrip : stripLiteral "data: ".data line with
  | none => exact ⟨st, rfl, by simp⟩
  | some rest =>
    rw [hstrip] at hline
    simp only [decide_eq_false_iff_not] at hline
    simp only [hline, if_false]
    cases hparse : env.jsonParse (String.mk (jsTrim rest)) with
    | error e => exact ⟨st, rfl, by simp⟩
    | ok dataJson =>
      refine ⟨applyEvent env st dataJson, rfl, ?_⟩
      cases dataJson with
      | null => simp [applyEvent]
      | undefined =>
        simp [applyEvent, JsValue.get, JsValue.isString]
      | bool b => simp [applyEvent, JsValue.get, JsValue.isString]
      | num n => simp [applyEvent, JsValue.get, JsValue.isString]
      | str s => simp [applyEvent, JsValue.get, JsValue.isString]
      | arr items => simp [applyEvent, JsValue.get, JsValue.isString]
      | obj fields =>
        by_cases hsuccess : ((JsValue.obj fields).get "action").isString "success" = true
        · by_cases hmsg : ((JsValue.obj fields).get "message").truthy = true
          · simp [applyEvent, hsuccess, hmsg]
          · simp [applyEvent, hsuccess, hmsg]
        · simp [applyEvent, hsuccess]

theorem processLines_message (env : DuckEnv) (lines : List (List Char)) :
    ∀ st : StreamState, (∀ line ∈ lines, isTerminatorLine line = false) →
      (processLines env st lines).responseMessage
        = st.responseMessage ++ concatTexts (lines.map (eventContribution env)) := by
  induction lines with
  | nil => intro st _; simp [processLines, concatTexts]
  | cons line rest ih =>
    intro st hno
    obtain ⟨st', hst', hmsg⟩ := processLine_message env st line
      (hno line (List.mem_cons_self line rest))
    simp only [processLines, hst', List.map_cons, concatTexts]
    rw [ih st' (fun l hl => hno l (List.mem_cons_of_mem line hl)), hmsg, String.append_assoc]

theorem concatTexts_append (xs ys : List String) :
    concatTexts (xs ++ ys) = concatTexts xs ++ concatTexts ys := by
  induction xs with
  | nil => simp [concatTexts]
  | cons x rest ih => simp [concatTexts, ih, String.append_assoc]

theorem readStreamFrom_message (env : DuckEnv) (stream : List String) :
    ∀ st : StreamState, (∀ line ∈ streamLines stream, isTerminatorLine line = false) →
      (readStreamFrom env st stream).responseMessage
        = st.responseMessage
          ++ concatTexts ((streamLines stream).map (eventContribution env)) := by
  induction stream with
  | nil => intro st _; simp [readStreamFrom, streamLines, concatTexts]
  | cons chunk rest ih =>
    intro st hno
    have hsplit : streamLines (chunk :: rest) = chunkLines chunk ++ streamLines rest := by
      simp [streamLines]
    rw [hsplit] at hno
    have hfirst : ∀ line ∈ chunkLines chunk, isTerminatorLine line = false :=
      fun l hl => hno l (List.mem_append_left _ hl)
    have hrest : ∀ line ∈ streamLines rest, isTerminatorLine line = false :=
      fun l hl => hno l (List.mem_append_right _ hl)
    simp only [readStreamFrom]
    rw [ih _ hrest, processLines_message env _ st hfirst, hsplit, List.map_append,
      concatTexts_append, String.append_assoc]

/-- C18 (amended). The tokens being set, when the completion request is
answered with a stream that closes without terminator (and the rotation of
the tokens after a status 200 succeeds), `chat` returns normally, and its
message is the concatenation, in order, of the `message` fields of the
`data: ` events whose JSON parses and whose `action` is `success`; every
other line, in particular an event whose JSON fails to parse, adds nothing. -/
theorem chat_without_terminator (env : DuckEnv) (st : DuckState) (fuel : Nat)
    (response : HttpResponse)
    (htokens : (tokenMissing st.vqd.vqdHash || tokenMissing st.vqd.feSignals
      || tokenMissing st.vqd.feVersion) = false)
    (hpost : env.postChat st.chatRequests st.vqd = Except.ok response)
    (hrotate : response.status = 200 →
      ∃ hash, env.generateVQDHash response.vqdHashHeader = Except.ok hash)
    (hopen : ∀ line ∈ streamLines response.stream, isTerminatorLine line = false) :
    ∃ result, (chat env (fuel + 1) st).1 = some (Except.ok result)
      ∧ result.message
        = concatTexts ((streamLines response.stream).map (eventContribution env)) := by
  have hmsg := readStreamFrom_message env response.stream
    (StreamState.mk JsValue.null "" JsValue.null) hopen
  simp only [String.empty_append] at hmsg
  by_cases h200 : response.status = 200
  · obtain ⟨hash, hhash⟩ := hrotate h200
    refine ⟨ChatResult.mk (readStream env response.stream).responseId "gpt-4o-mini"
      "assistant" (readStream env response.stream).responseMessage "success"
      (readStream env response.stream).responseCreated, ?_, hmsg⟩
    simp [chat, htokens, chatAttempt, hpost, h200, regenerateTokens, hhash]
  · refine ⟨ChatResult.mk (readStream env response.stream).responseId "gpt-4o-mini"
      "assistant" (readStream env response.stream).responseMessage "success"
      (readStream env response.stream).responseCreated, ?_, hmsg⟩
    simp [chat, htokens, chatAttempt, hpost, h200]

theorem chat_without_terminator_witness :
    ∃ result, (chat (streamingEnv streamWithErrorEvent) (0 + 1) readyDuckState).1
          = some (Except.ok result)
      ∧ result.message
        = concatTexts ((streamLines streamWithErrorEvent).map
            (eventContribution (streamingEnv streamWithErrorEvent))) :=
  chat_without_terminator (streamingEnv streamWithErrorEvent) readyDuckState 0
    (HttpResponse.mk 200 (some "challenge") streamWithErrorEvent) (by decide) rfl
    (fun _ => ⟨"hash", rfl⟩) (by decide)

/-! ## Theorems: platform URL parsing -/

theorem stripLiteral_append (lit s : List Char) : stripLiteral lit (lit ++ s) = some s := by
  induction lit with
  | nil => cases s <;> rfl
  | cons a rest ih => simp [stripLiteral, ih]

theorem matchNameRest_cons (c : Char) (t : List Char) :
    matchNameRest (c :: t)
      = match (if isNameChar c then matchNameRest t else none) with
        | some r => some (c :: r.1, r.2)
        | none =>
          if c == '/' then
            (if t.takeWhile isDigitChar = [] then none else some ([], t.takeWhile isDigitChar))
          else none := rfl

theorem takeWhile_digits (digits rest : List Char)
    (hdigits : ∀ x ∈ digits, isDigitChar x = true)
    (hrest : ∀ x ∈ rest.head?, isDigitChar x = false) :
    (digits ++ rest).takeWhile isDigitChar = digits := by
  induction digits with
  | nil =>
    cases rest with
    | nil => rfl
    | cons x t =>
      have hx : isDigitChar x = false := hrest x (by simp)
      simp [List.takeWhile, hx]
  | cons d ds ih =>
    have hd : isDigitChar d = true := hdigits d (List.mem_cons_self d ds)
    rw [List.cons_append, List.takeWhile_cons, hd, if_pos rfl,
      ih (fun x hx => hdigits x (List.mem_cons_of_mem d hx))]

theorem matchNameRest_name (name digits rest : List Char)
    (hname : ∀ x ∈ name, isNameChar x = true) (hne : digits ≠ [])
    (hdigits : ∀ x ∈ digits, isDigitChar x = true)
    (hrest : ∀ x ∈ rest.head?, isDigitChar x = false) :
    matchNameRest (name ++ '/' :: (digits ++ rest)) = some (name, digits) := by
  induction name with
  | nil =>
    have hslash : isNameChar '/' = false := by decide
    rw [List.nil_append, matchNameRest_cons, hslash, takeWhile_digits digits rest hdigits hrest]
    simp [hne]
  | cons c t ih =>
    have hc : isNameChar c = true := hname c (List.mem_cons_self c t)
    rw [List.cons_append, matchNameRest_cons, hc, if_pos rfl,
      ih (fun x hx => hname x (List.mem_cons_of_mem c hx))]

theorem matchName_name (name digits rest : List Char) (hnonempty : name ≠ [])
    (hname : ∀ x ∈ name, isNameChar x = true) (hne : digits ≠ [])
    (hdigits : ∀ x ∈ digits, isDigitChar x = true)
    (hrest : ∀ x ∈ rest.head?, isDigitChar x = false) :
    matchName (name ++ '/' :: (digits ++ rest)) = some (name, digits) := by
  cases name with
  | nil => exact absurd rfl hnonempty
  | cons c t =>
    have hc : isNameChar c = true := hname c (List.mem_cons_self c t)
    have hrec := matchNameRest_name t digits rest
      (fun x hx => hname x (List.mem_cons_of_mem c hx)) hne hdigits hrest
    simp only [List.cons_append, matchName, hc, if_true, hrec, Option.map_some']

theorem telegramSearch_cons (c : Char) (t : List Char) :
    telegramSearch (c :: t)
      = match telegramAt (c :: t) with
        | some r => some r
        | none => telegramSearch t := rfl

theorem telegramSearch_of_at (s : List Char) (r : List Char × List Char)
    (h : telegramAt s = some r) : telegramSearch s = some r := by
  cases s with
  | nil =>
    have hnil : telegramAt ([] : List Char) = none := rfl
    rw [hnil] at h
    cases h
  | cons c t => rw [telegramSearch_cons, h]

theorem telegramAt_https (s : List Char) (r : List Char × List Char)
    (h : matchHost s = some r) : telegramAt ("https://".data ++ s) = some r := by
  unfold telegramAt
  simp only [stripLiteral_append, Option.some_bind, h]

theorem matchHost_tme (tail : List Char) (r : List Char × List Char)
    (h : matchName tail = some r) : matchHost ("t.me/".data ++ tail) = some r := by
  unfold matchHost
  simp only [stripLiteral_append, Option.some_bind, h]

theorem matchHost_telegram_me (tail : List Char) (r : List Char × List Char)
    (h : matchName tail = some r) : matchHost ("telegram.me/".data ++ tail) = some r := by
  have hfirst : stripLiteral "t.me/".data ("telegram.me/".data ++ tail) = none := rfl
  unfold matchHost
  simp only [hfirst, Option.none_bind, stripLiteral_append, Option.some_bind, h]

theorem matchHost_telegram_dog (tail : List Char) (r : List Char × List Char)
    (h : matchName tail = some r) : matchHost ("telegram.dog/".data ++ tail) = some r := by
  have hfirst : stripLiteral "t.me/".data ("telegram.dog/".data ++ tail) = none := rfl
  have hsecond : stripLiteral "telegram.me/".data ("telegram.dog/".data ++ tail) = none := rfl
  unfold matchHost
  simp only [hfirst, hsecond, Option.none_bind, stripLiteral_append, Option.some_bind, h]

theorem foldl_toDigitsCore (fuel : Nat) :
    ∀ (n : Nat) (ds : List Char), n < fuel →
      (Nat.toDigitsCore 10 fuel n ds).foldl (fun acc c => acc * 10 + (c.toNat - 48)) 0
        = ds.foldl (fun acc c => acc * 10 + (c.toNat - 48)) n := by
  induction fuel with
  | zero => intro n ds h; omega
  | succ f ih =>
    intro n ds h
    have hdigit : ((Nat.digitChar (n % 10)).toNat - 48) = n % 10 := by
      have hlt : n % 10 < 10 := Nat.mod_lt n (by omega)
      generalize n % 10 = d at hlt
      interval_cases d <;> rfl
    unfold Nat.toDigitsCore
    by_cases h0 : n / 10 = 0
    · simp only [h0, if_true, List.foldl_cons, hdigit]
      have hn : n % 10 = n := by omega
      rw [hn]
      simp
    · simp only [h0, if_false]
      rw [ih (n / 10) _ (by omega)]
      simp only [List.foldl_cons, hdigit]
      have hn : n / 10 * 10 + n % 10 = n := by omega
      rw [hn]

theorem decimalValue_repr (n : Nat) : decimalValue (toString n).data = n := by
  show (Nat.toDigitsCore 10 (n + 1) n []).foldl (fun acc c => acc * 10 + (c.toNat - 48)) 0 = n
  rw [foldl_toDigitsCore (n + 1) n [] (by omega)]
  rfl

theorem toDigitsCore_digits (fuel : Nat) :
    ∀ (n : Nat) (ds : List Char), (∀ x ∈ ds, isDigitChar x = true) →
      ∀ x ∈ Nat.toDigitsCore 10 fuel n ds, isDigitChar x = true := by
  induction fuel with
  | zero => intro n ds h; simpa [Nat.toDigitsCore] using h
  | succ f ih =>
    intro n ds h
    have hdigit : isDigitChar (Nat.digitChar (n % 10)) = true := by
      have hlt : n % 10 < 10 := Nat.mod_lt n (by omega)
      generalize n % 10 = d at hlt
      interval_cases d <;> rfl
    have hcons : ∀ x ∈ Nat.digitChar (n % 10) :: ds, isDigitChar x = true := by
      intro x hx
      rcases List.mem_cons.mp hx with hx | hx
      · rw [hx]; exact hdigit
      · exact h x hx
    unfold Nat.toDigitsCore
    by_cases h0 : n / 10 = 0
    · simp only [h0, if_true]; exact hcons
    · simp only [h0, if_false]; exact ih (n / 10) _ hcons

theorem repr_digits (n : Nat) : ∀ x ∈ (toString n).data, isDigitChar x = true :=
  toDigitsCore_digits (n + 1) n [] (by simp)

theorem repr_nonempty (n : Nat) : (toString n).data ≠ [] := by
  show Nat.toDigitsCore 10 (n + 1) n [] ≠ []
  unfold Nat.toDigitsCore
  by_cases h0 : n / 10 = 0
  · simp [h0]
  · simp only [h0, if_false]
    intro hnil
    have hlen := congrArg List.length hnil
    rw [Nat.toDigitsCore_lens_eq] at hlen
    simp at hlen

theorem parseTelegramUrl_of_search (round : Nat → Nat) (url : String) (name : String)
    (n : Nat) (hn : n < 2 ^ 53)
    (h : telegramSearch url.data = some (name.data, (toString n).data)) :
    parseTelegramUrl round url = some (TelegramUrl.mk name n) := by
  unfold parseTelegramUrl jsParseInt
  rw [h]
  simp only [decimalValue_repr, hn, if_true]

/-- C19. For every channel name (non-empty, without `/` and `?`) and every
message number below `2 ^ 53`, written in decimal, `parseTelegramUrl` returns
that name and that number for each of the four documented forms of URL. -/
theorem parseTelegramUrl_documented_forms (round : Nat → Nat) (channel comment : String)
    (n : Nat) (hnonempty : channel.data ≠ [])
    (hname : ∀ x ∈ channel.data, x ≠ '/' ∧ x ≠ '?') (hn : n < 2 ^ 53) :
    parseTelegramUrl round ("https://t.me/" ++ channel ++ "/" ++ toString n)
        = some (TelegramUrl.mk channel n)
      ∧ parseTelegramUrl round
          ("https://t.me/" ++ channel ++ "/" ++ toString n ++ "?comment=" ++ comment)
        = some (TelegramUrl.mk channel n)
      ∧ parseTelegramUrl round ("https://telegram.me/" ++ channel ++ "/" ++ toString n)
        = some (TelegramUrl.mk channel n)
      ∧ parseTelegramUrl round ("https://telegram.dog/" ++ channel ++ "/" ++ toString n)
        = some (TelegramUrl.mk channel n) := by
  have hchars : ∀ x ∈ channel.data, isNameChar x = true := by
    intro x hx
    obtain ⟨h1, h2⟩ := hname x hx
    simp [isNameChar, h1, h2]
  have hmatch : ∀ rest : List Char, (∀ x ∈ rest.head?, isDigitChar x = false) →
      matchName (channel.data ++ '/' :: ((toString n).data ++ rest))
        = some (channel.data, (toString n).data) :=
    fun rest hrest => matchName_name channel.data (toString n).data rest hnonempty hchars
      (repr_nonempty n) (repr_digits n) hrest
  have hplain := hmatch [] (by simp)
  have hquery := hmatch ("?comment=".data ++ comment.data) (by
    intro x hx
    have hx' : x = '?' := by
      have h0 : ("?comment=".data ++ comment.data).head? = some '?' := rfl
      rw [h0] at hx
      exact (Option.mem_some_iff.mp hx).symm
    rw [hx']
    decide)
  rw [List.append_nil] at hplain
  refine ⟨?_, ?_, ?_, ?_⟩
  · apply parseTelegramUrl_of_search round _ channel n hn
    have hdata : ("https://t.me/" ++ channel ++ "/" ++ toString n).data
        = "https://".data ++ ("t.me/".data ++ (channel.data ++ '/' :: (toString n).data)) := by
      simp only [String.data_append, List.append_assoc]
      rfl
    rw [hdata]
    exact telegramSearch_of_at _ _ (telegramAt_https _ _ (matchHost_tme _ _ hplain))
  · apply parseTelegramUrl_of_search round _ channel n hn
    have hdata : ("https://t.me/" ++ channel ++ "/" ++ toString n ++ "?comment=" ++ comment).data
        = "https://".data ++ ("t.me/".data
            ++ (channel.data ++ '/' :: ((toString n).data
              ++ ("?comment=".data ++ comment.data)))) := by
      simp only [String.data_append, List.append_assoc]
      rfl
    rw [hdata]
    exact telegramSearch_of_at _ _ (telegramAt_https _ _ (matchHost_tme _ _ hquery))
  · apply parseTelegramUrl_of_search round _ channel n hn
    have hdata : ("https://telegram.me/" ++ channel ++ "/" ++ toString n).data
        = "https://".data
          ++ ("telegram.me/".data ++ (channel.data ++ '/' :: (toString n).data)) := by
      simp only [String.data_append, List.append_assoc]
      rfl
    rw [hdata]
    exact telegramSearch_of_at _ _ (telegramAt_https _ _ (matchHost_telegram_me _ _ hplain))
  · apply parseTelegramUrl_of_search round _ channel n hn
    have hdata : ("https://telegram.dog/" ++ channel ++ "/" ++ toString n).data
        = "https://".data
          ++ ("telegram.dog/".data ++ (channel.data ++ '/' :: (toString n).data)) := by
      simp only [String.data_append, List.append_assoc]
      rfl
    rw [hdata]
    exact telegramSearch_of_at _ _ (telegramAt_https _ _ (matchHost_telegram_dog _ _ hplain))

theorem parseTelegramUrl_documented_forms_witness :
    parseTelegramUrl (fun v => v) ("https://t.me/" ++ "durov" ++ "/" ++ toString 142)
        = some (TelegramUrl.mk "durov" 142)
      ∧ parseTelegramUrl (fun v => v)
          ("https://t.me/" ++ "durov" ++ "/" ++ toString 142 ++ "?comment=" ++ "7")
        = some (TelegramUrl.mk "durov" 142)
      ∧ parseTelegramUrl (fun v => v) ("https://telegram.me/" ++ "durov" ++ "/" ++ toString 142)
        = some (TelegramUrl.mk "durov" 142)
      ∧ parseTelegramUrl (fun v => v) ("https://telegram.dog/" ++ "durov" ++ "/" ++ toString 142)
        = some (TelegramUrl.mk "durov" 142) :=
  parseTelegramUrl_documented_forms (fun v => v) "durov" "7" 142 (by decide) (by decide)
    (by norm_num)

/-! ## Theorems: the text normalizer -/

theorem jsReplaceAll_zero_cons (matchAt : List Char → Option (List Char)) (r : List Char)
    (c : Char) (t : List Char) :
    jsReplaceAll matchAt r 0 (c :: t)
      = match matchAt (c :: t) with
        | some m => r ++ jsReplaceAll matchAt r (m.length - 1) t
        | none => c :: jsReplaceAll matchAt r 0 t := rfl

theorem jsReplaceAll_succ_cons (matchAt : List Char → Option (List Char)) (r : List Char)
    (skip : Nat) (c : Char) (t : List Char) :
    jsReplaceAll matchAt r (skip + 1) (c :: t) = jsReplaceAll matchAt r skip t := rfl

theorem jsReplaceAll_nil (matchAt : List Char → Option (List Char)) (r : List Char)
    (skip : Nat) : jsReplaceAll matchAt r skip [] = [] := by
  cases skip <;> rfl

theorem jsReplaceAll_skip (matchAt : List Char → Option (List Char)) (r : List Char)
    (covered rest : List Char) :
    jsReplaceAll matchAt r covered.length (covered ++ rest) = jsReplaceAll matchAt r 0 rest := by
  induction covered with
  | nil => rfl
  | cons c t ih => rw [List.cons_append, List.length_cons, jsReplaceAll_succ_cons, ih]

theorem jsReplaceAll_none (matchAt : List Char → Option (List Char)) (r : List Char)
    (c : Char) (t : List Char) (h : matchAt (c :: t) = none) :
    jsReplaceAll matchAt r 0 (c :: t) = c :: jsReplaceAll matchAt r 0 t := by
  rw [jsReplaceAll_zero_cons, h]

theorem jsReplaceAll_some (matchAt : List Char → Option (List Char)) (r : List Char)
    (m rest : List Char) (hm : m ≠ []) (h : matchAt (m ++ rest) = some m) :
    jsReplaceAll matchAt r 0 (m ++ rest) = r ++ jsReplaceAll matchAt r 0 rest := by
  cases m with
  | nil => exact absurd rfl hm
  | cons c t =>
    have h' : matchAt (c :: (t ++ rest)) = some (c :: t) := h
    rw [List.cons_append, jsReplaceAll_zero_cons, h']
    simp only [List.length_cons, Nat.add_sub_cancel]
    rw [jsReplaceAll_skip]

/-- Induction along the run of a global replacement: at every position the
expression either fails, and the character is kept, or matches a non-empty
text, which is replaced. -/
theorem jsReplaceAll_induction (matchAt : List Char → Option (List Char))
    (hstarts : PrefixMatcher matchAt) (P : List Char → Prop) (hnil : P [])
    (hnone : ∀ c t, matchAt (c :: t) = none → P t → P (c :: t))
    (hsome : ∀ m rest, m ≠ [] → matchAt (m ++ rest) = some m → P rest → P (m ++ rest)) :
    ∀ s, P s := by
  suffices hall : ∀ n s, s.length = n → P s from fun s => hall s.length s rfl
  intro n
  induction n using Nat.strong_induction_on with
  | _ n ih =>
    intro s hlen
    cases s with
    | nil => exact hnil
    | cons c t =>
      cases hmatch : matchAt (c :: t) with
      | none =>
        exact hnone c t hmatch (ih t.length (by rw [← hlen]; simp) t rfl)
      | some m =>
        obtain ⟨hne, rest, hrest⟩ := hstarts (c :: t) m hmatch
        rw [hrest]
        rw [hrest] at hmatch
        refine hsome m rest hne hmatch (ih rest.length ?_ rest rfl)
        rw [← hlen, hrest, List.length_append]
        have : 0 < m.length := List.length_pos.mpr hne
        omega

theorem prefixMatcher_nil (matchAt : List Char → Option (List Char))
    (hstarts : PrefixMatcher matchAt) : matchAt [] = none := by
  cases h : matchAt [] with
  | none => rfl
  | some m =>
    obtain ⟨hne, rest, hrest⟩ := hstarts [] m h
    have : m = [] := by
      cases m with
      | nil => rfl
      | cons c t => simp at hrest
    exact absurd this hne

theorem jsReplaceAll_head (matchAt : List Char → Option (List Char)) (r : List Char)
    (hstarts : PrefixMatcher matchAt) (hr : r ≠ []) (s : List Char) :
    (jsReplaceAll matchAt r 0 s).head?
      = match matchAt s with
        | some _ => r.head?
        | none => s.head? := by
  cases s with
  | nil => rw [prefixMatcher_nil matchAt hstarts]; rfl
  | cons c t =>
    cases hmatch : matchAt (c :: t) with
    | none => rw [jsReplaceAll_none matchAt r c t hmatch]; rfl
    | some m =>
      obtain ⟨hne, rest, hrest⟩ := hstarts (c :: t) m hmatch
      rw [hrest] at hmatch ⊢
      rw [jsReplaceAll_some matchAt r m rest hne hmatch]
      cases r with
      | nil => exact absurd rfl hr
      | cons x xs => simp [hmatch]

theorem jsReplaceAll_eq_nil (matchAt : List Char → Option (List Char)) (r : List Char)
    (hstarts : PrefixMatcher matchAt) (hr : r ≠ []) (s : List Char)
    (h : jsReplaceAll matchAt r 0 s = []) : s = [] := by
  cases s with
  | nil => rfl
  | cons c t =>
    cases hmatch : matchAt (c :: t) with
    | none => rw [jsReplaceAll_none matchAt r c t hmatch] at h; cases h
    | some m =>
      obtain ⟨hne, rest, hrest⟩ := hstarts (c :: t) m hmatch
      rw [hrest] at hmatch h
      rw [jsReplaceAll_some matchAt r m rest hne hmatch] at h
      cases r with
      | nil => exact absurd rfl hr
      | cons x xs => simp at h

theorem jsReplaceAll_mem (matchAt : List Char → Option (List Char)) (r : List Char)
    (hstarts : PrefixMatcher matchAt) :
    ∀ s, ∀ c ∈ jsReplaceAll matchAt r 0 s, c ∈ s ∨ c ∈ r := by
  apply jsReplaceAll_induction matchAt hstarts
  · intro c hc; simp [jsReplaceAll_nil] at hc
  · intro x t hnone ih c hc
    rw [jsReplaceAll_none matchAt r x t hnone] at hc
    rcases List.mem_cons.mp hc with h | h
    · exact Or.inl (by rw [h]; exact List.mem_cons_self x t)
    · rcases ih c h with h' | h'
      · exact Or.inl (List.mem_cons_of_mem x h')
      · exact Or.inr h'
  · intro m rest hne hsome ih c hc
    rw [jsReplaceAll_some matchAt r m rest hne hsome] at hc
    rcases List.mem_append.mp hc with h | h
    · exact Or.inr h
    · rcases ih c h with h' | h'
      · exact Or.inl (List.mem_append_right m h')
      · exact Or.inr h'

/-- A text in which the expression matches nowhere is left as it is. -/
theorem jsReplaceAll_id (matchAt : List Char → Option (List Char)) (r : List Char)
    (s : List Char) (h : ∀ t, t <:+ s → matchAt t = none) :
    jsReplaceAll matchAt r 0 s = s := by
  induction s with
  | nil => rfl
  | cons c t ih =>
    rw [jsReplaceAll_none matchAt r c t (h (c :: t) (List.suffix_refl _)),
      ih (fun u hu => h u (hu.trans (List.suffix_cons c t)))]

/-- A replacement of every match by itself changes nothing. -/
theorem jsReplaceAll_same (matchAt : List Char → Option (List Char)) (r : List Char)
    (hstarts : PrefixMatcher matchAt) (hsame : ∀ s m, matchAt s = some m → m = r) :
    ∀ s, jsReplaceAll matchAt r 0 s = s := by
  apply jsReplaceAll_induction matchAt hstarts
  · rfl
  · intro c t hnone ih
    rw [jsReplaceAll_none matchAt r c t hnone, ih]
  · intro m rest hne hsome ih
    rw [jsReplaceAll_some matchAt r m rest hne hsome, ih, hsame _ _ hsome]

theorem takeWhile_eq_self_append (p : Char → Bool) (m rest : List Char)
    (h : (m ++ rest).takeWhile p = m) :
    (∀ c ∈ m, p c = true) ∧ ∀ b ∈ rest.head?, p b = false := by
  induction m with
  | nil =>
    refine ⟨by simp, ?_⟩
    intro b hb
    cases rest with
    | nil => simp at hb
    | cons x t =>
      simp only [List.head?_cons, Option.mem_def, Option.some.injEq] at hb
      subst hb
      by_cases hx : p x = true
      · simp [List.takeWhile_cons, hx] at h
      · simpa using hx
  | cons c t ih =>
    by_cases hc : p c = true
    · rw [List.cons_append, List.takeWhile_cons, hc, if_pos rfl] at h
      have ht : (t ++ rest).takeWhile p = t := List.tail_eq_of_cons_eq h
      obtain ⟨h1, h2⟩ := ih ht
      refine ⟨?_, h2⟩
      intro x hx
      rcases List.mem_cons.mp hx with hx | hx
      · rw [hx]; exact hc
      · exact h1 x hx
    · rw [List.cons_append, List.takeWhile_cons] at h
      simp [hc] at h

theorem takeWhile_append_of_head (p : Char → Bool) (m rest : List Char)
    (hm : ∀ c ∈ m, p c = true) (hrest : ∀ b ∈ rest.head?, p b = false) :
    (m ++ rest).takeWhile p = m := by
  induction m with
  | nil =>
    cases rest with
    | nil => rfl
    | cons x t =>
      have hx : p x = false := hrest x (by simp)
      simp [List.takeWhile_cons, hx]
  | cons c t ih =>
    have hc : p c = true := hm c (List.mem_cons_self c t)
    rw [List.cons_append, List.takeWhile_cons, hc, if_pos rfl,
      ih (fun x hx => hm x (List.mem_cons_of_mem c hx))]

theorem matchRun_some (p : Char → Bool) (n : Nat) (s m : List Char)
    (h : matchRun p n s = some m) : m = s.takeWhile p ∧ n ≤ m.length := by
  unfold matchRun at h
  by_cases hn : n ≤ (s.takeWhile p).length
  · rw [if_pos hn] at h
    have hm : s.takeWhile p = m := Option.some.inj h
    rw [← hm]
    exact ⟨rfl, hn⟩
  · rw [if_neg hn] at h
    cases h

theorem matchRun_none_iff (p : Char → Bool) (n : Nat) (s : List Char) :
    matchRun p n s = none ↔ (s.takeWhile p).length < n := by
  unfold matchRun
  by_cases hn : n ≤ (s.takeWhile p).length
  · rw [if_pos hn]; constructor
    · intro h; cases h
    · intro h; omega
  · rw [if_neg hn]; constructor
    · intro _; omega
    · intro _; rfl

theorem matchRun_starts (p : Char → Bool) (n : Nat) (hn : 1 ≤ n) :
    PrefixMatcher (matchRun p n) := by
  intro s m h
  obtain ⟨hm, hlen⟩ := matchRun_some p n s m h
  refine ⟨?_, s.dropWhile p, ?_⟩
  · intro hnil
    rw [hnil] at hlen
    simp at hlen
    omega
  · rw [hm, List.takeWhile_append_dropWhile]

theorem matchRun_all (p : Char → Bool) (n : Nat) (s m : List Char)
    (h : matchRun p n s = some m) : ∀ c ∈ m, p c = true := by
  obtain ⟨hm, _⟩ := matchRun_some p n s m h
  intro c hc
  rw [hm] at hc
  exact List.mem_takeWhile_imp hc

theorem matchRun_space (p : Char → Bool) (n : Nat)
    (hp : ∀ c, p c = true → isWhiteSpace c = true) : SpaceMatcher (matchRun p n) :=
  fun s m h c hc => hp c (matchRun_all p n s m h c hc)

theorem matchRun_rest (p : Char → Bool) (n : Nat) (m rest : List Char)
    (h : matchRun p n (m ++ rest) = some m) : ∀ b ∈ rest.head?, p b = false := by
  obtain ⟨hm, _⟩ := matchRun_some p n (m ++ rest) m h
  exact (takeWhile_eq_self_append p m rest hm.symm).2

theorem matchRun_none_of_head (p : Char → Bool) (n : Nat) (hn : 1 ≤ n) (s : List Char)
    (h : ∀ b ∈ s.head?, p b = false) : matchRun p n s = none := by
  rw [matchRun_none_iff]
  have : s.takeWhile p = [] := by
    have := takeWhile_append_of_head p [] s (by simp) h
    simpa using this
  rw [this]
  simpa using hn

theorem matchQuote_cons (c : Char) (t : List Char) :
    matchQuote (c :: t) = if c == '"' then some [c] else none := rfl

theorem matchQuote_starts : PrefixMatcher matchQuote := by
  intro s m h
  cases s with
  | nil => cases h
  | cons c t =>
    rw [matchQuote_cons] at h
    by_cases hc : (c == '"') = true
    · rw [if_pos hc] at h
      have hm : [c] = m := Option.some.inj h
      rw [← hm]
      exact ⟨by simp, t, rfl⟩
    · rw [if_neg hc] at h
      cases h

theorem matchQuote_same (s m : List Char) (h : matchQuote s = some m) : m = ['"'] := by
  cases s with
  | nil => cases h
  | cons c t =>
    rw [matchQuote_cons] at h
    by_cases hc : (c == '"') = true
    · rw [if_pos hc] at h
      have hm : [c] = m := Option.some.inj h
      have hceq : c = '"' := by simpa using hc
      rw [← hm, hceq]
    · rw [if_neg hc] at h
      cases h

theorem upToLastNewline_cons (c : Char) (t : List Char) :
    upToLastNewline (c :: t)
      = match upToLastNewline t with
        | some m => some (c :: m)
        | none => if c == '\n' then some [c] else none := rfl

theorem upToLastNewline_some (u : List Char) :
    ∀ m, upToLastNewline u = some m →
      m ≠ [] ∧ m.getLast? = some '\n' ∧ ∃ v, u = m ++ v ∧ ∀ x ∈ v, x ≠ '\n' := by
  induction u with
  | nil => intro m h; cases h
  | cons c t ih =>
    intro m h
    rw [upToLastNewline_cons] at h
    cases ht : upToLastNewline t with
    | some m' =>
      rw [ht] at h
      have hm : c :: m' = m := Option.some.inj h
      obtain ⟨hne, hlast, v, hv, hno⟩ := ih m' ht
      rw [← hm]
      refine ⟨by simp, ?_, v, by rw [hv]; rfl, hno⟩
      cases m' with
      | nil => exact absurd rfl hne
      | cons a w => rw [List.getLast?_cons_cons]; exact hlast
    | none =>
      rw [ht] at h
      by_cases hc : (c == '\n') = true
      · rw [if_pos hc] at h
        have hm : [c] = m := Option.some.inj h
        have hceq : c = '\n' := by simpa using hc
        rw [← hm, hceq]
        refine ⟨by simp, rfl, t, rfl, ?_⟩
        intro x hx hxn
        have : ∀ (w : List Char), upToLastNewline w = none → ∀ y ∈ w, y ≠ '\n' := by
          intro w
          induction w with
          | nil => intro _ y hy; simp at hy
          | cons a w' ihw =>
            intro hw y hy
            rw [upToLastNewline_cons] at hw
            cases hw' : upToLastNewline w' with
            | some m2 => rw [hw'] at hw; cases hw
            | none =>
              rw [hw'] at hw
              rcases List.mem_cons.mp hy with hy | hy
              · intro hyn
                rw [hy] at hyn
                rw [hyn] at hw
                simp at hw
              · exact ihw hw' y hy
        exact this t ht x hx hxn
      · rw [if_neg hc] at h
        cases h

theorem upToLastNewline_none_of (u : List Char) (h : ∀ y ∈ u, y ≠ '\n') :
    upToLastNewline u = none := by
  induction u with
  | nil => rfl
  | cons c t ih =>
    have hc : (c == '\n') = false := by
      have := h c (List.mem_cons_self c t)
      simpa using this
    rw [upToLastNewline_cons, ih (fun y hy => h y (List.mem_cons_of_mem c hy)), hc]
    rfl

theorem head_dropWhile_not (p : Char → Bool) (s : List Char) :
    ∀ b ∈ (s.dropWhile p).head?, p b = false := by
  induction s with
  | nil => intro b hb; simp at hb
  | cons c t ih =>
    intro b hb
    by_cases hc : p c = true
    · rw [List.dropWhile_cons, if_pos hc] at hb
      exact ih b hb
    · rw [List.dropWhile_cons, if_neg hc] at hb
      simp only [List.head?_cons, Option.mem_def, Option.some.injEq] at hb
      subst hb
      simpa using hc

theorem matchSpaceNewline_cons (c : Char) (t : List Char) :
    matchSpaceNewline (c :: t)
      = if isWhiteSpace c then
          (upToLastNewline (t.takeWhile isWhiteSpace)).map (fun m => c :: m)
        else none := rfl

theorem matchSpaceNewline_some (s m : List Char) (h : matchSpaceNewline s = some m) :
    ∃ c m' rest, m = c :: m' ∧ isWhiteSpace c = true ∧ m' ≠ [] ∧ m'.getLast? = some '\n'
      ∧ s = m ++ rest ∧ (∀ x ∈ m, isWhiteSpace x = true)
      ∧ ∀ x ∈ rest.takeWhile isWhiteSpace, x ≠ '\n' := by
  cases s with
  | nil => cases h
  | cons c t =>
    rw [matchSpaceNewline_cons] at h
    by_cases hc : isWhiteSpace c = true
    · rw [if_pos hc] at h
      cases hu : upToLastNewline (t.takeWhile isWhiteSpace) with
      | none => rw [hu] at h; cases h
      | some m' =>
        rw [hu] at h
        have hm : c :: m' = m := Option.some.inj h
        obtain ⟨hne, hlast, v, hv, hno⟩ := upToLastNewline_some _ m' hu
        have hall : ∀ x ∈ m' ++ v, isWhiteSpace x = true := by
          intro x hx
          rw [← hv] at hx
          exact List.mem_takeWhile_imp hx
        have ht : t = m' ++ (v ++ t.dropWhile isWhiteSpace) := by
          rw [← List.append_assoc, ← hv, List.takeWhile_append_dropWhile]
        have hrun : (v ++ t.dropWhile isWhiteSpace).takeWhile isWhiteSpace = v :=
          takeWhile_append_of_head isWhiteSpace v _
            (fun x hx => hall x (List.mem_append_right m' hx))
            (head_dropWhile_not isWhiteSpace t)
        refine ⟨c, m', v ++ t.dropWhile isWhiteSpace, hm.symm, hc, hne, hlast, ?_, ?_, ?_⟩
        · rw [← hm, List.cons_append, ← ht]
        · intro x hx
          rw [← hm] at hx
          rcases List.mem_cons.mp hx with hx | hx
          · rw [hx]; exact hc
          · exact hall x (List.mem_append_left v hx)
        · rw [hrun]; exact hno
    · rw [if_neg hc] at h
      cases h

theorem matchSpaceNewline_starts : PrefixMatcher matchSpaceNewline := by
  intro s m h
  obtain ⟨c, m', rest, hm, _, _, _, hs, _, _⟩ := matchSpaceNewline_some s m h
  exact ⟨by rw [hm]; simp, rest, hs⟩

theorem matchSpaceNewline_space : SpaceMatcher matchSpaceNewline := by
  intro s m h
  obtain ⟨c, m', rest, _, _, _, _, _, hall, _⟩ := matchSpaceNewline_some s m h
  exact hall

theorem matchSpaceNewline_none_of_run (s : List Char)
    (h : ∀ x ∈ s.takeWhile isWhiteSpace, x ≠ '\n') : matchSpaceNewline s = none := by
  cases s with
  | nil => rfl
  | cons c t =>
    rw [matchSpaceNewline_cons]
    by_cases hc : isWhiteSpace c = true
    · rw [if_pos hc]
      rw [List.takeWhile_cons, if_pos hc] at h
      rw [upToLastNewline_none_of _ (fun y hy => h y (List.mem_cons_of_mem c hy))]
      rfl
    · rw [if_neg hc]

theorem matchNewlineSpace_cons (c : Char) (t : List Char) :
    matchNewlineSpace (c :: t)
      = if c == '\n' && !(t.takeWhile isWhiteSpace).isEmpty then
          some (c :: t.takeWhile isWhiteSpace)
        else none := rfl

theorem matchNewlineSpace_some (s m : List Char) (h : matchNewlineSpace s = some m) :
    ∃ t, s = '\n' :: t ∧ m = '\n' :: t.takeWhile isWhiteSpace
      ∧ t.takeWhile isWhiteSpace ≠ [] := by
  cases s with
  | nil => cases h
  | cons c t =>
    rw [matchNewlineSpace_cons] at h
    by_cases hc : (c == '\n' && !(t.takeWhile isWhiteSpace).isEmpty) = true
    · rw [if_pos hc] at h
      have hm : c :: t.takeWhile isWhiteSpace = m := Option.some.inj h
      simp only [Bool.and_eq_true, beq_iff_eq, Bool.not_eq_true', List.isEmpty_eq_false] at hc
      refine ⟨t, by rw [hc.1], by rw [← hm, hc.1], hc.2⟩
    · rw [if_neg hc] at h
      cases h

theorem matchNewlineSpace_starts : PrefixMatcher matchNewlineSpace := by
  intro s m h
  obtain ⟨t, hs, hm, _⟩ := matchNewlineSpace_some s m h
  refine ⟨by rw [hm]; simp, t.dropWhile isWhiteSpace, ?_⟩
  rw [hs, hm, List.cons_append, List.takeWhile_append_dropWhile]

theorem isWhiteSpace_newline : isWhiteSpace '\n' = true := by decide

theorem matchNewlineSpace_space : SpaceMatcher matchNewlineSpace := by
  intro s m h
  obtain ⟨t, _, hm, _⟩ := matchNewlineSpace_some s m h
  intro c hc
  rw [hm] at hc
  rcases List.mem_cons.mp hc with hc | hc
  · rw [hc]; exact isWhiteSpace_newline
  · exact List.mem_takeWhile_imp hc

theorem matchNewlineSpace_rest (m rest : List Char)
    (h : matchNewlineSpace (m ++ rest) = some m) :
    ∀ b ∈ rest.head?, isWhiteSpace b = false := by
  obtain ⟨t, hs, hm, _⟩ := matchNewlineSpace_some (m ++ rest) m h
  have ht : t = t.takeWhile isWhiteSpace ++ rest := by
    rw [hm, List.cons_append] at hs
    exact (List.tail_eq_of_cons_eq hs).symm
  have hrun : (t.takeWhile isWhiteSpace ++ rest).takeWhile isWhiteSpace
      = t.takeWhile isWhiteSpace := by
    rw [← ht]
  exact (takeWhile_eq_self_append isWhiteSpace _ rest hrun).2

theorem matchNewlineSpace_none_of_head (s : List Char) (h : ∀ b ∈ s.head?, b ≠ '\n') :
    matchNewlineSpace s = none := by
  cases s with
  | nil => rfl
  | cons c t =>
    have hc : (c == '\n') = false := by
      have := h c (by simp)
      simpa using this
    rw [matchNewlineSpace_cons, hc]
    rfl

theorem matchNewlineSpace_head (s m : List Char) (h : matchNewlineSpace s = some m) :
    s.head? = some '\n' := by
  obtain ⟨t, hs, _, _⟩ := matchNewlineSpace_some s m h
  rw [hs]
  rfl

theorem head_of_starts (v u : List Char) (h : v <+: u) :
    ∀ c ∈ v.head?, c ∈ u.head? := by
  obtain ⟨w, hw⟩ := h
  intro c hc
  cases v with
  | nil => simp at hc
  | cons a t =>
    rw [← hw]
    simpa using hc

theorem trimEnd_starts (u : List Char) : trimEnd u <+: u := by
  unfold trimEnd
  have h : u.reverse.dropWhile isWhiteSpace <:+ u.reverse := List.dropWhile_suffix _
  have h2 := List.reverse_prefix.mpr h
  rwa [List.reverse_reverse] at h2

theorem trimEnd_last (u : List Char) : ∀ c ∈ (trimEnd u).getLast?, isWhiteSpace c = false := by
  unfold trimEnd
  rw [List.getLast?_reverse]
  exact head_dropWhile_not isWhiteSpace u.reverse

theorem jsTrim_trimmed (s : List Char) : Trimmed (jsTrim s) := by
  constructor
  · intro c hc
    have hc' := head_of_starts _ _ (trimEnd_starts (trimStart s)) c hc
    exact head_dropWhile_not isWhiteSpace s c hc'
  · exact trimEnd_last (trimStart s)

theorem dropWhile_of_head (p : Char → Bool) (s : List Char)
    (h : ∀ c ∈ s.head?, p c = false) : s.dropWhile p = s := by
  cases s with
  | nil => rfl
  | cons c t =>
    have hc : p c = false := h c (by simp)
    rw [List.dropWhile_cons, hc]
    rfl

theorem jsTrim_of_trimmed (s : List Char) (h : Trimmed s) : jsTrim s = s := by
  unfold jsTrim trimStart trimEnd
  rw [dropWhile_of_head isWhiteSpace s h.1,
    dropWhile_of_head isWhiteSpace s.reverse (by rw [List.head?_reverse]; exact h.2),
    List.reverse_reverse]

theorem spaceMatcher_none (matchAt : List Char → Option (List Char))
    (hstarts : PrefixMatcher matchAt) (hspace : SpaceMatcher matchAt) (c : Char)
    (t : List Char) (hc : isWhiteSpace c = false) : matchAt (c :: t) = none := by
  cases h : matchAt (c :: t) with
  | none => rfl
  | some m =>
    obtain ⟨hne, rest, hrest⟩ := hstarts (c :: t) m h
    cases m with
    | nil => exact absurd rfl hne
    | cons a w =>
      have ha : a = c := by
        rw [List.cons_append] at hrest
        exact (List.head_eq_of_cons_eq hrest).symm
      have hws := hspace (c :: t) (a :: w) h a (List.mem_cons_self a w)
      rw [ha, hc] at hws
      cases hws

theorem getLast?_append_of_ne_nil (a b : List Char) (hb : b ≠ []) :
    (a ++ b).getLast? = b.getLast? := by
  cases b with
  | nil => exact absurd rfl hb
  | cons x t => exact List.getLast?_append_cons a x t

theorem trimmed_replaceAll (matchAt : List Char → Option (List Char)) (r : List Char)
    (hstarts : PrefixMatcher matchAt) (hspace : SpaceMatcher matchAt) (hr : r ≠ [])
    (s : List Char) (h : Trimmed s) : Trimmed (jsReplaceAll matchAt r 0 s) := by
  constructor
  · cases s with
    | nil => intro c hc; simp [jsReplaceAll_nil] at hc
    | cons c t =>
      have hc : isWhiteSpace c = false := h.1 c (by simp)
      rw [jsReplaceAll_none matchAt r c t (spaceMatcher_none matchAt hstarts hspace c t hc)]
      intro x hx
      simp only [List.head?_cons, Option.mem_def, Option.some.injEq] at hx
      rw [← hx]
      exact hc
  · have hlast : ∀ s, (∀ c ∈ s.getLast?, isWhiteSpace c = false) →
        ∀ c ∈ (jsReplaceAll matchAt r 0 s).getLast?, isWhiteSpace c = false := by
      apply jsReplaceAll_induction matchAt hstarts
      · intro _ c hc; simp [jsReplaceAll_nil] at hc
      · intro x t hnone ih hx
        rw [jsReplaceAll_none matchAt r x t hnone]
        cases t with
        | nil =>
          rw [jsReplaceAll_nil]
          exact hx
        | cons y u =>
          have hne : jsReplaceAll matchAt r 0 (y :: u) ≠ [] :=
            fun hnil => by
              have := jsReplaceAll_eq_nil matchAt r hstarts hr _ hnil
              cases this
          rw [List.getLast?_cons_cons] at hx
          have := ih hx
          rw [show x :: jsReplaceAll matchAt r 0 (y :: u)
            = [x] ++ jsReplaceAll matchAt r 0 (y :: u) from rfl,
            getLast?_append_of_ne_nil _ _ hne]
          exact this
      · intro m rest hne hsome ih hx
        rw [jsReplaceAll_some matchAt r m rest hne hsome]
        have hrest : rest ≠ [] := by
          intro hnil
          rw [hnil, List.append_nil] at hx hsome
          obtain ⟨a, ha⟩ : ∃ a, m.getLast? = some a := by
            cases hl : m.getLast? with
            | none => exact absurd (List.getLast?_eq_none_iff.mp hl) hne
            | some a => exact ⟨a, rfl⟩
          have hmem : a ∈ m := List.mem_of_getLast?_eq_some ha
          have hws := hspace m m hsome a hmem
          have hnot := hx a (by rw [ha]; rfl)
          rw [hnot] at hws
          cases hws
        rw [getLast?_append_of_ne_nil m rest hrest] at hx
        have hne' : jsReplaceAll matchAt r 0 rest ≠ [] :=
          fun hnil => hrest (jsReplaceAll_eq_nil matchAt r hstarts hr _ hnil)
        rw [getLast?_append_of_ne_nil _ _ hne']
        exact ih hx
    exact hlast s h.2

theorem isHorizontalSpace_space (c : Char) (h : isHorizontalSpace c = true) :
    isWhiteSpace c = true := by
  unfold isHorizontalSpace at h
  simp only [Bool.and_eq_true] at h
  exact h.1.1

theorem isHorizontalSpace_not_newline (c : Char) (h : isHorizontalSpace c = true) :
    c ≠ '\n' := by
  unfold isHorizontalSpace at h
  simp only [Bool.and_eq_true, bne_iff_ne, ne_eq] at h
  exact h.2

theorem isHorizontalSpace_blank : isHorizontalSpace ' ' = true := by decide

theorem isBlank_horizontal (c : Char) (h : isBlank c = true) : isHorizontalSpace c = true := by
  have hc : c = ' ' := by simpa [isBlank] using h
  rw [hc]
  decide

theorem isTab_horizontal (c : Char) (h : isTab c = true) : isHorizontalSpace c = true := by
  have hc : c = '\t' := by simpa [isTab] using h
  rw [hc]
  decide

theorem isNewline_iff (c : Char) : isNewline c = true ↔ c = '\n' := by
  simp [isNewline]

theorem isNewline_space (c : Char) (h : isNewline c = true) : isWhiteSpace c = true := by
  rw [(isNewline_iff c).mp h]
  decide

/-- A replacement by a character that may stand next to every character
keeps a text free of forbidden pairs. -/
theorem chain_replaceAll_neutral (matchAt : List Char → Option (List Char)) (x : Char)
    (R : Char → Char → Prop) (hstarts : PrefixMatcher matchAt) (hleft : ∀ a, R a x)
    (hright : ∀ b, R x b) :
    ∀ s, List.Chain' R s → List.Chain' R (jsReplaceAll matchAt [x] 0 s) := by
  apply jsReplaceAll_induction matchAt hstarts
  · intro _; rw [jsReplaceAll_nil]; exact List.chain'_nil
  · intro c t hnone ih hchain
    rw [jsReplaceAll_none matchAt [x] c t hnone, List.chain'_cons']
    rw [List.chain'_cons'] at hchain
    refine ⟨?_, ih hchain.2⟩
    intro b hb
    rw [jsReplaceAll_head matchAt [x] hstarts (by simp) t] at hb
    cases hmatch : matchAt t with
    | none => rw [hmatch] at hb; exact hchain.1 b hb
    | some m =>
      rw [hmatch] at hb
      simp only [List.head?_cons, Option.mem_def, Option.some.injEq] at hb
      rw [← hb]
      exact hleft c
  · intro m rest hne hsome ih hchain
    rw [jsReplaceAll_some matchAt [x] m rest hne hsome]
    show List.Chain' R (x :: jsReplaceAll matchAt [x] 0 rest)
    rw [List.chain'_cons']
    exact ⟨fun b _ => hright b, ih hchain.right_of_append⟩

theorem takeWhile_length_of_pair (p : Char → Bool) (a b : Char) (t : List Char)
    (ha : p a = true) (hb : p b = true) : 2 ≤ ((a :: b :: t).takeWhile p).length := by
  rw [List.takeWhile_cons, if_pos ha, List.takeWhile_cons, if_pos hb]
  simp

/-- After the collapse of the runs of horizontal white space, no two such
characters stand side by side. -/
theorem collapse_horizontal_chain :
    ∀ s, List.Chain' NoSpacePair
      (jsReplaceAll (matchRun isHorizontalSpace 2) [' '] 0 s) := by
  have hstarts := matchRun_starts isHorizontalSpace 2 (by omega)
  apply jsReplaceAll_induction _ hstarts
  · rw [jsReplaceAll_nil]; exact List.chain'_nil
  · intro c t hnone ih
    rw [jsReplaceAll_none _ _ c t hnone, List.chain'_cons']
    refine ⟨?_, ih⟩
    intro b hb
    rw [jsReplaceAll_head _ _ hstarts (by simp) t] at hb
    rw [matchRun_none_iff] at hnone
    intro hpair
    have hc : isHorizontalSpace c = true := hpair.1
    cases hmatch : matchRun isHorizontalSpace 2 t with
    | none =>
      rw [hmatch] at hb
      cases t with
      | nil => simp at hb
      | cons y u =>
        simp only [List.head?_cons, Option.mem_def, Option.some.injEq] at hb
        have hy : isHorizontalSpace y = true := by rw [hb]; exact hpair.2
        have := takeWhile_length_of_pair isHorizontalSpace c y u hc hy
        omega
    | some m =>
      obtain ⟨hm, hlen⟩ := matchRun_some _ _ t m hmatch
      rw [List.takeWhile_cons, if_pos hc, List.length_cons, ← hm] at hnone
      omega
  · intro m rest hne hsome ih
    rw [jsReplaceAll_some _ _ m rest hne hsome]
    show List.Chain' NoSpacePair (' ' :: jsReplaceAll (matchRun isHorizontalSpace 2) [' '] 0 rest)
    rw [List.chain'_cons']
    refine ⟨?_, ih⟩
    intro b hb
    have hrest := matchRun_rest _ _ m rest hsome
    rw [jsReplaceAll_head _ _ hstarts (by simp) rest,
      matchRun_none_of_head isHorizontalSpace 2 (by omega) rest hrest] at hb
    intro hpair
    have := hrest b hb
    rw [hpair.2] at this
    cases this

theorem takeWhile_append_all (p : Char → Bool) (m rest : List Char)
    (hm : ∀ c ∈ m, p c = true) : (m ++ rest).takeWhile p = m ++ rest.takeWhile p := by
  induction m with
  | nil => rfl
  | cons c t ih =>
    have hc : p c = true := hm c (List.mem_cons_self c t)
    rw [List.cons_append, List.takeWhile_cons, if_pos hc,
      ih (fun x hx => hm x (List.mem_cons_of_mem c hx))]
    rfl

theorem upToLastNewline_none_imp (w : List Char) (hw : upToLastNewline w = none) :
    ∀ y ∈ w, y ≠ '\n' := by
  induction w with
  | nil => intro y hy; simp at hy
  | cons a w' ihw =>
    intro y hy
    rw [upToLastNewline_cons] at hw
    cases hw' : upToLastNewline w' with
    | some m2 => rw [hw'] at hw; cases hw
    | none =>
      rw [hw'] at hw
      rcases List.mem_cons.mp hy with hy | hy
      · intro hyn
        rw [hy] at hyn
        rw [hyn] at hw
        simp at hw
      · exact ihw hw' y hy

theorem matchSpaceNewline_none_run (c : Char) (t : List Char)
    (hnone : matchSpaceNewline (c :: t) = none) (hc : isWhiteSpace c = true) :
    ∀ x ∈ t.takeWhile isWhiteSpace, x ≠ '\n' := by
  rw [matchSpaceNewline_cons, if_pos hc] at hnone
  cases hu : upToLastNewline (t.takeWhile isWhiteSpace) with
  | none => exact upToLastNewline_none_imp _ hu
  | some m => rw [hu] at hnone; cases hnone

/-- After the removal of the white space before the newlines, no white space
stands right before a newline. -/
theorem before_newline_chain :
    ∀ s, List.Chain' NoSpaceBeforeNewline (jsReplaceAll matchSpaceNewline ['\n'] 0 s) := by
  have hstarts := matchSpaceNewline_starts
  apply jsReplaceAll_induction _ hstarts
  · rw [jsReplaceAll_nil]; exact List.chain'_nil
  · intro c t hnone ih
    rw [jsReplaceAll_none _ _ c t hnone, List.chain'_cons']
    refine ⟨?_, ih⟩
    intro b hb
    rw [jsReplaceAll_head _ _ hstarts (by simp) t] at hb
    intro hpair
    have hrun := matchSpaceNewline_none_run c t hnone hpair.1
    cases hmatch : matchSpaceNewline t with
    | none =>
      rw [hmatch] at hb
      cases t with
      | nil => simp at hb
      | cons y u =>
        simp only [List.head?_cons, Option.mem_def, Option.some.injEq] at hb
        have hy : y = '\n' := by rw [hb]; exact hpair.2
        have hmem : y ∈ (y :: u).takeWhile isWhiteSpace := by
          rw [List.takeWhile_cons, if_pos (by rw [hy]; exact isWhiteSpace_newline)]
          exact List.mem_cons_self _ _
        exact hrun y hmem hy
    | some m =>
      obtain ⟨a, m', rest, hm, _, hne', hlast, hs, hall, _⟩ :=
        matchSpaceNewline_some t m hmatch
      have hmem : '\n' ∈ t.takeWhile isWhiteSpace := by
        rw [hs, takeWhile_append_all isWhiteSpace m rest hall, hm]
        exact List.mem_append_left _
          (List.mem_cons_of_mem a (List.mem_of_getLast?_eq_some hlast))
      exact hrun '\n' hmem rfl
  · intro m rest hne hsome ih
    rw [jsReplaceAll_some _ _ m rest hne hsome]
    show List.Chain' NoSpaceBeforeNewline
      ('\n' :: jsReplaceAll matchSpaceNewline ['\n'] 0 rest)
    rw [List.chain'_cons']
    refine ⟨?_, ih⟩
    intro b hb
    obtain ⟨a, m', rest', hm, _, _, _, hs, hall, hrun⟩ :=
      matchSpaceNewline_some (m ++ rest) m hsome
    have hrest : rest' = rest := List.append_cancel_left hs.symm
    rw [hrest] at hrun
    rw [jsReplaceAll_head _ _ hstarts (by simp) rest,
      matchSpaceNewline_none_of_run rest hrun] at hb
    intro hpair
    cases rest with
    | nil => simp at hb
    | cons y u =>
      simp only [List.head?_cons, Option.mem_def, Option.some.injEq] at hb
      have hy : y = '\n' := by rw [hb]; exact hpair.2
      have hmem : y ∈ (y :: u).takeWhile isWhiteSpace := by
        rw [List.takeWhile_cons, if_pos (by rw [hy]; exact isWhiteSpace_newline)]
        exact List.mem_cons_self _ _
      exact hrun y hmem hy

theorem after_newline_head (s : List Char) :
    (jsReplaceAll matchNewlineSpace ['\n'] 0 s).head? = s.head? := by
  rw [jsReplaceAll_head _ _ matchNewlineSpace_starts (by simp) s]
  cases hmatch : matchNewlineSpace s with
  | none => rfl
  | some m => rw [matchNewlineSpace_head s m hmatch]; rfl

/-- The removal of the white space after the newlines puts no white space
before a newline. -/
theorem after_newline_keeps_before :
    ∀ s, List.Chain' NoSpaceBeforeNewline s →
      List.Chain' NoSpaceBeforeNewline (jsReplaceAll matchNewlineSpace ['\n'] 0 s) := by
  apply jsReplaceAll_induction _ matchNewlineSpace_starts
  · intro _; rw [jsReplaceAll_nil]; exact List.chain'_nil
  · intro c t hnone ih hchain
    rw [jsReplaceAll_none _ _ c t hnone, List.chain'_cons']
    rw [List.chain'_cons'] at hchain
    refine ⟨?_, ih hchain.2⟩
    intro b hb
    rw [after_newline_head] at hb
    exact hchain.1 b hb
  · intro m rest hne hsome ih hchain
    rw [jsReplaceAll_some _ _ m rest hne hsome]
    show List.Chain' NoSpaceBeforeNewline
      ('\n' :: jsReplaceAll matchNewlineSpace ['\n'] 0 rest)
    rw [List.chain'_cons']
    refine ⟨?_, ih hchain.right_of_append⟩
    intro b hb
    rw [after_newline_head] at hb
    have hrest := matchNewlineSpace_rest m rest hsome b hb
    intro hpair
    rw [hpair.2, isWhiteSpace_newline] at hrest
    cases hrest

/-- After the removal of the white space after the newlines, no white space
stands right after a newline. -/
theorem after_newline_chain :
    ∀ s, List.Chain' NoSpaceAfterNewline (jsReplaceAll matchNewlineSpace ['\n'] 0 s) := by
  apply jsReplaceAll_induction _ matchNewlineSpace_starts
  · rw [jsReplaceAll_nil]; exact List.chain'_nil
  · intro c t hnone ih
    rw [jsReplaceAll_none _ _ c t hnone, List.chain'_cons']
    refine ⟨?_, ih⟩
    intro b hb
    rw [after_newline_head] at hb
    intro hpair
    cases t with
    | nil => simp at hb
    | cons y u =>
      simp only [List.head?_cons, Option.mem_def, Option.some.injEq] at hb
      have hy : isWhiteSpace y = true := by rw [hb]; exact hpair.2
      rw [matchNewlineSpace_cons, hpair.1, List.takeWhile_cons, if_pos hy] at hnone
      simp at hnone
  · intro m rest hne hsome ih
    rw [jsReplaceAll_some _ _ m rest hne hsome]
    show List.Chain' NoSpaceAfterNewline
      ('\n' :: jsReplaceAll matchNewlineSpace ['\n'] 0 rest)
    rw [List.chain'_cons']
    refine ⟨?_, ih⟩
    intro b hb
    rw [after_newline_head] at hb
    have hrest := matchNewlineSpace_rest m rest hsome b hb
    intro hpair
    rw [hpair.2] at hrest
    cases hrest

theorem matchRun_none_of_chain (p : Char → Bool) (n : Nat) (hn : 2 ≤ n)
    (R : Char → Char → Prop) (hR : ∀ a b, p a = true → p b = true → ¬ R a b)
    (t : List Char) (h : List.Chain' R t) : matchRun p n t = none := by
  rw [matchRun_none_iff]
  cases t with
  | nil => simp; omega
  | cons a u =>
    by_cases ha : p a = true
    · cases u with
      | nil => simp [List.takeWhile_cons, ha]; omega
      | cons b w =>
        have hab : R a b := (List.chain'_cons.mp h).1
        have hb : ¬ p b = true := fun hb => hR a b ha hb hab
        rw [List.takeWhile_cons, if_pos ha, List.takeWhile_cons, if_neg hb]
        simp; omega
    · rw [List.takeWhile_cons, if_neg ha]
      simp; omega

theorem replaceRun_id_of_chain (p : Char → Bool) (n : Nat) (hn : 2 ≤ n) (r : List Char)
    (R : Char → Char → Prop) (hR : ∀ a b, p a = true → p b = true → ¬ R a b)
    (s : List Char) (h : List.Chain' R s) : jsReplaceAll (matchRun p n) r 0 s = s :=
  jsReplaceAll_id _ r s (fun t ht => matchRun_none_of_chain p n hn R hR t (h.suffix ht))

theorem replaceTab_id (s : List Char) (h : ∀ c ∈ s, c ≠ '\t') :
    jsReplaceAll (matchRun isTab 1) [' '] 0 s = s := by
  apply jsReplaceAll_id
  intro t ht
  apply matchRun_none_of_head isTab 1 (by omega)
  intro b hb
  have hmem : b ∈ s := ht.subset (List.mem_of_mem_head? hb)
  have := h b hmem
  simpa [isTab] using this

theorem chain_space_run (u : List Char) :
    ∀ c, isWhiteSpace c = true → List.Chain' NoSpaceBeforeNewline (c :: u) →
      ∀ x ∈ u.takeWhile isWhiteSpace, x ≠ '\n' := by
  induction u with
  | nil => intro c _ _ x hx; simp at hx
  | cons d w ih =>
    intro c hc hchain x hx
    rw [List.chain'_cons] at hchain
    by_cases hd : isWhiteSpace d = true
    · rw [List.takeWhile_cons, if_pos hd] at hx
      rcases List.mem_cons.mp hx with hx | hx
      · rw [hx]
        intro hdn
        exact hchain.1 ⟨hc, hdn⟩
      · exact ih d hd hchain.2 x hx
    · rw [List.takeWhile_cons, if_neg hd] at hx
      simp at hx

theorem before_newline_id (s : List Char) (h : List.Chain' NoSpaceBeforeNewline s) :
    jsReplaceAll matchSpaceNewline ['\n'] 0 s = s := by
  apply jsReplaceAll_id
  intro t ht
  have hchain := h.suffix ht
  cases t with
  | nil => rfl
  | cons c u =>
    rw [matchSpaceNewline_cons]
    by_cases hc : isWhiteSpace c = true
    · rw [if_pos hc, upToLastNewline_none_of _ (chain_space_run u c hc hchain)]
      rfl
    · rw [if_neg hc]

theorem after_newline_id (s : List Char) (h : List.Chain' NoSpaceAfterNewline s) :
    jsReplaceAll matchNewlineSpace ['\n'] 0 s = s := by
  apply jsReplaceAll_id
  intro t ht
  have hchain := h.suffix ht
  cases t with
  | nil => rfl
  | cons c u =>
    rw [matchNewlineSpace_cons]
    cases u with
    | nil => simp
    | cons d w =>
      have hcd : NoSpaceAfterNewline c d := (List.chain'_cons.mp hchain).1
      by_cases hc : c = '\n'
      · have hd : ¬ isWhiteSpace d = true := fun hd => hcd ⟨hc, hd⟩
        rw [List.takeWhile_cons, if_neg hd]
        simp
      · have hcb : (c == '\n') = false := by simpa using hc
        rw [hcb]
        rfl

theorem replaceQuote_id (s : List Char) : jsReplaceAll matchQuote ['"'] 0 s = s :=
  jsReplaceAll_same matchQuote ['"'] matchQuote_starts matchQuote_same s

/-- A text of the normalized shape is left as it is by every step of
`fixText`. -/
theorem fixTextChars_of_normalized (s : List Char) (h : Normalized s) : fixTextChars s = s := by
  obtain ⟨htrim, htab, hpair, hbefore, hafter⟩ := h
  have hnl : ∀ a b, isNewline a = true → isNewline b = true → ¬ NoSpaceAfterNewline a b := by
    intro a b ha hb hR
    exact hR ⟨(isNewline_iff a).mp ha, isNewline_space b hb⟩
  have hblank : ∀ a b, isBlank a = true → isBlank b = true → ¬ NoSpacePair a b := by
    intro a b ha hb hR
    exact hR ⟨isBlank_horizontal a ha, isBlank_horizontal b hb⟩
  have hhor : ∀ a b, isHorizontalSpace a = true → isHorizontalSpace b = true →
      ¬ NoSpacePair a b := by
    intro a b ha hb hR
    exact hR ⟨ha, hb⟩
  unfold fixTextChars
  rw [jsTrim_of_trimmed s htrim, replaceQuote_id,
    replaceRun_id_of_chain isNewline 4 (by omega) _ NoSpaceAfterNewline hnl s hafter,
    replaceRun_id_of_chain isNewline 2 (by omega) _ NoSpaceAfterNewline hnl s hafter,
    replaceRun_id_of_chain isBlank 3 (by omega) _ NoSpacePair hblank s hpair,
    replaceTab_id s htab,
    replaceRun_id_of_chain isHorizontalSpace 2 (by omega) _ NoSpacePair hhor s hpair,
    before_newline_id s hbefore, after_newline_id s hafter]

theorem replaceTab_no_tab :
    ∀ s, ∀ c ∈ jsReplaceAll (matchRun isTab 1) [' '] 0 s, c ≠ '\t' := by
  apply jsReplaceAll_induction _ (matchRun_starts isTab 1 (by omega))
  · intro c hc; simp [jsReplaceAll_nil] at hc
  · intro x t hnone ih c hc
    rw [jsReplaceAll_none _ _ x t hnone] at hc
    rcases List.mem_cons.mp hc with h | h
    · rw [h]
      intro hx
      rw [matchRun_none_iff, hx, List.takeWhile_cons, if_pos (by decide)] at hnone
      simp at hnone
    · exact ih c h
  · intro m rest hne hsome ih c hc
    rw [jsReplaceAll_some _ _ m rest hne hsome] at hc
    rcases List.mem_cons.mp hc with h | h
    · rw [h]; decide
    · exact ih c h

theorem no_tab_replaceAll (matchAt : List Char → Option (List Char)) (x : Char)
    (hstarts : PrefixMatcher matchAt) (hx : x ≠ '\t') (s : List Char)
    (h : ∀ c ∈ s, c ≠ '\t') : ∀ c ∈ jsReplaceAll matchAt [x] 0 s, c ≠ '\t' := by
  intro c hc
  rcases jsReplaceAll_mem matchAt [x] hstarts s c hc with h' | h'
  · exact h c h'
  · rw [List.mem_singleton.mp h']; exact hx

/-- The result of `fixText` has the normalized shape. -/
theorem fixTextChars_normalized (text : List Char) : Normalized (fixTextChars text) := by
  have hsNewline : ∀ c, isNewline c = true → isWhiteSpace c = true := isNewline_space
  have hsBlank : ∀ c, isBlank c = true → isWhiteSpace c = true :=
    fun c h => isHorizontalSpace_space c (isBlank_horizontal c h)
  have hsTab : ∀ c, isTab c = true → isWhiteSpace c = true :=
    fun c h => isHorizontalSpace_space c (isTab_horizontal c h)
  have h0 : Trimmed (jsReplaceAll matchQuote ['"'] 0 (jsTrim text)) := by
    rw [replaceQuote_id]; exact jsTrim_trimmed text
  have h1 := trimmed_replaceAll (matchRun isNewline 4) ['\n', '\n', '\n']
    (matchRun_starts _ 4 (by omega)) (matchRun_space _ 4 hsNewline) (by simp) _ h0
  have h2 := trimmed_replaceAll (matchRun isNewline 2) ['\n']
    (matchRun_starts _ 2 (by omega)) (matchRun_space _ 2 hsNewline) (by simp) _ h1
  have h3 := trimmed_replaceAll (matchRun isBlank 3) [' ', ' ']
    (matchRun_starts _ 3 (by omega)) (matchRun_space _ 3 hsBlank) (by simp) _ h2
  have h4 := trimmed_replaceAll (matchRun isTab 1) [' ']
    (matchRun_starts _ 1 (by omega)) (matchRun_space _ 1 hsTab) (by simp) _ h3
  have h5 := trimmed_replaceAll (matchRun isHorizontalSpace 2) [' ']
    (matchRun_starts _ 2 (by omega)) (matchRun_space _ 2 isHorizontalSpace_space) (by simp) _ h4
  have h6 := trimmed_replaceAll matchSpaceNewline ['\n'] matchSpaceNewline_starts
    matchSpaceNewline_space (by simp) _ h5
  have h7 := trimmed_replaceAll matchNewlineSpace ['\n'] matchNewlineSpace_starts
    matchNewlineSpace_space (by simp) _ h6
  have t4 := replaceTab_no_tab
    (jsReplaceAll (matchRun isBlank 3) [' ', ' '] 0
      (jsReplaceAll (matchRun isNewline 2) ['\n'] 0
        (jsReplaceAll (matchRun isNewline 4) ['\n', '\n', '\n'] 0
          (jsReplaceAll matchQuote ['"'] 0 (jsTrim text)))))
  have t5 := no_tab_replaceAll (matchRun isHorizontalSpace 2) ' '
    (matchRun_starts _ 2 (by omega)) (by decide) _ t4
  have t6 := no_tab_replaceAll matchSpaceNewline '\n' matchSpaceNewline_starts (by decide) _ t5
  have t7 := no_tab_replaceAll matchNewlineSpace '\n' matchNewlineSpace_starts (by decide) _ t6
  have hneutralL : ∀ a, NoSpacePair a '\n' := fun a h => by
    have := h.2
    revert this
    decide
  have hneutralR : ∀ b, NoSpacePair '\n' b := fun b h => by
    have := h.1
    revert this
    decide
  have p5 := collapse_horizontal_chain
    (jsReplaceAll (matchRun isTab 1) [' '] 0
      (jsReplaceAll (matchRun isBlank 3) [' ', ' '] 0
        (jsReplaceAll (matchRun isNewline 2) ['\n'] 0
          (jsReplaceAll (matchRun isNewline 4) ['\n', '\n', '\n'] 0
            (jsReplaceAll matchQuote ['"'] 0 (jsTrim text))))))
  have p6 := chain_replaceAll_neutral matchSpaceNewline '\n' NoSpacePair
    matchSpaceNewline_starts hneutralL hneutralR _ p5
  have p7 := chain_replaceAll_neutral matchNewlineSpace '\n' NoSpacePair
    matchNewlineSpace_starts hneutralL hneutralR _ p6
  have b6 := before_newline_chain
    (jsReplaceAll (matchRun isHorizontalSpace 2) [' '] 0
      (jsReplaceAll (matchRun isTab 1) [' '] 0
        (jsReplaceAll (matchRun isBlank 3) [' ', ' '] 0
          (jsReplaceAll (matchRun isNewline 2) ['\n'] 0
            (jsReplaceAll (matchRun isNewline 4) ['\n', '\n', '\n'] 0
              (jsReplaceAll matchQuote ['"'] 0 (jsTrim text)))))))
  have b7 := after_newline_keeps_before _ b6
  have a7 := after_newline_chain
    (jsReplaceAll matchSpaceNewline ['\n'] 0
      (jsReplaceAll (matchRun isHorizontalSpace 2) [' '] 0
        (jsReplaceAll (matchRun isTab 1) [' '] 0
          (jsReplaceAll (matchRun isBlank 3) [' ', ' '] 0
            (jsReplaceAll (matchRun isNewline 2) ['\n'] 0
              (jsReplaceAll (matchRun isNewline 4) ['\n', '\n', '\n'] 0
                (jsReplaceAll matchQuote ['"'] 0 (jsTrim text))))))))
  exact ⟨h7, t7, p7, b7, a7⟩

/-- C11. The method `fixText` is idempotent: applied to its own result it
returns that result. -/
theorem fixText_idempotent (text : String) : fixText (fixText text) = fixText text := by
  unfold fixText
  rw [fixTextChars_of_normalized _ (fixTextChars_normalized text.data)]

theorem replaceRun_short (p : Char → Bool) (n : Nat) (r v : List Char)
    (hv : ∀ b ∈ v.head?, p b = false) :
    ∀ run : List Char, (∀ c ∈ run, p c = true) → run.length < n →
      jsReplaceAll (matchRun p n) r 0 (run ++ v)
        = run ++ jsReplaceAll (matchRun p n) r 0 v := by
  intro run
  induction run with
  | nil => intro _ _; rfl
  | cons c t ih =>
    intro hall hlen
    have hnone : matchRun p n (c :: (t ++ v)) = none := by
      rw [matchRun_none_iff]
      have htake := takeWhile_append_of_head p (c :: t) v hall hv
      rw [List.cons_append] at htake
      rw [htake]
      exact hlen
    have hlen' : t.length < n := by
      rw [List.length_cons] at hlen
      omega
    rw [List.cons_append, jsReplaceAll_none _ _ c (t ++ v) hnone,
      ih (fun x hx => hall x (List.mem_cons_of_mem c hx)) hlen', List.cons_append]

theorem replaceRun_long (p : Char → Bool) (n : Nat) (r run v : List Char)
    (hne : run ≠ []) (hall : ∀ c ∈ run, p c = true) (hv : ∀ b ∈ v.head?, p b = false)
    (hlen : n ≤ run.length) :
    jsReplaceAll (matchRun p n) r 0 (run ++ v) = r ++ jsReplaceAll (matchRun p n) r 0 v := by
  apply jsReplaceAll_some _ _ run v hne
  unfold matchRun
  rw [takeWhile_append_of_head p run v hall hv, if_pos hlen]

theorem replaceRun_head (p : Char → Bool) (n : Nat) (hn : 1 ≤ n) (r : List Char) (hr : r ≠ [])
    (v : List Char) (hv : ∀ b ∈ v.head?, p b = false) :
    ∀ b ∈ (jsReplaceAll (matchRun p n) r 0 v).head?, p b = false := by
  rw [jsReplaceAll_head _ r (matchRun_starts p n hn) hr v, matchRun_none_of_head p n hn v hv]
  exact hv

/-- Collapsing the runs of two or more newlines gives the same text whether
or not the runs of four or more were first cut down to `k` newlines, for any
`k` of at least two. -/
theorem collapse_newlines_absorbs (k : Nat) (hk : 2 ≤ k) :
    ∀ s, jsReplaceAll (matchRun isNewline 2) ['\n'] 0
        (jsReplaceAll (matchRun isNewline 4) (List.replicate k '\n') 0 s)
      = jsReplaceAll (matchRun isNewline 2) ['\n'] 0 s := by
  have hrne : List.replicate k '\n' ≠ [] := by
    intro h
    have := congrArg List.length h
    rw [List.length_replicate] at this
    simp at this
    omega
  have hrall : ∀ c ∈ List.replicate k '\n', isNewline c = true := by
    intro c hc
    rw [(List.mem_replicate.mp hc).2]
    rfl
  apply jsReplaceAll_induction (matchRun isNewline 1) (matchRun_starts isNewline 1 (by omega))
  · rfl
  · intro c t hnone ih
    have hc : isNewline c = false := by
      rw [matchRun_none_iff] at hnone
      cases h : isNewline c with
      | false => rfl
      | true =>
        rw [List.takeWhile_cons, if_pos h] at hnone
        simp at hnone
    have hhead : ∀ u : List Char, ∀ b ∈ (c :: u).head?, isNewline b = false := by
      intro u b hb
      rw [List.head?_cons, Option.mem_some_iff] at hb
      rw [← hb]
      exact hc
    rw [jsReplaceAll_none _ _ c t (matchRun_none_of_head isNewline 4 (by omega) _ (hhead t)),
      jsReplaceAll_none _ _ c _ (matchRun_none_of_head isNewline 2 (by omega) _ (hhead _)),
      jsReplaceAll_none _ _ c t (matchRun_none_of_head isNewline 2 (by omega) _ (hhead t)), ih]
  · intro m rest hne hsome ih
    have hall := matchRun_all _ _ _ _ hsome
    have hrest := matchRun_rest _ _ _ _ hsome
    have hrest4 := replaceRun_head isNewline 4 (by omega) (List.replicate k '\n') hrne rest hrest
    by_cases h4 : 4 ≤ m.length
    · rw [replaceRun_long isNewline 4 _ m rest hne hall hrest h4,
        replaceRun_long isNewline 2 _ (List.replicate k '\n') _ hrne hrall hrest4
          (by rw [List.length_replicate]; exact hk),
        replaceRun_long isNewline 2 _ m rest hne hall hrest (by omega), ih]
    · rw [replaceRun_short isNewline 4 _ rest hrest m hall (by omega)]
      by_cases h2 : 2 ≤ m.length
      · rw [replaceRun_long isNewline 2 _ m _ hne hall hrest4 h2,
          replaceRun_long isNewline 2 _ m rest hne hall hrest h2, ih]
      · rw [replaceRun_short isNewline 2 _ _ hrest4 m hall (by omega),
          replaceRun_short isNewline 2 _ rest hrest m hall (by omega), ih]

/-- C20. For every string, `fixText` returns the same result as the rules of
the specification applied in order: trim; every run of four or more newlines
becomes two newlines; every run of two or more newlines becomes one; every run
of three or more spaces becomes two; every run of tabs becomes one space; every
run of two or more horizontal white space characters becomes one space; the
white space before a newline is removed; the white space after a newline is
removed. -/
theorem fixText_refines_spec_rules (text : String) : fixText text = normalizeBySpec text := by
  have h3 := collapse_newlines_absorbs 3 (by omega) (jsTrim text.data)
  have h2 := collapse_newlines_absorbs 2 (by omega) (jsTrim text.data)
  have e3 : List.replicate 3 '\n' = ['\n', '\n', '\n'] := rfl
  have e2 : List.replicate 2 '\n' = ['\n', '\n'] := rfl
  rw [e3] at h3
  rw [e2] at h2
  unfold fixText normalizeBySpec fixTextChars normalizeBySpecChars
  rw [replaceQuote_id, h3, h2]

theorem chain_pair_of_append (R : Char → Char → Prop) (l₁ l₂ : List Char) (a b : Char)
    (h : List.Chain' R (l₁ ++ a :: b :: l₂)) : R a b := by
  have h2 := (List.chain'_split.mp h).2
  exact (List.chain'_cons.mp h2).1

/-- C21. In the result of `fixText` every newline stands between two
characters that are not white space: the text before it is not empty and ends
with such a character, the text after it is not empty and starts with such a
character. -/
theorem fixText_newline_neighbours (x : String) (before after : List Char)
    (h : (fixText x).data = before ++ '\n' :: after) :
    (∃ a, before.getLast? = some a ∧ isWhiteSpace a = false)
      ∧ ∃ b, after.head? = some b ∧ isWhiteSpace b = false := by
  have hnewline : isWhiteSpace '\n' = true := by decide
  have hnorm := fixTextChars_normalized x.data
  have hdata : fixTextChars x.data = before ++ '\n' :: after := h
  rw [hdata] at hnorm
  obtain ⟨⟨hhead, hlast⟩, _, _, hbefore, hafter⟩ := hnorm
  constructor
  · rcases List.eq_nil_or_concat before with hnil | ⟨init, a, hconcat⟩
    · rw [hnil] at hhead
      have hws := hhead '\n' (by simp)
      rw [hnewline] at hws
      cases hws
    · rw [List.concat_eq_append] at hconcat
      refine ⟨a, by rw [hconcat]; simp, ?_⟩
      rw [hconcat, List.append_assoc] at hbefore
      have hrel : NoSpaceBeforeNewline a '\n' :=
        chain_pair_of_append NoSpaceBeforeNewline init after a '\n' hbefore
      cases hws : isWhiteSpace a with
      | false => rfl
      | true => exact absurd ⟨hws, rfl⟩ hrel
  · cases after with
    | nil =>
      have hws := hlast '\n' (by simp)
      rw [hnewline] at hws
      cases hws
    | cons b rest =>
      refine ⟨b, rfl, ?_⟩
      have hrel : NoSpaceAfterNewline '\n' b :=
        chain_pair_of_append NoSpaceAfterNewline before rest '\n' b hafter
      cases hws : isWhiteSpace b with
      | false => rfl
      | true => exact absurd ⟨rfl, hws⟩ hrel

theorem fixText_newline_neighbours_witness :
    (fixText "a \n\n b").data = ['a'] ++ '\n' :: ['b']
      ∧ (∃ a, ['a'].getLast? = some a ∧ isWhiteSpace a = false)
      ∧ ∃ b, ['b'].head? = some b ∧ isWhiteSpace b = false :=
  ⟨by decide, fixText_newline_neighbours "a \n\n b" ['a'] ['b'] (by decide)⟩

theorem filter_dropWhile_space (s : List Char) :
    (s.dropWhile isWhiteSpace).filter (fun c => !isWhiteSpace c)
      = s.filter (fun c => !isWhiteSpace c) := by
  induction s with
  | nil => rfl
  | cons c t ih =>
    cases hc : isWhiteSpace c with
    | true =>
      rw [List.dropWhile_cons, if_pos hc, ih, List.filter_cons]
      simp [hc]
    | false =>
      rw [List.dropWhile_cons, if_neg (by simp [hc])]

theorem filter_jsTrim (s : List Char) :
    (jsTrim s).filter (fun c => !isWhiteSpace c) = s.filter (fun c => !isWhiteSpace c) := by
  unfold jsTrim trimEnd trimStart
  rw [List.filter_reverse, filter_dropWhile_space, ← List.filter_reverse, List.reverse_reverse,
    filter_dropWhile_space]

theorem filter_of_all_space (m : List Char) (h : ∀ c ∈ m, isWhiteSpace c = true) :
    m.filter (fun c => !isWhiteSpace c) = [] := by
  rw [List.filter_eq_nil_iff]
  intro c hc
  simp [h c hc]

/-- A replacement of white space by white space keeps the characters that
are not white space. -/
theorem filter_replaceAll (matchAt : List Char → Option (List Char)) (r : List Char)
    (hstarts : PrefixMatcher matchAt) (hspace : SpaceMatcher matchAt)
    (hr : ∀ c ∈ r, isWhiteSpace c = true) :
    ∀ s, (jsReplaceAll matchAt r 0 s).filter (fun c => !isWhiteSpace c)
      = s.filter (fun c => !isWhiteSpace c) := by
  apply jsReplaceAll_induction matchAt hstarts
  · rw [jsReplaceAll_nil]
  · intro c t hnone ih
    rw [jsReplaceAll_none _ _ c t hnone, List.filter_cons, List.filter_cons, ih]
  · intro m rest hne hsome ih
    rw [jsReplaceAll_some _ _ m rest hne hsome, List.filter_append, List.filter_append, ih,
      filter_of_all_space r hr, filter_of_all_space m (hspace _ _ hsome)]

/-- C30. The method `fixText` changes white space only: the characters of
its result that are not white space are those of its argument, in the same
order; in particular no quote and no backslash is added, removed or escaped. -/
theorem fixText_keeps_non_whitespace (x : String) :
    (fixText x).data.filter (fun c => !isWhiteSpace c)
      = x.data.filter (fun c => !isWhiteSpace c) := by
  have hsNewline : ∀ c, isNewline c = true → isWhiteSpace c = true := isNewline_space
  have hsBlank : ∀ c, isBlank c = true → isWhiteSpace c = true :=
    fun c h => isHorizontalSpace_space c (isBlank_horizontal c h)
  have hsTab : ∀ c, isTab c = true → isWhiteSpace c = true :=
    fun c h => isHorizontalSpace_space c (isTab_horizontal c h)
  have hdata : (fixText x).data = fixTextChars x.data := rfl
  rw [hdata]
  unfold fixTextChars
  rw [filter_replaceAll _ _ matchNewlineSpace_starts matchNewlineSpace_space (by decide),
    filter_replaceAll _ _ matchSpaceNewline_starts matchSpaceNewline_space (by decide),
    filter_replaceAll _ _ (matchRun_starts _ 2 (by omega))
      (matchRun_space _ 2 isHorizontalSpace_space) (by decide),
    filter_replaceAll _ _ (matchRun_starts _ 1 (by omega)) (matchRun_space _ 1 hsTab)
      (by decide),
    filter_replaceAll _ _ (matchRun_starts _ 3 (by omega)) (matchRun_space _ 3 hsBlank)
      (by decide),
    filter_replaceAll _ _ (matchRun_starts _ 2 (by omega)) (matchRun_space _ 2 hsNewline)
      (by decide),
    filter_replaceAll _ _ (matchRun_starts _ 4 (by omega)) (matchRun_space _ 4 hsNewline)
      (by decide),
    replaceQuote_id, filter_jsTrim]

/-! ## Theorems: oversized comments and chunk lengths -/

theorem serializeAll_cons_ok (mapCommentToAiInput : Comment → Except JsError String)
    (c : Comment) (rest : List Comment) (s : String) (ss : List String)
    (hc : mapCommentToAiInput c = Except.ok s)
    (hrest : serializeAll mapCommentToAiInput rest = Except.ok ss) :
    serializeAll mapCommentToAiInput (c :: rest) = Except.ok (s :: ss) := by
  simp only [serializeAll, hc, hrest]

theorem serializeAll_append (mapCommentToAiInput : Comment → Except JsError String)
    (xs ys : List Comment) (sx sy : List String)
    (hx : serializeAll mapCommentToAiInput xs = Except.ok sx)
    (hy : serializeAll mapCommentToAiInput ys = Except.ok sy) :
    serializeAll mapCommentToAiInput (xs ++ ys) = Except.ok (sx ++ sy) := by
  induction xs generalizing sx with
  | nil =>
    simp only [serializeAll, Except.ok.injEq] at hx
    subst hx
    exact hy
  | cons c rest ih =>
    simp only [serializeAll] at hx
    cases hc : mapCommentToAiInput c with
    | error e => simp [hc] at hx
    | ok s =>
      cases hr : serializeAll mapCommentToAiInput rest with
      | error e => simp [hc, hr] at hx
      | ok ss =>
        simp only [hc, hr, Except.ok.injEq] at hx
        subst hx
        rw [List.cons_append]
        exact serializeAll_cons_ok mapCommentToAiInput c (rest ++ ys) s (ss ++ sy) hc (ih ss hr)

theorem groupLoop_nil (maxChunkLength : Nat) (closed : List (List String))
    (current : List String) (currentLength : Nat) :
    groupLoop maxChunkLength closed current currentLength [] = (closed, current) := rfl

theorem groupLoop_push (maxChunkLength : Nat) (closed : List (List String))
    (current : List String) (currentLength : Nat) (s : String) (rest : List String)
    (h : currentLength + (jsLength s + 1) > maxChunkLength) :
    groupLoop maxChunkLength closed current currentLength (s :: rest)
      = groupLoop maxChunkLength (closed ++ [current]) [s] (jsLength s + 1) rest := by
  simp only [groupLoop, h, if_true]

theorem groupLoop_add (maxChunkLength : Nat) (closed : List (List String))
    (current : List String) (currentLength : Nat) (s : String) (rest : List String)
    (h : ¬ currentLength + (jsLength s + 1) > maxChunkLength) :
    groupLoop maxChunkLength closed current currentLength (s :: rest)
      = groupLoop maxChunkLength closed (current ++ [s]) (currentLength + (jsLength s + 1))
          rest := by
  simp only [groupLoop, h, if_false]

/-- The loop over a list of inputs followed by others: it reaches a state
from which the others are handled, and that state holds the first inputs. -/
theorem groupLoop_append (maxChunkLength : Nat) (xs : List String) :
    ∀ (closed : List (List String)) (current : List String) (currentLength : Nat),
      ∃ closed1 current1 length1,
        (∀ zs, groupLoop maxChunkLength closed current currentLength (xs ++ zs)
          = groupLoop maxChunkLength closed1 current1 length1 zs)
        ∧ closed1.flatten ++ current1 = closed.flatten ++ current ++ xs := by
  induction xs with
  | nil =>
    intro closed current currentLength
    exact ⟨closed, current, currentLength, fun _ => rfl, by simp⟩
  | cons s rest ih =>
    intro closed current currentLength
    by_cases hlen : currentLength + (jsLength s + 1) > maxChunkLength
    · obtain ⟨c1, k1, l1, hrun, hflat⟩ := ih (closed ++ [current]) [s] (jsLength s + 1)
      refine ⟨c1, k1, l1, ?_, ?_⟩
      · intro zs
        rw [List.cons_append, groupLoop_push _ _ _ _ _ _ hlen]
        exact hrun zs
      · rw [hflat]
        simp
    · obtain ⟨c1, k1, l1, hrun, hflat⟩ :=
        ih closed (current ++ [s]) (currentLength + (jsLength s + 1))
      refine ⟨c1, k1, l1, ?_, ?_⟩
      · intro zs
        rw [List.cons_append, groupLoop_add _ _ _ _ _ _ hlen]
        exact hrun zs
      · rw [hflat]
        simp

/-- The item lists of the chunks, from the result of the loop. -/
theorem chunkGroups_eq (inputs : List String) (maxChunkLength : Nat) :
    chunkGroups inputs maxChunkLength
      = (groupLoop maxChunkLength [] [] 2 inputs).1
        ++ (if (groupLoop maxChunkLength [] [] 2 inputs).2.length > 0
            then [(groupLoop maxChunkLength [] [] 2 inputs).2] else []) := by
  unfold chunkGroups
  by_cases h : (groupLoop maxChunkLength [] [] 2 inputs).2.length > 0
  · simp only [h, if_true]
  · simp only [h, if_false, List.append_nil]

theorem flatten_open_group (current : List String) :
    (if current.length > 0 then [current] else []).flatten = current := by
  cases current with
  | nil => rfl
  | cons a t => simp

/-- The item lists of the chunks when an input longer than the budget stands
between the inputs `xs` and `ys`: the long input is alone in its list, the
lists before it hold `xs` and the lists after it hold `ys`. -/
theorem chunkGroups_oversized (maxChunkLength : Nat) (xs ys : List String) (s : String)
    (hlong : maxChunkLength < jsLength s) :
    ∃ groupsBefore groupsAfter : List (List String),
      chunkGroups (xs ++ s :: ys) maxChunkLength = groupsBefore ++ [s] :: groupsAfter
        ∧ groupsBefore.flatten = xs ∧ groupsAfter.flatten = ys := by
  obtain ⟨c1, k1, l1, hrun, hflat⟩ := groupLoop_append maxChunkLength xs [] [] 2
  simp only [List.flatten_nil, List.nil_append] at hflat
  have hpush : l1 + (jsLength s + 1) > maxChunkLength := by omega
  have hloop : groupLoop maxChunkLength [] [] 2 (xs ++ s :: ys)
      = groupLoop maxChunkLength (c1 ++ [k1]) [s] (jsLength s + 1) ys := by
    rw [hrun, groupLoop_push _ _ _ _ _ _ hpush]
  rw [chunkGroups_eq, hloop]
  cases ys with
  | nil =>
    refine ⟨c1 ++ [k1], [], ?_, ?_, rfl⟩
    · rw [groupLoop_nil]
      simp
    · simp [hflat]
  | cons y rest =>
    have hpush2 : jsLength s + 1 + (jsLength y + 1) > maxChunkLength := by omega
    rw [groupLoop_push _ _ _ _ _ _ hpush2]
    obtain ⟨more, hmore⟩ := groupLoop_closed_prefix maxChunkLength rest
      (c1 ++ [k1] ++ [[s]]) [y] (jsLength y + 1)
    have hjoin := groupLoop_join maxChunkLength rest (c1 ++ [k1] ++ [[s]]) [y] (jsLength y + 1)
    rw [hmore] at hjoin
    have hrest : more.flatten
        ++ (groupLoop maxChunkLength (c1 ++ [k1] ++ [[s]]) [y] (jsLength y + 1) rest).2
        = y :: rest := by
      simp only [List.flatten_append, List.append_assoc] at hjoin
      have h2 := List.append_cancel_left hjoin
      have h3 := List.append_cancel_left h2
      have h4 := List.append_cancel_left h3
      simpa using h4
    refine ⟨c1 ++ [k1], more
      ++ (if (groupLoop maxChunkLength (c1 ++ [k1] ++ [[s]]) [y] (jsLength y + 1) rest).2.length
            > 0
          then [(groupLoop maxChunkLength (c1 ++ [k1] ++ [[s]]) [y] (jsLength y + 1) rest).2]
          else []), ?_, ?_, ?_⟩
    · rw [hmore]
      simp
    · simp [hflat]
    · rw [List.flatten_append, flatten_open_group]
      exact hrest

/-- C22. A comment whose serialized form is longer than the budget is the
only item of its chunk: the chunks returned before that chunk hold the
comments before it, the chunks returned after it hold the comments after it. -/
theorem oversized_comment_alone (mapCommentToAiInput : Comment → Except JsError String)
    (commentsBefore commentsAfter : List Comment) (comment : Comment)
    (inputsBefore inputsAfter : List String) (s : String) (maxChunkLength : Nat)
    (hbefore : serializeAll mapCommentToAiInput commentsBefore = Except.ok inputsBefore)
    (hcomment : mapCommentToAiInput comment = Except.ok s)
    (hafter : serializeAll mapCommentToAiInput commentsAfter = Except.ok inputsAfter)
    (hlong : maxChunkLength < jsLength s) :
    ∃ groupsBefore groupsAfter : List (List String),
      chunkCommentsForAnalysis mapCommentToAiInput (commentsBefore ++ comment :: commentsAfter)
          maxChunkLength
        = Except.ok (groupsBefore.map renderChunk ++ renderChunk [s]
            :: groupsAfter.map renderChunk)
        ∧ groupsBefore.flatten = inputsBefore ∧ groupsAfter.flatten = inputsAfter := by
  have hone : serializeAll mapCommentToAiInput (comment :: commentsAfter)
      = Except.ok (s :: inputsAfter) :=
    serializeAll_cons_ok mapCommentToAiInput comment commentsAfter s inputsAfter hcomment hafter
  have hser := serializeAll_append mapCommentToAiInput commentsBefore
    (comment :: commentsAfter) inputsBefore (s :: inputsAfter) hbefore hone
  obtain ⟨groupsBefore, groupsAfter, hgroups, h1, h2⟩ :=
    chunkGroups_oversized maxChunkLength inputsBefore inputsAfter s hlong
  refine ⟨groupsBefore, groupsAfter, ?_, h1, h2⟩
  rw [chunkCommentsForAnalysis_eq_groups mapCommentToAiInput _ maxChunkLength _ hser, hgroups,
    List.map_append, List.map_cons]

theorem oversized_comment_alone_witness :
    ∃ groupsBefore groupsAfter : List (List String),
      chunkCommentsForAnalysis sampleSerializer
          ([Comment.withContent "c1" "hi"] ++ Comment.withContent "c2" (padding 40)
            :: [Comment.withContent "c3" "ok", Comment.withContent "c4" "no"]) 60
        = Except.ok (groupsBefore.map renderChunk
            ++ renderChunk ["\x7b\"id\":\"" ++ "c2" ++ "\",\"content\":\"" ++ padding 40 ++ "\"\x7d"]
            :: groupsAfter.map renderChunk)
        ∧ groupsBefore.flatten = ["\x7b\"id\":\"c1\",\"content\":\"hi\"\x7d"]
        ∧ groupsAfter.flatten
          = ["\x7b\"id\":\"c3\",\"content\":\"ok\"\x7d", "\x7b\"id\":\"c4\",\"content\":\"no\"\x7d"] :=
  oversized_comment_alone sampleSerializer [Comment.withContent "c1" "hi"]
    [Comment.withContent "c3" "ok", Comment.withContent "c4" "no"]
    (Comment.withContent "c2" (padding 40)) _ _ _ 60 rfl rfl rfl
    (by rw [jsLength_sample, jsLength_padding]; omega)

theorem itemsLength_nil : itemsLength [] = 0 := rfl

theorem itemsLength_cons (s : String) (rest : List String) :
    itemsLength (s :: rest) = jsLength s + 1 + itemsLength rest := by
  simp [itemsLength]

theorem itemsLength_append (xs ys : List String) :
    itemsLength (xs ++ ys) = itemsLength xs + itemsLength ys := by
  simp [itemsLength]

theorem jsLength_jsJoin (a : String) (rest : List String) :
    jsLength (jsJoin "," (a :: rest)) + 1 = itemsLength (a :: rest) := by
  have hcomma : jsLength "," = 1 := by decide
  induction rest generalizing a with
  | nil => simp [jsJoin, itemsLength]
  | cons b t ih =>
    have hjoin : jsJoin "," (a :: b :: t) = a ++ "," ++ jsJoin "," (b :: t) := rfl
    rw [hjoin, jsLength_append, jsLength_append, hcomma, itemsLength_cons, ← ih b]
    omega

/-- The length of a chunk of one or more items: the counted length of its
items plus one. -/
theorem jsLength_renderChunk (a : String) (rest : List String) :
    jsLength (renderChunk (a :: rest)) = itemsLength (a :: rest) + 1 := by
  have h1 : jsLength "[" = 1 := by decide
  have h3 : jsLength "]" = 1 := by decide
  have hjoin := jsLength_jsJoin a rest
  unfold renderChunk
  rw [jsLength_append, jsLength_append, h1, h3]
  omega

/-- Every item list closed by the loop that holds two or more items has a
counted length within the budget. -/
theorem groupLoop_multi_bound (maxChunkLength : Nat) (inputs : List String) :
    ∀ (closed : List (List String)) (current : List String) (currentLength : Nat),
      (∀ g ∈ closed, 2 ≤ g.length → itemsLength g ≤ maxChunkLength) →
      itemsLength current ≤ currentLength →
      (2 ≤ current.length → currentLength ≤ maxChunkLength) →
      ∀ g ∈ (groupLoop maxChunkLength closed current currentLength inputs).1
          ++ [(groupLoop maxChunkLength closed current currentLength inputs).2],
        2 ≤ g.length → itemsLength g ≤ maxChunkLength := by
  induction inputs with
  | nil =>
    intro closed current currentLength hclosed hcount hcur g hg h2
    have hg2 : g ∈ closed ++ [current] := hg
    rcases List.mem_append.mp hg2 with h | h
    · exact hclosed g h h2
    · have hgc : g = current := List.mem_singleton.mp h
      rw [hgc] at h2 ⊢
      have := hcur h2
      omega
  | cons s rest ih =>
    intro closed current currentLength hclosed hcount hcur
    by_cases hlen : currentLength + (jsLength s + 1) > maxChunkLength
    · rw [groupLoop_push _ _ _ _ _ _ hlen]
      apply ih
      · intro g hg h2
        rcases List.mem_append.mp hg with h | h
        · exact hclosed g h h2
        · have hgc : g = current := List.mem_singleton.mp h
          rw [hgc] at h2 ⊢
          have := hcur h2
          omega
      · rw [itemsLength_cons, itemsLength_nil]
      · intro h2
        simp at h2
    · rw [groupLoop_add _ _ _ _ _ _ hlen]
      apply ih
      · exact hclosed
      · rw [itemsLength_append, itemsLength_cons, itemsLength_nil]
        omega
      · intro _
        omega

/-- The first item list of the loop, when it is not empty, has a counted
length within the budget minus two. -/
theorem groupLoop_first_bound (maxChunkLength : Nat) (inputs : List String) :
    ∀ (current : List String) (currentLength : Nat),
      currentLength = 2 + itemsLength current →
      (current ≠ [] → currentLength ≤ maxChunkLength) →
      ∀ g, ((groupLoop maxChunkLength [] current currentLength inputs).1
          ++ [(groupLoop maxChunkLength [] current currentLength inputs).2]).head? = some g →
        g ≠ [] → 2 + itemsLength g ≤ maxChunkLength := by
  induction inputs with
  | nil =>
    intro current currentLength hcount hcur g hg hne
    rw [groupLoop_nil] at hg
    simp only [List.nil_append, List.head?_cons, Option.some.injEq] at hg
    rw [← hg] at hne ⊢
    have := hcur hne
    omega
  | cons s rest ih =>
    intro current currentLength hcount hcur g hg hne
    by_cases hlen : currentLength + (jsLength s + 1) > maxChunkLength
    · rw [groupLoop_push _ _ _ _ _ _ hlen] at hg
      obtain ⟨more, hmore⟩ := groupLoop_closed_prefix maxChunkLength rest ([] ++ [current]) [s]
        (jsLength s + 1)
      rw [hmore] at hg
      simp only [List.nil_append, List.cons_append, List.head?_cons, Option.some.injEq] at hg
      rw [← hg] at hne ⊢
      have := hcur hne
      omega
    · rw [groupLoop_add _ _ _ _ _ _ hlen] at hg
      refine ih (current ++ [s]) (currentLength + (jsLength s + 1)) ?_ ?_ g hg hne
      · rw [itemsLength_append, itemsLength_cons, itemsLength_nil]
        omega
      · intro _
        omega

theorem mem_chunkGroups (inputs : List String) (maxChunkLength : Nat) (g : List String)
    (h : g ∈ chunkGroups inputs maxChunkLength) :
    g ∈ (groupLoop maxChunkLength [] [] 2 inputs).1
      ++ [(groupLoop maxChunkLength [] [] 2 inputs).2] := by
  rw [chunkGroups_eq] at h
  rcases List.mem_append.mp h with h1 | h1
  · exact List.mem_append_left _ h1
  · by_cases hne : (groupLoop maxChunkLength [] [] 2 inputs).2.length > 0
    · rw [if_pos hne] at h1
      exact List.mem_append_right _ h1
    · rw [if_neg hne] at h1
      cases h1

theorem head_chunkGroups (inputs : List String) (maxChunkLength : Nat) (g : List String)
    (h : (chunkGroups inputs maxChunkLength).head? = some g) :
    ((groupLoop maxChunkLength [] [] 2 inputs).1
      ++ [(groupLoop maxChunkLength [] [] 2 inputs).2]).head? = some g := by
  rw [chunkGroups_eq] at h
  cases h1 : (groupLoop maxChunkLength [] [] 2 inputs).1 with
  | cons a t =>
    rw [h1] at h
    simpa using h
  | nil =>
    rw [h1] at h
    by_cases hne : (groupLoop maxChunkLength [] [] 2 inputs).2.length > 0
    · rw [if_pos hne] at h
      simpa using h
    · rw [if_neg hne] at h
      cases h

/-- C25. When every comment serializes, the chunks returned by
`chunkCommentsForAnalysis` are the renderings of the item lists `chunkGroups`;
each chunk of two or more items has length at most the budget plus one, and
the first chunk, when it holds one or more items, has length at most the
budget minus one. -/
theorem chunk_length_bounds (mapCommentToAiInput : Comment → Except JsError String)
    (comments : List Comment) (maxChunkLength : Nat) (inputs : List String)
    (hser : serializeAll mapCommentToAiInput comments = Except.ok inputs) :
    chunkCommentsForAnalysis mapCommentToAiInput comments maxChunkLength
        = Except.ok ((chunkGroups inputs maxChunkLength).map renderChunk)
      ∧ (∀ g ∈ chunkGroups inputs maxChunkLength, 2 ≤ g.length →
          jsLength (renderChunk g) ≤ maxChunkLength + 1)
      ∧ (∀ g, (chunkGroups inputs maxChunkLength).head? = some g → 1 ≤ g.length →
          jsLength (renderChunk g) + 1 ≤ maxChunkLength) := by
  refine ⟨chunkCommentsForAnalysis_eq_groups mapCommentToAiInput comments maxChunkLength
    inputs hser, ?_, ?_⟩
  · intro g hg h2
    have hbound := groupLoop_multi_bound maxChunkLength inputs [] [] 2
      (fun g hg => by cases hg) (by rw [itemsLength_nil]; omega) (fun h => by simp at h)
      g (mem_chunkGroups inputs maxChunkLength g hg) h2
    cases g with
    | nil => simp at h2
    | cons a rest =>
      rw [jsLength_renderChunk]
      omega
  · intro g hg h1
    cases g with
    | nil => simp at h1
    | cons a rest =>
      have hbound := groupLoop_first_bound maxChunkLength inputs [] 2 rfl
        (fun h => absurd rfl h) (a :: rest) (head_chunkGroups inputs maxChunkLength _ hg)
        (by simp)
      rw [jsLength_renderChunk]
      omega

theorem chunk_length_bounds_witness :
    chunkCommentsForAnalysis sampleSerializer paddedComments 1000
        = Except.ok ((chunkGroups [paddedInput "c1", paddedInput "c2", paddedInput "c3"]
            1000).map renderChunk)
      ∧ (∀ g ∈ chunkGroups [paddedInput "c1", paddedInput "c2", paddedInput "c3"] 1000,
          2 ≤ g.length → jsLength (renderChunk g) ≤ 1000 + 1)
      ∧ (∀ g, (chunkGroups [paddedInput "c1", paddedInput "c2", paddedInput "c3"] 1000).head?
            = some g → 1 ≤ g.length → jsLength (renderChunk g) + 1 ≤ 1000) :=
  chunk_length_bounds sampleSerializer paddedComments 1000
    [paddedInput "c1", paddedInput "c2", paddedInput "c3"] rfl

/-! ## Theorems: the update batches -/

theorem updateLoop_batch_bound (coerce : String → JsValue → Bool) (clock : Nat → Nat)
    (comments : List Comment) (results : List JsValue) :
    ∀ (index : Nat) (updatePromises : List CommentUpdate) (awaited : List (List CommentUpdate)),
      updatePromises.length ≤ index % 300 →
      (∀ batch ∈ awaited, batch.length ≤ 300) →
      (∀ batch ∈ (updateLoop coerce clock comments index updatePromises awaited results).2,
          batch.length ≤ 300)
        ∧ (updateLoop coerce clock comments index updatePromises awaited results).1.length
          ≤ 300 := by
  induction results with
  | nil =>
    intro index updatePromises awaited hlen hawaited
    have hmod : index % 300 < 300 := Nat.mod_lt _ (by omega)
    simp only [updateLoop]
    exact ⟨hawaited, by omega⟩
  | cons r rest ih =>
    intro index updatePromises awaited hlen hawaited
    have hmod : index % 300 < 300 := Nat.mod_lt _ (by omega)
    have hstaged : (match stagedUpdate coerce clock comments index r with
        | some u => updatePromises ++ [u]
        | none => updatePromises).length ≤ index % 300 + 1 := by
      cases stagedUpdate coerce clock comments index r with
      | none => simp only []; omega
      | some u => simp only [List.length_append, List.length_singleton]; omega
    simp only [updateLoop]
    by_cases hflush : (index + 1) % 300 = 0
    · simp only [hflush, if_true]
      apply ih
      · simp
      · intro batch hbatch
        rcases List.mem_append.mp hbatch with h | h
        · exact hawaited batch h
        · rw [List.mem_singleton.mp h]
          omega
    · simp only [hflush, if_false]
      apply ih
      · have hnext : (index + 1) % 300 = index % 300 + 1 := by omega
        rw [hnext]
        exact hstaged
      · exact hawaited

/-- C24. The batches awaited by `updateCommentsAnalysis` hold at most 300
updates each, and put end to end they are the staged updates, each once and
in staging order: none is left out when the method returns. -/
theorem update_batches_cover_staged (coerce : String → JsValue → Bool) (clock : Nat → Nat)
    (comments : List Comment) (results : List JsValue) :
    (∀ batch ∈ updateCommentsAnalysis coerce clock comments results, batch.length ≤ 300)
      ∧ (updateCommentsAnalysis coerce clock comments results).flatten
        = stagedFrom coerce clock comments 0 results := by
  constructor
  · obtain ⟨hawaited, hlast⟩ := updateLoop_batch_bound coerce clock comments results 0 [] []
      (by simp) (fun batch h => by cases h)
    intro batch hbatch
    unfold updateCommentsAnalysis at hbatch
    by_cases hne : (updateLoop coerce clock comments 0 [] [] results).1.length > 0
    · simp only [hne, if_true] at hbatch
      rcases List.mem_append.mp hbatch with h | h
      · exact hawaited batch h
      · rw [List.mem_singleton.mp h]
        exact hlast
    · simp only [hne, if_false] at hbatch
      exact hawaited batch hbatch
  · exact issuedUpdates_eq_stagedFrom coerce clock comments results

/-! ## Theorems: the flattening of the extracted results -/

/-- C23 (counterexample). On the text `[[{"id":"a"}]]` the scan finds the
whole text as its one fragment; with a parser that reads it as the nested
array, `extractJsonFromText` returns a list whose one element is the inner
array `[{"id":"a"}]`: `flat()` removes one level only. -/
theorem extract_nested_array_not_flat :
    jsMatch nestedText = some [nestedText]
      ∧ extractJsonFromText nestedParse nestedText
        = Except.ok [JsValue.arr [JsValue.obj [("id", JsValue.str "a")]]]
      ∧ (JsValue.arr [JsValue.obj [("id", JsValue.str "a")]]).isArray = true :=
  ⟨by decide, rfl, rfl⟩

theorem mem_jsFlat (values : List JsValue) :
    ∀ x ∈ jsFlat values, ∃ v ∈ values,
      (v = x ∧ x.isArray = false) ∨ ∃ items, v = JsValue.arr items ∧ x ∈ items := by
  induction values with
  | nil => intro x hx; simp [jsFlat] at hx
  | cons v rest ih =>
    intro x hx
    rw [jsFlat_cons] at hx
    rcases List.mem_append.mp hx with h | h
    · refine ⟨v, List.mem_cons_self v rest, ?_⟩
      cases v with
      | arr items =>
        right
        exact ⟨items, rfl, by simpa [jsFlat] using h⟩
      | undefined => simp [jsFlat] at h; left; exact ⟨h.symm, by rw [h]; rfl⟩
      | null => simp [jsFlat] at h; left; exact ⟨h.symm, by rw [h]; rfl⟩
      | bool b => simp [jsFlat] at h; left; exact ⟨h.symm, by rw [h]; rfl⟩
      | num n => simp [jsFlat] at h; left; exact ⟨h.symm, by rw [h]; rfl⟩
      | str s => simp [jsFlat] at h; left; exact ⟨h.symm, by rw [h]; rfl⟩
      | obj fields => simp [jsFlat] at h; left; exact ⟨h.symm, by rw [h]; rfl⟩
    · obtain ⟨w, hw, hcase⟩ := ih x h
      exact ⟨w, List.mem_cons_of_mem v hw, hcase⟩

theorem parseEach_mem (parse : String → Except JsError JsValue) (ms : List String) :
    ∀ values, parseEach parse ms = Except.ok values →
      ∀ v ∈ values, ∃ m ∈ ms, parse m = Except.ok v := by
  induction ms with
  | nil =>
    intro values h v hv
    simp only [parseEach, Except.ok.injEq] at h
    rw [← h] at hv
    cases hv
  | cons m rest ih =>
    intro values h v hv
    simp only [parseEach] at h
    cases hm : parse m with
    | error e => simp [hm] at h
    | ok w =>
      cases hr : parseEach parse rest with
      | error e => simp [hm, hr] at h
      | ok ws =>
        simp only [hm, hr, Except.ok.injEq] at h
        rw [← h] at hv
        rcases List.mem_cons.mp hv with hv1 | hv1
        · exact ⟨m, List.mem_cons_self m rest, by rw [hm, hv1]⟩
        · obtain ⟨m', hm', hp⟩ := ih ws hr v hv1
          exact ⟨m', List.mem_cons_of_mem m hm', hp⟩

/-- C23 (amended). Every element of the list returned by
`extractJsonFromText` is a scanned fragment's value that is not an array, or
an element of a scanned fragment's value that is an array: one level of
nesting is removed. Hence the list holds no array when no scanned fragment is
read as an array that itself holds an array. -/
theorem extract_flat_one_level (parse : String → Except JsError JsValue) (text : String)
    (values : List JsValue) (h : extractJsonFromText parse text = Except.ok values) :
    ∃ matched, jsMatch text = some matched
      ∧ (∀ x ∈ values, ∃ fragment ∈ matched,
          (parse fragment = Except.ok x ∧ x.isArray = false)
            ∨ ∃ items, parse fragment = Except.ok (JsValue.arr items) ∧ x ∈ items)
      ∧ ((∀ fragment ∈ matched, ∀ items, parse fragment = Except.ok (JsValue.arr items) →
            ∀ y ∈ items, y.isArray = false) →
          ∀ x ∈ values, x.isArray = false) := by
  unfold extractJsonFromText at h
  cases hm : jsMatch text with
  | none => simp [hm] at h
  | some matched =>
    cases hp : parseEach parse matched with
    | error e => simp [hm, hp] at h
    | ok parsed =>
      simp only [hm, hp, Except.ok.injEq] at h
      have horigin : ∀ x ∈ values, ∃ fragment ∈ matched,
          (parse fragment = Except.ok x ∧ x.isArray = false)
            ∨ ∃ items, parse fragment = Except.ok (JsValue.arr items) ∧ x ∈ items := by
        intro x hx
        rw [← h] at hx
        obtain ⟨v, hv, hcase⟩ := mem_jsFlat parsed x hx
        obtain ⟨m, hmem, hparse⟩ := parseEach_mem parse matched parsed hp v hv
        refine ⟨m, hmem, ?_⟩
        rcases hcase with ⟨hvx, hnot⟩ | ⟨items, hitems, hin⟩
        · left
          exact ⟨by rw [hparse, hvx], hnot⟩
        · right
          exact ⟨items, by rw [hparse, hitems], hin⟩
      refine ⟨matched, rfl, horigin, ?_⟩
      intro hflat x hx
      obtain ⟨fragment, hmem, hcase⟩ := horigin x hx
      rcases hcase with ⟨_, hnot⟩ | ⟨items, hitems, hin⟩
      · exact hnot
      · exact hflat fragment hmem items hitems x hin

theorem extract_flat_one_level_witness :
    ∃ matched, jsMatch twoIdsText = some matched
      ∧ (∀ x ∈ twoIdsValues, ∃ fragment ∈ matched,
          (twoIdsParse fragment = Except.ok x ∧ x.isArray = false)
            ∨ ∃ items, twoIdsParse fragment = Except.ok (JsValue.arr items) ∧ x ∈ items)
      ∧ ((∀ fragment ∈ matched, ∀ items,
            twoIdsParse fragment = Except.ok (JsValue.arr items) →
            ∀ y ∈ items, y.isArray = false) →
          ∀ x ∈ twoIdsValues, x.isArray = false) :=
  extract_flat_one_level twoIdsParse twoIdsText twoIdsValues rfl

/-! ## Theorems: the comment serializer -/

theorem chunkLoop_error (mapCommentToAiInput : Comment → Except JsError String)
    (maxChunkLength : Nat) (e : JsError) (comment : Comment) (rest : List Comment)
    (h : mapCommentToAiInput comment = Except.error e) :
    ∀ (before : List Comment) (inputs : List String) (st : ChunkState),
      serializeAll mapCommentToAiInput before = Except.ok inputs →
      chunkLoop mapCommentToAiInput maxChunkLength st (before ++ comment :: rest)
        = Except.error e := by
  intro before
  induction before with
  | nil =>
    intro inputs st _
    simp only [List.nil_append, chunkLoop, chunkStep, h]
  | cons c more ih =>
    intro inputs st hser
    simp only [serializeAll] at hser
    cases hc : mapCommentToAiInput c with
    | error e' => simp [hc] at hser
    | ok s =>
      cases hr : serializeAll mapCommentToAiInput more with
      | error e' => simp [hc, hr] at hser
      | ok ss =>
        by_cases hlen : st.currentLength + (jsLength s + 1) > maxChunkLength
        · simp only [List.cons_append, chunkLoop, chunkStep, hc, hlen, if_true]
          exact ih ss _ hr
        · simp only [List.cons_append, chunkLoop, chunkStep, hc, hlen, if_false]
          exact ih ss _ hr

/-- C26 (failing input). A stored comment whose content is `null`, or whose
content is a string and whose author name is `null`: `mapCommentToAiInput`
throws the `TypeError` of reading `trim` on `null` instead of returning a
string, and `chunkCommentsForAnalysis` throws it for every list in which the
comments before that one serialize. -/
theorem null_field_throws (stringify : Comment → Except JsError String) (comment : Comment)
    (before rest : List Comment) (inputs : List String) (maxChunkLength : Nat)
    (h : comment.content = JsValue.null
      ∨ ((∃ s, comment.content = JsValue.str s) ∧ comment.authorFullName = JsValue.null))
    (hser : serializeAll (mapCommentToAiInput stringify) before = Except.ok inputs) :
    mapCommentToAiInput stringify comment = Except.error (JsError.nullProperty "trim")
      ∧ chunkCommentsForAnalysis (mapCommentToAiInput stringify)
          (before ++ comment :: rest) maxChunkLength
        = Except.error (JsError.nullProperty "trim") := by
  have hthrow : mapCommentToAiInput stringify comment
      = Except.error (JsError.nullProperty "trim") := by
    unfold mapCommentToAiInput
    rcases h with h | ⟨⟨s, hs⟩, hname⟩
    · rw [h]
      rfl
    · rw [hs, hname]
      rfl
  refine ⟨hthrow, ?_⟩
  unfold chunkCommentsForAnalysis
  rw [chunkLoop_error (mapCommentToAiInput stringify) maxChunkLength _ comment rest hthrow
    before inputs _ hser]

theorem null_field_throws_witness :
    mapCommentToAiInput sampleStringify (Comment.withContent "c2" "nice post")
        = Except.error (JsError.nullProperty "trim")
      ∧ chunkCommentsForAnalysis (mapCommentToAiInput sampleStringify)
          ([Comment.withAuthor "c1" "hi" "Ann"] ++ Comment.withContent "c2" "nice post"
            :: [Comment.withAuthor "c3" "ok" "Bob"]) 1000
        = Except.error (JsError.nullProperty "trim") :=
  null_field_throws sampleStringify (Comment.withContent "c2" "nice post")
    [Comment.withAuthor "c1" "hi" "Ann"] [Comment.withAuthor "c3" "ok" "Bob"]
    ["\x7b\"id\":\"c1\",\"content\":\"hi\",\"authorFullName\":\"Ann\"\x7d"] 1000
    (Or.inr ⟨⟨"nice post", rfl⟩, rfl⟩) rfl

/-! ## Theorems: the cutting of a stream into chunks -/

theorem splitLines_nil : splitLines [] = [[]] := rfl

theorem splitLines_newline (t : List Char) : splitLines ('\n' :: t) = [] :: splitLines t := rfl

theorem splitLines_ne_nil (s : List Char) : splitLines s ≠ [] := by
  induction s with
  | nil => simp [splitLines]
  | cons c t ih =>
    by_cases hc : (c == '\n') = true
    · simp [splitLines, hc]
    · cases h : splitLines t with
      | nil => exact absurd h ih
      | cons l0 rest => simp [splitLines, hc, h]

theorem splitLines_cons_ne (c : Char) (t l0 : List Char) (rest : List (List Char))
    (hc : c ≠ '\n') (h : splitLines t = l0 :: rest) :
    splitLines (c :: t) = (c :: l0) :: rest := by
  have hc' : (c == '\n') = false := by simpa using hc
  simp only [splitLines, hc', h]
  rfl

/-- The lines of a text in which a newline stands: those of the text before
it, then those of the text after it. -/
theorem splitLines_append_newline (x y : List Char) :
    splitLines (x ++ '\n' :: y) = splitLines x ++ splitLines y := by
  induction x with
  | nil => rfl
  | cons c t ih =>
    by_cases hc : c = '\n'
    · rw [hc, List.cons_append, splitLines_newline, splitLines_newline, ih, List.cons_append]
    · cases h : splitLines t with
      | nil => exact absurd h (splitLines_ne_nil t)
      | cons l0 rest =>
        have h2 : splitLines (t ++ '\n' :: y) = l0 :: (rest ++ splitLines y) := by
          rw [ih, h, List.cons_append]
        rw [List.cons_append, splitLines_cons_ne c _ l0 _ hc h2, splitLines_cons_ne c t l0 rest hc h,
          List.cons_append]

theorem splitLines_trimStart (s : List Char) :
    (∀ line ∈ splitLines s, ∀ c ∈ line.head?, isWhiteSpace c = false) →
    ∃ k, splitLines s = List.replicate k [] ++ splitLines (trimStart s) := by
  induction s with
  | nil => intro _; exact ⟨0, rfl⟩
  | cons c t ih =>
    intro h
    by_cases hws : isWhiteSpace c = true
    · have hc : c = '\n' := by
        by_contra hne
        cases hsplit : splitLines t with
        | nil => exact absurd hsplit (splitLines_ne_nil t)
        | cons l0 rest =>
          have hfirst := h (c :: l0)
            (by rw [splitLines_cons_ne c t l0 rest hne hsplit]; exact List.mem_cons_self _ _)
            c (by simp)
          rw [hws] at hfirst
          cases hfirst
      rw [hc] at h ⊢
      rw [splitLines_newline] at h
      obtain ⟨k, hk⟩ := ih (fun line hl => h line (List.mem_cons_of_mem _ hl))
      refine ⟨k + 1, ?_⟩
      have htrim : trimStart ('\n' :: t) = trimStart t := by
        unfold trimStart
        rw [List.dropWhile_cons, if_pos (by decide)]
      rw [splitLines_newline, htrim, List.replicate_succ, List.cons_append, ← hk]
    · refine ⟨0, ?_⟩
      have htrim : trimStart (c :: t) = c :: t := by
        unfold trimStart
        rw [List.dropWhile_cons, if_neg hws]
      rw [htrim]
      rfl

theorem trimEnd_cons (c : Char) (t : List Char) :
    trimEnd (c :: t)
      = if trimEnd t = [] ∧ isWhiteSpace c = true then [] else c :: trimEnd t := by
  unfold trimEnd
  rw [List.reverse_cons, List.dropWhile_append]
  by_cases hempty : (List.dropWhile isWhiteSpace t.reverse).isEmpty = true
  · have hnil : List.dropWhile isWhiteSpace t.reverse = [] := List.isEmpty_iff.mp hempty
    rw [if_pos hempty, hnil]
    by_cases hws : isWhiteSpace c = true
    · rw [if_pos ⟨rfl, hws⟩, List.dropWhile_cons, if_pos hws]
      rfl
    · rw [if_neg (fun h => hws h.2), List.dropWhile_cons, if_neg hws]
      rfl
  · have hne : List.dropWhile isWhiteSpace t.reverse ≠ [] :=
      fun h => hempty (List.isEmpty_iff.mpr h)
    rw [if_neg hempty, if_neg (fun h => hne (List.reverse_eq_nil_iff.mp h.1)),
      List.reverse_append]
    rfl

theorem splitLines_trimEnd (s : List Char) :
    (∀ line ∈ splitLines s, ∀ c ∈ line.getLast?, isWhiteSpace c = false) →
    ∃ k, splitLines s = splitLines (trimEnd s) ++ List.replicate k [] := by
  induction s with
  | nil => intro _; exact ⟨0, rfl⟩
  | cons c t ih =>
    intro h
    cases hsplit : splitLines t with
    | nil => exact absurd hsplit (splitLines_ne_nil t)
    | cons l0 rest =>
      have hlines : ∀ line ∈ splitLines t, ∀ x ∈ line.getLast?, isWhiteSpace x = false := by
        intro line hl x hx
        by_cases hc : c = '\n'
        · rw [hc, splitLines_newline] at h
          exact h line (List.mem_cons_of_mem _ hl) x hx
        · rw [splitLines_cons_ne c t l0 rest hc hsplit] at h
          rw [hsplit] at hl
          rcases List.mem_cons.mp hl with hl0 | hlr
          · rw [hl0] at hx
            cases l0 with
            | nil => simp at hx
            | cons a u =>
              exact h (c :: a :: u) (List.mem_cons_self _ _) x
                (by rw [List.getLast?_cons_cons]; exact hx)
          · exact h line (List.mem_cons_of_mem _ hlr) x hx
      obtain ⟨k, hk⟩ := ih hlines
      rw [trimEnd_cons]
      by_cases hcase : trimEnd t = [] ∧ isWhiteSpace c = true
      · rw [if_pos hcase]
        have hc : c = '\n' := by
          by_contra hne
          rw [hcase.1, splitLines_nil, hsplit] at hk
          have hl0 : l0 = [] := by
            have := List.head_eq_of_cons_eq hk
            exact this
          have hfirst := h [c]
            (by rw [splitLines_cons_ne c t l0 rest hne hsplit, hl0]; exact List.mem_cons_self _ _)
            c (by simp)
          rw [hcase.2] at hfirst
          cases hfirst
        refine ⟨k + 1, ?_⟩
        rw [hc, splitLines_newline, hk, hcase.1, splitLines_nil, List.replicate_succ]
        rfl
      · rw [if_neg hcase]
        refine ⟨k, ?_⟩
        by_cases hc : c = '\n'
        · rw [hc, splitLines_newline, splitLines_newline, List.cons_append, ← hk]
        · cases hsplit2 : splitLines (trimEnd t) with
          | nil => exact absurd hsplit2 (splitLines_ne_nil _)
          | cons l1 rest1 =>
            rw [hsplit2, hsplit, List.cons_append] at hk
            have hl : l0 = l1 := List.head_eq_of_cons_eq hk
            have hr : rest = rest1 ++ List.replicate k [] := List.tail_eq_of_cons_eq hk
            rw [splitLines_cons_ne c t l0 rest hc hsplit,
              splitLines_cons_ne c _ l1 rest1 hc hsplit2, hl, hr, List.cons_append]

theorem filter_replicate_blank (k : Nat) :
    (List.replicate k ([] : List Char)).filter (fun line => jsTrim line != []) = [] := by
  rw [List.filter_replicate]
  rfl

/-- The lines of a chunk whose lines carry no white space at their ends:
the lines of its text that are not blank. -/
theorem chunkLines_of_trimmed (chunk : String)
    (h : ∀ line ∈ splitLines chunk.data, Trimmed line) :
    chunkLines chunk = (splitLines chunk.data).filter (fun line => jsTrim line != []) := by
  obtain ⟨k1, hk1⟩ := splitLines_trimStart chunk.data (fun line hl => (h line hl).1)
  have hlines : ∀ line ∈ splitLines (trimStart chunk.data), ∀ c ∈ line.getLast?,
      isWhiteSpace c = false := by
    intro line hl
    exact (h line (by rw [hk1]; exact List.mem_append_right _ hl)).2
  obtain ⟨k2, hk2⟩ := splitLines_trimEnd (trimStart chunk.data) hlines
  have hall : (splitLines chunk.data).filter (fun line => jsTrim line != [])
      = (splitLines (jsTrim chunk.data)).filter (fun line => jsTrim line != []) := by
    rw [hk1, hk2, List.filter_append, List.filter_append, filter_replicate_blank,
      filter_replicate_blank, List.nil_append, List.append_nil]
    rfl
  unfold chunkLines
  by_cases hnil : jsTrim chunk.data = []
  · rw [if_pos hnil, hall, hnil]
    rfl
  · rw [if_neg hnil, hall]

theorem streamText_cons (chunk : String) (rest : List String) :
    streamText (chunk :: rest) = chunk.data ++ streamText rest := by
  simp [streamText]

theorem trimmed_nil : Trimmed [] := by
  constructor <;> intro c hc <;> simp at hc

/-- The lines read from a stream whose chunks end at line ends and whose
lines carry no white space at their ends: the lines of the text of the
stream that are not blank. -/
theorem streamLines_of_whole_lines (stream : List String) :
    (∀ chunk ∈ stream, endsAtLine chunk = true) →
    (∀ line ∈ splitLines (streamText stream), Trimmed line) →
    streamLines stream
      = (splitLines (streamText stream)).filter (fun line => jsTrim line != []) := by
  induction stream with
  | nil => intro _ _; rfl
  | cons chunk rest ih =>
    intro hends hlines
    have hsplit : streamLines (chunk :: rest) = chunkLines chunk ++ streamLines rest := by
      simp [streamLines]
    have hend := hends chunk (List.mem_cons_self _ _)
    have hrest := fun c hc => hends c (List.mem_cons_of_mem chunk hc)
    rw [streamText_cons] at hlines ⊢
    rw [hsplit]
    rcases List.eq_nil_or_concat chunk.data with hnil | ⟨a, x, hconcat⟩
    · rw [hnil, List.nil_append] at hlines ⊢
      have hchunk : chunkLines chunk = [] := by
        unfold chunkLines
        rw [hnil]
        rfl
      rw [hchunk, List.nil_append]
      exact ih hrest hlines
    · rw [List.concat_eq_append] at hconcat
      have hx : x = '\n' := by
        unfold endsAtLine at hend
        rw [hconcat, List.getLast?_concat] at hend
        simpa using hend
      rw [hx] at hconcat
      have htext : chunk.data ++ streamText rest = a ++ '\n' :: streamText rest := by
        rw [hconcat, List.append_assoc]
        rfl
      rw [htext, splitLines_append_newline] at hlines
      rw [htext, splitLines_append_newline, List.filter_append]
      have hchunkLines : splitLines chunk.data = splitLines a ++ [[]] := by
        rw [hconcat, splitLines_append_newline, splitLines_nil]
      have hchunk : chunkLines chunk
          = (splitLines a).filter (fun line => jsTrim line != []) := by
        rw [chunkLines_of_trimmed chunk, hchunkLines, List.filter_append]
        · rw [show ([[]] : List (List Char)).filter (fun line => jsTrim line != []) = [] from rfl,
            List.append_nil]
        · intro line hl
          rw [hchunkLines] at hl
          rcases List.mem_append.mp hl with h1 | h1
          · exact hlines line (List.mem_append_left _ h1)
          · rw [List.mem_singleton.mp h1]
            exact trimmed_nil
      rw [hchunk, ih hrest (fun line hl => hlines line (List.mem_append_right _ hl))]

theorem eventContribution_congr (env1 env2 : DuckEnv) (hparse : env2.jsonParse = env1.jsonParse)
    (hstr : env2.toStr = env1.toStr) (line : List Char) :
    eventContribution env2 line = eventContribution env1 line := by
  unfold eventContribution
  rw [hparse, hstr]

/-- The message read from a stream whose chunks end at line ends, whose lines
carry no white space at their ends and none of which is the terminator: the
contributions of the lines of the text of the stream, in order. -/
theorem readStream_of_whole_lines (env : DuckEnv) (stream : List String)
    (hends : ∀ chunk ∈ stream, endsAtLine chunk = true)
    (hlines : ∀ line ∈ splitLines (streamText stream),
      Trimmed line ∧ isTerminatorLine line = false) :
    (readStream env stream).responseMessage
      = concatTexts (((splitLines (streamText stream)).filter
          (fun line => jsTrim line != [])).map (eventContribution env)) := by
  have hread := streamLines_of_whole_lines stream hends (fun line hl => (hlines line hl).1)
  have hopen : ∀ line ∈ streamLines stream, isTerminatorLine line = false := by
    intro line hl
    rw [hread] at hl
    exact (hlines line (List.mem_of_mem_filter hl)).2
  have hmsg := readStreamFrom_message env stream (StreamState.mk JsValue.null "" JsValue.null)
    hopen
  simp only [String.empty_append] at hmsg
  unfold readStream
  rw [hmsg, hread]

/-- When the tokens are set, the completion request is answered and the
rotation of the tokens succeeds, `chat` returns the message read from the
stream. -/
theorem chat_returns_read (env : DuckEnv) (st : DuckState) (fuel : Nat)
    (response : HttpResponse)
    (htokens : (tokenMissing st.vqd.vqdHash || tokenMissing st.vqd.feSignals
      || tokenMissing st.vqd.feVersion) = false)
    (hpost : env.postChat st.chatRequests st.vqd = Except.ok response)
    (hrotate : response.status = 200 →
      ∃ hash, env.generateVQDHash response.vqdHashHeader = Except.ok hash) :
    ∃ result, (chat env (fuel + 1) st).1 = some (Except.ok result)
      ∧ result.message = (readStream env response.stream).responseMessage := by
  by_cases h200 : response.status = 200
  · obtain ⟨hash, hhash⟩ := hrotate h200
    refine ⟨ChatResult.mk (readStream env response.stream).responseId "gpt-4o-mini"
      "assistant" (readStream env response.stream).responseMessage "success"
      (readStream env response.stream).responseCreated, ?_, rfl⟩
    simp [chat, htokens, chatAttempt, hpost, h200, regenerateTokens, hhash]
  · refine ⟨ChatResult.mk (readStream env response.stream).responseId "gpt-4o-mini"
      "assistant" (readStream env response.stream).responseMessage "success"
      (readStream env response.stream).responseCreated, ?_, rfl⟩
    simp [chat, htokens, chatAttempt, hpost, h200]

/-- C27 (counterexample). The text of one event line, handed over as one
chunk and as two chunks cut inside the event: `chat` returns `Hello` for the
first stream and the empty message for the second, although the two streams
have the same text. -/
theorem chat_message_depends_on_cut :
    streamText streamWholeEvent = streamText streamCutInEvent
      ∧ (∃ result, (chat (streamingEnv streamWholeEvent) 1 readyDuckState).1
            = some (Except.ok result)
          ∧ result.message = "Hello")
      ∧ ∃ result, (chat (streamingEnv streamCutInEvent) 1 readyDuckState).1
            = some (Except.ok result)
          ∧ result.message = "" :=
  ⟨by decide, ⟨_, rfl, by decide⟩, ⟨_, rfl, by decide⟩⟩

/-- C27 (amended). Two streams with the same text, both cut at line ends
(every chunk is empty or ends with a newline), the lines of the text carrying
no white space at their ends and none of them being the terminator: when the
tokens are set, the completion requests are answered and the rotation of the
tokens succeeds, `chat` returns the same message for both, the contributions
of the lines of the text in order. -/
theorem chat_message_cut_at_lines (env1 env2 : DuckEnv) (st : DuckState) (fuel : Nat)
    (response1 response2 : HttpResponse)
    (hparse : env2.jsonParse = env1.jsonParse) (hstr : env2.toStr = env1.toStr)
    (htokens : (tokenMissing st.vqd.vqdHash || tokenMissing st.vqd.feSignals
      || tokenMissing st.vqd.feVersion) = false)
    (hpost1 : env1.postChat st.chatRequests st.vqd = Except.ok response1)
    (hpost2 : env2.postChat st.chatRequests st.vqd = Except.ok response2)
    (hrotate1 : response1.status = 200 →
      ∃ hash, env1.generateVQDHash response1.vqdHashHeader = Except.ok hash)
    (hrotate2 : response2.status = 200 →
      ∃ hash, env2.generateVQDHash response2.vqdHashHeader = Except.ok hash)
    (htext : streamText response2.stream = streamText response1.stream)
    (hends1 : ∀ chunk ∈ response1.stream, endsAtLine chunk = true)
    (hends2 : ∀ chunk ∈ response2.stream, endsAtLine chunk = true)
    (hlines : ∀ line ∈ splitLines (streamText response1.stream),
      Trimmed line ∧ isTerminatorLine line = false) :
    ∃ result1 result2, (chat env1 (fuel + 1) st).1 = some (Except.ok result1)
      ∧ (chat env2 (fuel + 1) st).1 = some (Except.ok result2)
      ∧ result1.message = result2.message
      ∧ result1.message
        = concatTexts (((splitLines (streamText response1.stream)).filter
            (fun line => jsTrim line != [])).map (eventContribution env1)) := by
  obtain ⟨r1, hr1, hm1⟩ := chat_returns_read env1 st fuel response1 htokens hpost1 hrotate1
  obtain ⟨r2, hr2, hm2⟩ := chat_returns_read env2 st fuel response2 htokens hpost2 hrotate2
  have h1 := readStream_of_whole_lines env1 response1.stream hends1 hlines
  have h2 := readStream_of_whole_lines env2 response2.stream hends2 (by rw [htext]; exact hlines)
  have hcongr : eventContribution env2 = eventContribution env1 :=
    funext (eventContribution_congr env1 env2 hparse hstr)
  rw [htext, hcongr] at h2
  refine ⟨r1, r2, hr1, hr2, ?_, ?_⟩
  · rw [hm1, hm2, h1, h2]
  · rw [hm1, h1]

theorem chat_message_cut_at_lines_witness :
    ∃ result1 result2,
      (chat (streamingEnv streamCutAtLinesOnce) (0 + 1) readyDuckState).1
          = some (Except.ok result1)
      ∧ (chat (streamingEnv streamCutAtEveryLine) (0 + 1) readyDuckState).1
          = some (Except.ok result2)
      ∧ result1.message = result2.message
      ∧ result1.message
        = concatTexts (((splitLines (streamText
            (HttpResponse.mk 200 (some "challenge") streamCutAtLinesOnce).stream)).filter
              (fun line => jsTrim line != [])).map
            (eventContribution (streamingEnv streamCutAtLinesOnce))) :=
  chat_message_cut_at_lines (streamingEnv streamCutAtLinesOnce)
    (streamingEnv streamCutAtEveryLine) readyDuckState 0
    (HttpResponse.mk 200 (some "challenge") streamCutAtLinesOnce)
    (HttpResponse.mk 200 (some "challenge") streamCutAtEveryLine) rfl rfl (by decide) rfl rfl
    (fun _ => ⟨"hash", rfl⟩) (fun _ => ⟨"hash", rfl⟩) (by decide) (by decide) (by decide)
    (by unfold Trimmed; decide)

/-! ## Theorems: the platform validator -/

theorem getPlatform_eq (round : Nat → Nat) (url : String) :
    getPlatform round url
      = if (instagramSearch url.data).isSome then some PlatformType.INSTAGRAM
        else if (telegramSearch url.data).isSome then some PlatformType.TELEGRAM
        else none := by
  unfold getPlatform parseInstagramUrl parseTelegramUrl
  cases instagramSearch url.data with
  | some r => rfl
  | none =>
    cases telegramSearch url.data with
    | some r => rfl
    | none => rfl

/-- C28 (failing input). The string `https://T.me/durov/142`, with a capital
letter in the host: `validate` lowers the case before testing it and accepts
it, and `getPlatform` of the string as received, which `AnalysisService.create`
stores as the platform of the post, is `null`. -/
theorem accepted_url_without_platform (toLowerCase : String → String) (round : Nat → Nat)
    (message : String)
    (hlower : toLowerCase "https://T.me/durov/142" = "https://t.me/durov/142") :
    validate toLowerCase round message (JsValue.str "https://T.me/durov/142") = (true, message)
      ∧ createdPostPlatform round "https://T.me/durov/142" = none := by
  have htrim : String.mk (jsTrim "https://T.me/durov/142".data) = "https://T.me/durov/142" := by
    decide
  have hlowered : getPlatform round "https://t.me/durov/142" = some PlatformType.TELEGRAM := by
    rw [getPlatform_eq]
    decide
  have hraw : getPlatform round "https://T.me/durov/142" = none := by
    rw [getPlatform_eq]
    decide
  constructor
  · unfold validate
    simp only [htrim, hlower, hlowered]
  · exact hraw

theorem accepted_url_without_platform_witness :
    validate asciiLowerCase (fun v => v) unsupportedPlatformMessage
        (JsValue.str "https://T.me/durov/142")
        = (true, unsupportedPlatformMessage)
      ∧ createdPostPlatform (fun v => v) "https://T.me/durov/142" = none :=
  accepted_url_without_platform asciiLowerCase (fun v => v) unsupportedPlatformMessage
    (by decide)

/-- C29 (failing input). A string that is not read as a post address and
whose lowered form contains none of `instagram.com`, `t.me` and `telegram`:
`validate` rejects it and leaves the field `message` as the earlier calls
left it, so `defaultMessage` returns the message of an earlier rejection
when there is one, not the message `Unsupported platform. ...`. -/
theorem rejected_keeps_earlier_message (toLowerCase : String → String) (round : Nat → Nat)
    (message s : String)
    (hplatform : getPlatform round (toLowerCase (String.mk (jsTrim s.data))) = none)
    (h1 : jsIncludes "instagram.com".data (toLowerCase (String.mk (jsTrim s.data))).data = false)
    (h2 : jsIncludes "t.me".data (toLowerCase (String.mk (jsTrim s.data))).data = false)
    (h3 : jsIncludes "telegram".data (toLowerCase (String.mk (jsTrim s.data))).data = false) :
    validate toLowerCase round message (JsValue.str s) = (false, message)
      ∧ defaultMessage (validate toLowerCase round message (JsValue.str s)).2 = message := by
  have hv : validate toLowerCase round message (JsValue.str s) = (false, message) := by
    unfold validate
    simp only [hplatform, h1, h2, h3]
    rfl
  exact ⟨hv, by rw [hv]; rfl⟩

theorem rejected_keeps_earlier_message_witness :
    messageAfter asciiLowerCase (fun v => v) unsupportedPlatformMessage
        [JsValue.str "https://instagram.com/p/ABC123/"]
        = "Instagram is currently unavailable"
      ∧ validate asciiLowerCase (fun v => v) "Instagram is currently unavailable"
          (JsValue.str "hello")
        = (false, "Instagram is currently unavailable")
      ∧ defaultMessage (validate asciiLowerCase (fun v => v)
          "Instagram is currently unavailable" (JsValue.str "hello")).2
        = "Instagram is currently unavailable" :=
  ⟨by decide, rejected_keeps_earlier_message asciiLowerCase (fun v => v)
    "Instagram is currently unavailable" "hello" (by decide) (by decide) (by decide)
    (by decide)⟩

end VibeAnalyze
